import Mathlib

/-!
# X-Blossom: a shallow embedding of the parallel matching engine

The C++ sources `x_blossom.cpp`, `main.cpp` and `x_blossom_pybind.cpp` are embedded as
pure functions over lists.  A `std::vector<int>` is a `List Int`, an access `a[i]` is the
checked read `rd a i` (`none` when the index is out of bounds, which is undefined
behaviour in C++), and a worker thread is a function on the shared phase state.  A kernel
(one fork-join over the frontier) runs its workers one after the other, each to
completion, in the order given by a list of worker indices; the driver uses the order
`0, 1, ..., num_threads - 1`.  Loops of the form `while (true)` carry a fuel argument and
yield `none` when it is used up.  Sizes are natural numbers; the one place where a size is
converted to `int` through a double, the `estimated_size` of a worker, is modelled by
`estimated_size_fits`.

The helpers declared in `blossom.h` (`find_path_vector`, `find_path_vector_blossom`,
`find_path_vector_blossom_w`, `find_blossom_vector_debug`) are not among the sources: the
kernels take them as a parameter `H : PathHelpers`, and `specHelpers` is the instance
described by the specification.
-/

/-! ## Vectors -/

namespace XBlossom

/-- Checked read `l[i]`: `none` stands for an out-of-bounds access. -/
def rd {α : Type} (l : List α) (i : Int) : Option α :=
  if i < 0 then none else l[i.toNat]?

/-- Checked write `l[i] = x`: `none` stands for an out-of-bounds access. -/
def wr {α : Type} (l : List α) (i : Int) (x : α) : Option (List α) :=
  if i < 0 then none else if i.toNat < l.length then some (l.set i.toNat x) else none

/-- The call `cells[i].compare_exchange_strong(expected, desired)`, run atomically: the
flag tells whether the exchange took place, the list is the cells afterwards. -/
def compare_exchange_strong (cells : List Int) (i expected desired : Int) :
    Option (Bool × List Int) :=
  match rd cells i with
  | none => none
  | some cur =>
    if cur = expected then
      match wr cells i desired with
      | none => none
      | some cells1 => some (true, cells1)
    else some (false, cells)

/-- The values `start_index, start_index + 1, ..., end_index - 1` of a loop counter `j`. -/
def indices (start_index end_index : Int) : List Int :=
  (List.range (end_index - start_index).toNat).map (fun (d : Nat) => start_index + (d : Int))

/-- The items `nodes_vector[i]` for `i = index, index + num_threads, ...` visited by the
loop `for (int i = index; i < nodes_vector.size(); i += num_threads)`. -/
def strided (nodes_vector : List Int) (index num_threads : Nat) : List Int :=
  (((nodes_vector.drop index).enum).filter (fun p => p.1 % num_threads = 0)).map (fun p => p.2)

/-! ## Graph and phase state -/

/-- CSR graph: the two vectors the kernels read from `Graph` (`graph.h` is not among the
sources; the field names are the ones used by the callers). -/
structure Graph where
  rowOffsets : List Int
  columnIndices : List Int
deriving DecidableEq, Repr

/-- The vertex count `static_cast<int>(G.rowOffsets.size()) - 1`. -/
def Graph.nodes (G : Graph) : Int := (G.rowOffsets.length : Int) - 1

/-- The vectors shared by the workers of one phase.  `emitted` is a ghost field: it logs
the pair `(tree_v, tree_w)` of every path pushed by `parAugmentingPath`; no code reads
it. -/
structure PhaseState where
  is_even : List Int
  belongs : List Int
  path_table_vector : List (List Int)
  select_tree : List Int
  select_match : List Int
  select_blossom : List Int
  blossom_to_base : List Int
  M : List Int
  path_collection : List (List Int)
  vector_1 : List Int
  vector_2 : List Int
  emitted : List (Int × Int)
deriving DecidableEq, Repr

/-- The path reconstruction helpers of `blossom.h`, whose bodies are not among the
sources.  A result `none` stands for a call that does not return.
`find_path_vector_blossom_w` also yields the final `consistent_flag`,
`find_blossom_vector_debug` yields the vector `blossom` and the final `valid_flag`. -/
structure PathHelpers where
  find_path_vector : List (List Int) → Int → Option (List Int)
  find_path_vector_blossom : List (List Int) → Int → Option (List Int)
  find_path_vector_blossom_w : List (List Int) → Int → List Int → Option (List Int × Bool)
  find_blossom_vector_debug : List Int → List Int → List (List Int) → Option (List Int × Bool)

/-! ## Augment kernel (`parAugmentingPath`) -/

/-- The first statements of a worker, `int estimated_size = static_cast<int>(
(static_cast<double>(is_even.size()) / num_threads) * 1.25)` followed by a `reserve` of
`estimated_size` entries (lines 78-79 and 143-144; the Blossom kernel, lines 193-194, has
no factor 1.25): `quarters` is the factor in quarters, 5 or 4.  The result tells whether
the value converted lies below `2 ^ 31`.  When it does not, the conversion to `int` is
undefined behaviour and the worker has no result (the usual outcome is a negative count,
for which `reserve` throws inside the thread).  The capacity reserved is not observable and
is not modelled.  The test is made on the exact quotient.  For a size below `2 ^ 31`, which
is all an `int` vertex count allows, the double arithmetic of the source gives the same
verdict: with one thread the quotient and the product are exact (the product has at most
34 significant bits) and the test is `5 * size < 2 ^ 33`; with two or more threads the
rounded quotient is at most `2 ^ 30`, the rounded product at most `1.25 * 2 ^ 30`, and the
exact test holds as well; with no thread the quotient is infinite or not a number and the
exact test fails. -/
def estimated_size_fits (size num_threads quarters : Nat) : Bool :=
  decide (quarters * size < 2 ^ 33 * num_threads)

/-- The loop over `j` of `parAugmentingPath` for one frontier vertex `v`; the second
component is the worker's `local_path`. -/
def augment_scan (H : PathHelpers) (columnIndices : List Int) (v : Int) :
    List Int → PhaseState × List Int → Option (PhaseState × List Int)
  | [], r => some r
  | j :: js, (s, local_path) =>
    match rd columnIndices j with
    | none => none
    | some w =>
    match rd s.belongs v, rd s.belongs w, rd s.is_even w with
    | some tree_v, some tree_w, some even_w =>
      if even_w ≠ 0 ∧ tree_v ≠ tree_w ∧ tree_v ≠ -1 ∧ tree_w ≠ -1 then
        let min_tree := if tree_v < tree_w then tree_v else tree_w
        let max_tree := if tree_v < tree_w then tree_w else tree_v
        match compare_exchange_strong s.select_tree min_tree 0 1 with
        | none => none
        | some (false, _) => some (s, local_path)
        | some (true, st1) =>
          match compare_exchange_strong st1 max_tree 0 1 with
          | none => none
          | some (true, st2) =>
            match H.find_path_vector s.path_table_vector v,
                  H.find_path_vector s.path_table_vector w with
            | some path_v_vector, some path_w_vector =>
              augment_scan H columnIndices v js
                ({ s with select_tree := st2, emitted := s.emitted ++ [(tree_v, tree_w)] },
                  local_path ++ path_v_vector.reverse ++ path_w_vector)
            | _, _ => none
          | some (false, st2) =>
            match compare_exchange_strong st2 min_tree 1 0 with
            | none => none
            | some (_, st3) =>
              augment_scan H columnIndices v js ({ s with select_tree := st3 }, local_path)
      else augment_scan H columnIndices v js (s, local_path)
    | _, _, _ => none

/-- The loop over `i` of `parAugmentingPath`, on the worker's share of the frontier. -/
def augment_vertices (H : PathHelpers) (rowOffsets columnIndices : List Int) :
    List Int → PhaseState × List Int → Option (PhaseState × List Int)
  | [], r => some r
  | v :: vs, r =>
    match rd rowOffsets v, rd rowOffsets (v + 1) with
    | some start_index, some end_index =>
      match augment_scan H columnIndices v (indices start_index end_index) r with
      | none => none
      | some r1 => augment_vertices H rowOffsets columnIndices vs r1
    | _, _ => none

/-- One worker of the Augment kernel. -/
def parAugmentingPath (H : PathHelpers) (rowOffsets columnIndices nodes_vector : List Int)
    (index num_threads : Nat) (s : PhaseState) : Option PhaseState :=
  if estimated_size_fits s.is_even.length num_threads 5 then
    match augment_vertices H rowOffsets columnIndices (strided nodes_vector index num_threads)
        (s, []) with
    | none => none
    | some (s1, local_path) =>
      if local_path ≠ [] then
        some { s1 with path_collection := s1.path_collection ++ [local_path] }
      else some s1
  else none

/-! ## Expand kernel (`parExpand`) -/

/-- The loop over `j` of `parExpand` for one frontier vertex `v`; the second component is
the worker's `local_vector`. -/
def expand_scan (columnIndices : List Int) (v : Int) :
    List Int → PhaseState × List Int → Option (PhaseState × List Int)
  | [], r => some r
  | j :: js, (s, local_vector) =>
    match rd columnIndices j with
    | none => none
    | some w =>
    match rd s.M w, rd s.belongs w with
    | some x, some belongs_w =>
      if belongs_w = -1 then
        let min_w_x := min w x
        match compare_exchange_strong s.select_match min_w_x 0 1 with
        | none => none
        | some (false, _) => expand_scan columnIndices v js (s, local_vector)
        | some (true, sm) =>
          match rd s.path_table_vector x with
          | none => none
          | some chain =>
          match wr s.path_table_vector x (chain ++ [w, v]) with
          | none => none
          | some pt1 =>
          match (wr s.is_even w 0).bind (fun e => wr e x 1) with
          | none => none
          | some even2 =>
          match (rd s.belongs v).bind (fun tree_v => wr s.belongs w tree_v) with
          | none => none
          | some belongs1 =>
          match (rd belongs1 v).bind (fun tree_v => wr belongs1 x tree_v) with
          | none => none
          | some belongs2 =>
            expand_scan columnIndices v js
              ({ s with select_match := sm, path_table_vector := pt1, is_even := even2,
                        belongs := belongs2 },
                local_vector ++ [x])
      else expand_scan columnIndices v js (s, local_vector)
    | _, _ => none

/-- The loop over `i` of `parExpand`. -/
def expand_vertices (rowOffsets columnIndices : List Int) :
    List Int → PhaseState × List Int → Option (PhaseState × List Int)
  | [], r => some r
  | v :: vs, r =>
    match rd rowOffsets v, rd rowOffsets (v + 1) with
    | some start_index, some end_index =>
      match expand_scan columnIndices v (indices start_index end_index) r with
      | none => none
      | some r1 => expand_vertices rowOffsets columnIndices vs r1
    | _, _ => none

/-- One worker of the Expand kernel. -/
def parExpand (rowOffsets columnIndices nodes_vector : List Int)
    (index num_threads : Nat) (s : PhaseState) : Option PhaseState :=
  if estimated_size_fits s.is_even.length num_threads 5 then
    match expand_vertices rowOffsets columnIndices (strided nodes_vector index num_threads)
        (s, []) with
    | none => none
    | some (s1, local_vector) => some { s1 with vector_1 := s1.vector_1 ++ local_vector }
  else none

/-! ## Blossom kernel (`parBlossom`) -/

/-- The nested loops over `c` and `d` that look for two equal entries of a chain: the
result is the negation of the final value of `test`. -/
def has_duplicate : List Int → Bool
  | [] => false
  | check :: rest => rest.contains check || has_duplicate rest

/-- The values of `k` in `for (int k = blossom.size() - 3; k >= 0; k = k - 2)`. -/
def first_pass_indices (size : Nat) : List Nat :=
  ((List.range (size - 2)).filter (fun k => (size - 3 - k) % 2 = 0)).reverse

/-- The values of `k` in `for (int k = 2; k < blossom.size() - 1; k = k + 2)`. -/
def second_pass_indices (size : Nat) : List Nat :=
  (List.range (size - 1)).filter (fun k => 2 ≤ k ∧ k % 2 = 0)

/-- The body of both passes for `current = blossom[k]`; `chain` lists the entries the
inner loop pushes on `path_table_vector[current]`. -/
def blossom_visit (blossom : List Int) (k : Nat) (chain : List Int)
    (r : PhaseState × List Int) : Option (PhaseState × List Int) :=
  match rd blossom (k : Int) with
  | none => none
  | some current =>
  match rd r.1.blossom_to_base current with
  | none => none
  | some base_of_current =>
  match (if base_of_current = -1 then
          (rd blossom 0).bind (fun b0 => wr r.1.blossom_to_base current b0)
        else some r.1.blossom_to_base) with
  | none => none
  | some b2b =>
  let s : PhaseState := { r.1 with blossom_to_base := b2b }
  match rd s.is_even current, rd s.path_table_vector current with
  | some even_current, some old_chain =>
    if even_current = 0 ∧ old_chain = [] then
      match compare_exchange_strong s.select_blossom current 0 1 with
      | none => none
      | some (false, _) => some (s, r.2)
      | some (true, sb) =>
        let written := old_chain ++ chain
        if has_duplicate written then
          match wr s.path_table_vector current [] with
          | none => none
          | some pt1 => some ({ s with select_blossom := sb, path_table_vector := pt1 }, r.2)
        else
          match wr s.path_table_vector current written, wr s.is_even current 1 with
          | some pt1, some even1 =>
            some ({ s with select_blossom := sb, path_table_vector := pt1, is_even := even1 },
              r.2 ++ [current])
          | _, _ => none
    else some (s, r.2)
  | _, _ => none

/-- The first pass over the cycle, `k = size - 3, size - 5, ...`: the chain of
`blossom[k]` is `blossom[k + 1], ..., blossom[size - 1]`. -/
def blossom_first_pass (blossom : List Int) :
    List Nat → PhaseState × List Int → Option (PhaseState × List Int)
  | [], r => some r
  | k :: ks, r =>
    match blossom_visit blossom k (blossom.drop (k + 1)) r with
    | none => none
    | some r1 => blossom_first_pass blossom ks r1

/-- The second pass over the cycle, `k = 2, 4, ...`: the chain of `blossom[k]` is
`blossom[k - 1], ..., blossom[0]`. -/
def blossom_second_pass (blossom : List Int) :
    List Nat → PhaseState × List Int → Option (PhaseState × List Int)
  | [], r => some r
  | k :: ks, r =>
    match blossom_visit blossom k (blossom.take k).reverse r with
    | none => none
    | some r1 => blossom_second_pass blossom ks r1

/-- The test in line 205 that selects a neighbour `w` of `v`, with the reads in the order
of the short-circuit evaluation. -/
def blossom_guard (s : PhaseState) (v w : Int) : Option Bool :=
  match rd s.is_even w with
  | none => none
  | some even_w =>
    if even_w = 0 then some false else
    match rd s.belongs w, rd s.belongs v with
    | some belongs_w, some belongs_v =>
      if belongs_w ≠ belongs_v then some false else
      match rd s.M v with
      | none => none
      | some mate_v =>
        if w = mate_v then some false else
        if belongs_w = -1 then some false else
        match rd s.blossom_to_base w, rd s.blossom_to_base v with
        | some base_w, some base_v => some (!(base_w = base_v && base_v != -1))
        | _, _ => none
    | _, _ => none

/-- The contraction of the cycle found for the pair `(v, w)`, lines 207-303. -/
def blossom_contract (H : PathHelpers) (v w : Int) (r : PhaseState × List Int) :
    Option (PhaseState × List Int) :=
  match H.find_path_vector_blossom r.1.path_table_vector v with
  | none => none
  | some path_v_vector =>
  match H.find_path_vector_blossom_w r.1.path_table_vector w r.1.belongs with
  | none => none
  | some (_, false) => some r
  | some (path_w_vector, true) =>
  match H.find_blossom_vector_debug path_v_vector path_w_vector r.1.path_table_vector with
  | none => none
  | some (_, false) => some r
  | some (blossom, true) =>
  match (rd blossom 0).bind (fun b0 => wr r.1.blossom_to_base b0 b0) with
  | none => none
  | some b2b =>
  match blossom_first_pass blossom (first_pass_indices blossom.length)
      ({ r.1 with blossom_to_base := b2b }, r.2) with
  | none => none
  | some r1 => blossom_second_pass blossom (second_pass_indices blossom.length) r1

/-- The loop over `j` of `parBlossom` for one vertex `v`. -/
def blossom_scan (H : PathHelpers) (columnIndices : List Int) (v : Int) :
    List Int → PhaseState × List Int → Option (PhaseState × List Int)
  | [], r => some r
  | j :: js, r =>
    match rd columnIndices j with
    | none => none
    | some w =>
      match blossom_guard r.1 v w with
      | none => none
      | some false => blossom_scan H columnIndices v js r
      | some true =>
        match blossom_contract H v w r with
        | none => none
        | some r1 => blossom_scan H columnIndices v js r1

/-- The loop over `i` of `parBlossom`. -/
def blossom_vertices (H : PathHelpers) (rowOffsets columnIndices : List Int) :
    List Int → PhaseState × List Int → Option (PhaseState × List Int)
  | [], r => some r
  | v :: vs, r =>
    match rd rowOffsets v, rd rowOffsets (v + 1) with
    | some start_index, some end_index =>
      match blossom_scan H columnIndices v (indices start_index end_index) r with
      | none => none
      | some r1 => blossom_vertices H rowOffsets columnIndices vs r1
    | _, _ => none

/-- One worker of the Blossom kernel. -/
def parBlossom (H : PathHelpers) (rowOffsets columnIndices nodes_vector : List Int)
    (index num_threads : Nat) (s : PhaseState) : Option PhaseState :=
  if estimated_size_fits s.is_even.length num_threads 4 then
    match blossom_vertices H rowOffsets columnIndices (strided nodes_vector index num_threads)
        (s, []) with
    | none => none
    | some (s1, local_vector) => some { s1 with vector_2 := s1.vector_2 ++ local_vector }
  else none

/-! ## Helpers of `blossom.h`, modelled from the specification -/

/-- Modelled from the spec: the walk shared by `find_path_vector` and
`find_path_vector_blossom`, whose bodies are missing.  The entries of
`path_table_vector[current]` are the next hops toward the root (section 4.4: "x's
immediate predecessor in its tree is w, w's predecessor is v"); the walk appends them and
goes on from the last one until it reaches a vertex with an empty entry, the root. -/
def walk_path_table (path_table_vector : List (List Int)) :
    Nat → Int → List Int → Option (List Int)
  | 0, _, _ => none
  | fuel + 1, current, path =>
    match rd path_table_vector current with
    | none => none
    | some [] => some path
    | some (p :: chain) =>
      walk_path_table path_table_vector fuel ((p :: chain).getLast (by simp))
        (path ++ p :: chain)

/-- Modelled from the spec: `find_path_vector`, missing from the sources, "reconstructing
the path from v to its root" (section 4.3). -/
def find_path_vector (path_table_vector : List (List Int)) (v : Int) : Option (List Int) :=
  walk_path_table path_table_vector (path_table_vector.length + 1) v [v]

/-- Modelled from the spec: `find_path_vector_blossom`, missing from the sources: "walk
path_table[v] from v toward root" (section 4.5).  The call site passes the predecessor
table and the vertex only, so the walk cannot consult `blossom_to_base`; chains written by
a contraction already end at the base of the contracted cycle. -/
def find_path_vector_blossom (path_table_vector : List (List Int)) (v : Int) :
    Option (List Int) :=
  walk_path_table path_table_vector (path_table_vector.length + 1) v [v]

/-- Modelled from the spec: `find_path_vector_blossom_w`, missing from the sources: the
walk from `w`, with `consistent_flag` cleared "if during w's walk a predecessor entry
points to a vertex in a different tree" (section 4.5, check (a)). -/
def find_path_vector_blossom_w (path_table_vector : List (List Int)) (w : Int)
    (belongs : List Int) : Option (List Int × Bool) :=
  match walk_path_table path_table_vector (path_table_vector.length + 1) w [w] with
  | none => none
  | some path =>
    match rd belongs w, path.mapM (fun u => rd belongs u) with
    | some tree_w, some trees => some (path, trees.all (fun t => t = tree_w))
    | _, _ => none

/-- The length of the longest common prefix of two lists. -/
def common_prefix_length : List Int → List Int → Nat
  | a :: as, b :: bs => if a = b then common_prefix_length as bs + 1 else 0
  | _, _ => 0

/-- Modelled from the spec: `find_blossom_vector_debug`, missing from the sources.  "The
two resulting paths share a suffix at the lowest common ancestor (LCA); the blossom is the
concatenation of the two paths up to (and including) the LCA", written "in order from base
outward through the v-side then back via the w-side" (section 4.5): the base, the part of
`path_v` before the base reversed, the part of `path_w` before the base, and the base
again, which is where the chains written by `parBlossom` must end.  `valid_flag` is
cleared "if the concatenated blossom sequence contains a repeated interior vertex"
(check (b)), and when the paths have no common ancestor. -/
def find_blossom_vector_debug (path_v path_w : List Int) (_path_table_vector : List (List Int)) :
    Option (List Int × Bool) :=
  let c := common_prefix_length path_v.reverse path_w.reverse
  match path_v[path_v.length - c]? with
  | none => some ([], false)
  | some lca =>
    let blossom := lca :: ((path_v.take (path_v.length - c)).reverse
      ++ path_w.take (path_w.length - c) ++ [lca])
    some (blossom, !has_duplicate blossom.dropLast)

/-- The helpers as the specification describes them. -/
def specHelpers : PathHelpers where
  find_path_vector := find_path_vector
  find_path_vector_blossom := find_path_vector_blossom
  find_path_vector_blossom_w := find_path_vector_blossom_w
  find_blossom_vector_debug := find_blossom_vector_debug

/-- Modelled from the spec: `parExposedNode`, missing from the sources: "exposed: the
vertices with M[v] = -1" (section 4.2), in increasing order. -/
def parExposedNode (M : List Int) (_num_of_threads : Nat) : List Int :=
  ((List.range M.length).filter (fun v => M[v]? = some (-1))).map (fun (v : Nat) => (v : Int))

/-- Modelled from the spec: `parInitializeExposed`, missing from the sources: "every
exposed vertex is a root: is_even[v] = true, belongs[v] = v" (section 4.2). -/
def parInitializeExposed : List Int → List Int × List Int → Option (List Int × List Int)
  | [], r => some r
  | v :: exposed, (is_even, belongs) =>
    match wr is_even v 1, wr belongs v v with
    | some is_even1, some belongs1 => parInitializeExposed exposed (is_even1, belongs1)
    | _, _ => none

/-- Modelled from the spec: `copy_vector_to_vector`, missing from the sources: the new
frontier holds the vertices emitted by Expand (`vector_1`) followed by those emitted by
Blossom (`vector_2`) (sections 4.4 and 4.5: "emitted into the next frontier"). -/
def copy_vector_to_vector (vector_1 vector_2 : List Int) : List Int :=
  vector_1 ++ vector_2

/-- Modelled from the spec: the flip of one path by `parNewMatchingVector`: "set
M[p0] = p1, M[p1] = p0, M[p2] = p3, ..." (section 4.6). -/
def flip_path : List Int → List Int → Option (List Int)
  | p0 :: p1 :: path, M =>
    match (wr M p0 p1).bind (fun M1 => wr M1 p1 p0) with
    | none => none
    | some M2 => flip_path path M2
  | _, M => some M

/-- Modelled from the spec: `parNewMatchingVector`, missing from the sources: every
sequence of `path_collection` is flipped (section 4.6). -/
def parNewMatchingVector (M : List Int) (path_collection : List (List Int))
    (_num_of_threads : Nat) : Option (List Int) :=
  path_collection.foldlM (fun M1 path => flip_path path M1) M

/-! ## One phase (`parFindAugmentingPathNoRecursionUpdatePathTable`) -/

/-- A kernel: the workers of `order` run one after the other, each to completion. -/
def run_workers (worker : Nat → PhaseState → Option PhaseState) :
    List Nat → PhaseState → Option PhaseState
  | [], s => some s
  | index :: order, s =>
    match worker index s with
    | none => none
    | some s1 => run_workers worker order s1

/-- The `while (true)` loop of lines 350-406, with the frontier `nodes_vector`.  The
threads of a kernel are run one after the other in the order `0, 1, ..., num_of_threads - 1`:
with one thread this is the program itself, with more threads it is one schedule among
those the concurrent threads may follow. -/
def phase_loop (H : PathHelpers) (G : Graph) (num_of_threads : Nat) :
    Nat → List Int → PhaseState → Option PhaseState
  | 0, _, _ => none
  | fuel + 1, nodes_vector, s =>
    match run_workers
        (fun begin => parAugmentingPath H G.rowOffsets G.columnIndices nodes_vector begin
          num_of_threads)
        (List.range num_of_threads) s with
    | none => none
    | some s1 =>
      if s1.path_collection ≠ [] then some s1 else
      match run_workers
          (fun begin => parExpand G.rowOffsets G.columnIndices nodes_vector begin num_of_threads)
          (List.range num_of_threads) { s1 with vector_1 := [] } with
      | none => none
      | some s2 =>
        match run_workers
            (fun begin => parBlossom H G.rowOffsets G.columnIndices
              (copy_vector_to_vector s2.vector_1 s2.vector_2) begin num_of_threads)
            (List.range num_of_threads) { s2 with vector_2 := [] } with
        | none => none
        | some s3 =>
          if copy_vector_to_vector s3.vector_1 s3.vector_2 = [] then some s3
          else phase_loop H G num_of_threads fuel
            (copy_vector_to_vector s3.vector_1 s3.vector_2) s3

/-- The state built in lines 319-347.  The cells and tables are the ones
`parInitializeAtomicPathTable` leaves, modelled from the spec (its body is missing): "all
atomic claim cells set to 0", every `path_table` entry empty (section 4.2). -/
def phase_init (G : Graph) (M : List Int) (path_collection path_table_vector : List (List Int))
    (num_of_threads : Nat) : Option (List Int × PhaseState) :=
  let nodes := G.nodes.toNat
  let exposed := parExposedNode M num_of_threads
  match parInitializeExposed exposed (List.replicate nodes 0, List.replicate nodes (-1)) with
  | none => none
  | some (is_even, belongs) =>
    some (exposed,
      { is_even := is_even, belongs := belongs,
        path_table_vector := path_table_vector.map (fun _ => []),
        select_tree := List.replicate nodes 0, select_match := List.replicate nodes 0,
        select_blossom := List.replicate nodes 0,
        blossom_to_base := List.replicate nodes (-1),
        M := M, path_collection := path_collection, vector_1 := [], vector_2 := [],
        emitted := [] })

/-- One search phase: the result carries `M`, `path_collection` and `path_table_vector`
as the call leaves them. -/
def parFindAugmentingPathNoRecursionUpdatePathTable (H : PathHelpers) (fuel : Nat) (G : Graph)
    (M : List Int) (path_collection path_table_vector : List (List Int))
    (num_of_threads : Nat) : Option PhaseState :=
  match phase_init G M path_collection path_table_vector num_of_threads with
  | none => none
  | some (exposed, s) => phase_loop H G num_of_threads fuel exposed s

/-! ## Driver (`x_blossom_maximum_matching`) and its callers -/

/-- The `while (true)` loop of lines 49-60; `phase_fuel` bounds the loop of each phase. -/
def x_blossom_loop (H : PathHelpers) (G : Graph) (num_of_threads phase_fuel : Nat) :
    Nat → List Int → List (List Int) → Option (List Int)
  | 0, _, _ => none
  | fuel + 1, M, path_table_vector =>
    match parFindAugmentingPathNoRecursionUpdatePathTable H phase_fuel G M []
        (path_table_vector.map (fun _ => [])) num_of_threads with
    | none => none
    | some s =>
      if s.path_collection = [] then some s.M
      else
        match parNewMatchingVector s.M s.path_collection num_of_threads with
        | none => none
        | some M1 => x_blossom_loop H G num_of_threads phase_fuel fuel M1 s.path_table_vector

/-- What a call of `x_blossom_maximum_matching` does: it returns with the vector `M`, or
a `reserve` or `resize` with a negative count throws `std::length_error`, or there is no
result (undefined behaviour, or more loop iterations than the fuel allows). -/
inductive Outcome where
  | returned (M : List Int)
  | length_error
  | no_result
deriving DecidableEq, Repr

/-- The entry point `x_blossom_maximum_matching(G, M, num_of_threads)`. -/
def x_blossom_maximum_matching (H : PathHelpers) (fuel : Nat) (G : Graph) (M : List Int)
    (num_of_threads : Int) : Outcome :=
  if num_of_threads < 0 then Outcome.length_error
  else if G.nodes < 0 then Outcome.length_error
  else
    match x_blossom_loop H G num_of_threads.toNat fuel fuel M
        (List.replicate G.nodes.toNat []) with
    | none => Outcome.no_result
    | some M1 => Outcome.returned M1

/-- The wrapper `max_matching_csr` of `x_blossom_pybind.cpp`: the matching starts as
`G.num_of_nodes` entries `-1`. -/
def max_matching_csr (H : PathHelpers) (fuel : Nat) (rowOffsets columnIndices : List Int)
    (num_threads : Int) : Outcome :=
  let G : Graph := { rowOffsets := rowOffsets, columnIndices := columnIndices }
  x_blossom_maximum_matching H fuel G (List.replicate G.nodes.toNat (-1)) num_threads

/-! ## The validator of `main.cpp` -/

/-- The first loop of `testMatching`: the final value of `is_valid`. -/
def testMatching_is_valid (M : List Int) : Option Bool :=
  (List.range M.length).foldlM
    (fun (is_valid : Bool) (i : Nat) =>
      match rd M (i : Int) with
      | none => none
      | some k =>
        if k ≠ -1 then
          match rd M k with
          | none => none
          | some mate => some (if mate ≠ (i : Int) then false else is_valid)
        else some is_valid)
    true

/-- The second loop of `testMatching`: the elements of `M_set`, a `std::set` kept here as
a list without repetition. -/
def testMatching_M_set (M : List Int) : List (Int × Int) :=
  (List.range M.length).foldl
    (fun (M_set : List (Int × Int)) (i : Nat) =>
      match M[i]? with
      | none => M_set
      | some k =>
        if k ≠ -1 then
          (if (min (i : Int) k, max (i : Int) k) ∈ M_set then M_set
           else M_set ++ [(min (i : Int) k, max (i : Int) k)])
        else M_set)
    []

/-- What `testMatching` prints: `some size` for "The matching is valid and the matching
size is size", `none` for "The matching is NOT valid !!!". -/
def testMatching (M : List Int) : Option (Option Nat) :=
  match testMatching_is_valid M with
  | none => none
  | some is_valid => some (if is_valid then some (testMatching_M_set M).length else none)

/-! ## Properties stated by the theorems -/

/-- Every vertex of `vs` has an empty neighbour range in `rowOffsets`. -/
def Isolated (rowOffsets : List Int) (vs : List Int) : Prop :=
  ∀ v ∈ vs, ∃ a, rd rowOffsets v = some a ∧ rd rowOffsets (v + 1) = some a

/-- The matching is the same and the predecessor table has as many entries. -/
def Preserved (s s1 : PhaseState) : Prop :=
  s1.M = s.M ∧ s1.path_table_vector.length = s.path_table_vector.length

/-- Half the number of matched vertices. -/
def cardinality (M : List Int) : Nat := (M.filter (fun x => x ≠ -1)).length / 2

/-- Entry `i` of `M` is unmatched or its mate points back to `i`. -/
def mate_ok (M : List Int) (i : Nat) : Prop :=
  M.getD i (-1) = -1 ∨ rd M (M.getD i (-1)) = some (i : Int)

instance (M : List Int) (i : Nat) : Decidable (mate_ok M i) := by
  unfold mate_ok; infer_instance

/-- The number of distinct unordered pairs `{i, M[i]}` with `M[i] ≠ -1`. -/
def pair_count (M : List Int) : Nat :=
  (((Finset.range M.length).filter (fun (i : Nat) => M.getD i (-1) ≠ -1)).image
    (fun (i : Nat) => Sym2.mk ((i : Int), M.getD i (-1)))).card

/-- The element `testMatching` inserts in `M_set` for the index `i`. -/
def ordered_pair (M : List Int) (i : Nat) : Int × Int :=
  (min (i : Int) (M.getD i (-1)), max (i : Int) (M.getD i (-1)))

/-- The tree ids that occur in the emitted pairs, in order. -/
def tree_ids : List (Int × Int) → List Int
  | [] => []
  | p :: ps => p.1 :: p.2 :: tree_ids ps

/-- The claims held in `select_tree` are those of the emitted pairs, each tree once. -/
def TreeClaims (s : PhaseState) : Prop :=
  (tree_ids s.emitted).Nodup ∧ ∀ t, rd s.select_tree t = some 1 ↔ t ∈ tree_ids s.emitted

/-- Whether `w` occurs in `col_indices[row_offsets[v] .. row_offsets[v+1])`. -/
def is_edge (G : Graph) (v w : Int) : Bool :=
  match rd G.rowOffsets v, rd G.rowOffsets (v + 1) with
  | some a, some b => (indices a b).any (fun j => rd G.columnIndices j == some w)
  | _, _ => false

/-- Whether `M` is a matching of `G`: one entry per vertex, each `-1` or the index of a
neighbour whose entry points back. -/
def is_matching (G : Graph) (M : List Int) : Bool :=
  (M.length : Int) == G.nodes &&
    (List.range M.length).all (fun (i : Nat) =>
      match M[i]? with
      | some k => k == -1 || (rd M k == some (i : Int) && is_edge G (i : Int) k)
      | none => false)

/-- Whether the edges of the walk alternate, starting with an edge outside `M`. -/
def alternates (G : Graph) (M : List Int) : List Int → Bool
  | a :: b :: rest =>
    is_edge G a b && rd M a != some b &&
      (match rest with
       | [] => true
       | c :: _ => is_edge G b c && rd M b == some c) &&
      alternates G M rest
  | _ => true

/-- Whether `path` is an augmenting path of `G` with respect to `M`: no vertex repeats,
both endpoints are exposed and the edges alternate unmatched/matched. -/
def is_augmenting_path (G : Graph) (M : List Int) (path : List Int) : Bool :=
  decide path.Nodup && path.length % 2 == 0 &&
    (match path.head?, path.getLast? with
     | some a, some b => rd M a == some (-1) && rd M b == some (-1)
     | _, _ => false) &&
    alternates G M path

/-- The column indices of the 5-cycle `0-1-2-3-4-0` in CSR form: bit `v` of `code` tells
whether the neighbours of `v` are listed as `v - 1, v + 1` or as `v + 1, v - 1`. -/
def cycle5_columns (code : Nat) : List Int :=
  (List.range 5).flatMap (fun (v : Nat) =>
    if code / 2 ^ v % 2 = 0 then [(((v + 4) % 5 : Nat) : Int), (((v + 1) % 5 : Nat) : Int)]
    else [(((v + 1) % 5 : Nat) : Int), (((v + 4) % 5 : Nat) : Int)])

/-- The 5-cycle in the CSR layout `code`. -/
def cycle5_graph (code : Nat) : Graph :=
  { rowOffsets := [0, 2, 4, 6, 8, 10], columnIndices := cycle5_columns code }

/-- The property checked of the matching `M` returned on the 5-cycle `G` and of the final
state `phase` of the search phase started on `M`: `M` is a matching of cardinality 2 with
exactly one exposed vertex, the phase collected no path and contracted the cycle, every
vertex being labelled even with the exposed vertex as blossom base. -/
def cycle5_verdict (G : Graph) (M : List Int) (phase : Option PhaseState) : Bool :=
  is_matching G M && cardinality M == 2 && M.count (-1) == 1 &&
    (match phase with
     | some s =>
       s.path_collection == [] && s.is_even == [1, 1, 1, 1, 1] &&
         (List.range 5).all (fun (v : Nat) =>
           M[v]? != some (-1) || s.blossom_to_base == List.replicate 5 (v : Int))
     | none => false)

/-- The 5-cycle check for the CSR layout `code` and `T` worker threads: the call returns
and `cycle5_verdict` holds of its result. -/
def cycle5_check (code T : Nat) : Bool :=
  match max_matching_csr specHelpers 3 (cycle5_graph code).rowOffsets
      (cycle5_graph code).columnIndices (T : Int) with
  | Outcome.returned M =>
    cycle5_verdict (cycle5_graph code) M
      (parFindAugmentingPathNoRecursionUpdatePathTable specHelpers 3 (cycle5_graph code) M []
        (List.replicate 5 []) T)
  | _ => false

/-- The loop `phase_loop` run with `bound` workers, with no result as soon as a frontier
holds more than `bound` vertices: then every worker visits at most one vertex, as it does
for every thread count from `bound` on. -/
def phase_loop_upto (H : PathHelpers) (G : Graph) (bound : Nat) :
    Nat → List Int → PhaseState → Option PhaseState
  | 0, _, _ => none
  | fuel + 1, nodes_vector, s =>
    if bound < nodes_vector.length then none else
    match run_workers
        (fun begin => parAugmentingPath H G.rowOffsets G.columnIndices nodes_vector begin bound)
        (List.range bound) s with
    | none => none
    | some s1 =>
      if s1.path_collection ≠ [] then some s1 else
      match run_workers
          (fun begin => parExpand G.rowOffsets G.columnIndices nodes_vector begin bound)
          (List.range bound) { s1 with vector_1 := [] } with
      | none => none
      | some s2 =>
        if bound < (copy_vector_to_vector s2.vector_1 s2.vector_2).length then none else
        match run_workers
            (fun begin => parBlossom H G.rowOffsets G.columnIndices
              (copy_vector_to_vector s2.vector_1 s2.vector_2) begin bound)
            (List.range bound) { s2 with vector_2 := [] } with
        | none => none
        | some s3 =>
          if copy_vector_to_vector s3.vector_1 s3.vector_2 = [] then some s3
          else phase_loop_upto H G bound fuel
            (copy_vector_to_vector s3.vector_1 s3.vector_2) s3

/-- One phase, with the loop `phase_loop_upto`. -/
def phase_upto (H : PathHelpers) (fuel : Nat) (G : Graph) (M : List Int)
    (path_collection path_table_vector : List (List Int)) (bound : Nat) : Option PhaseState :=
  match phase_init G M path_collection path_table_vector bound with
  | none => none
  | some (exposed, s) => phase_loop_upto H G bound fuel exposed s

/-- The driver loop, with the phases `phase_upto`. -/
def x_blossom_loop_upto (H : PathHelpers) (G : Graph) (bound phase_fuel : Nat) :
    Nat → List Int → List (List Int) → Option (List Int)
  | 0, _, _ => none
  | fuel + 1, M, path_table_vector =>
    match phase_upto H phase_fuel G M [] (path_table_vector.map (fun _ => [])) bound with
    | none => none
    | some s =>
      if s.path_collection = [] then some s.M
      else
        match parNewMatchingVector s.M s.path_collection bound with
        | none => none
        | some M1 => x_blossom_loop_upto H G bound phase_fuel fuel M1 s.path_table_vector

/-- The 5-cycle check with the bounded loops. -/
def cycle5_check_upto (code bound : Nat) : Bool :=
  match x_blossom_loop_upto specHelpers (cycle5_graph code) bound 3 3 (List.replicate 5 (-1))
      (List.replicate 5 []) with
  | some M =>
    (match phase_upto specHelpers 3 (cycle5_graph code) M [] (List.replicate 5 []) bound with
     | some s => cycle5_verdict (cycle5_graph code) M (some s)
     | none => false)
  | none => false

/-- The graph on 8 vertices with the edges (0,2), (0,3), (1,4), (1,5), (1,7), (2,4), (2,6),
(3,4), (3,7), (4,5), neighbours listed in increasing order. -/
def graph8 : Graph :=
  { rowOffsets := [0, 2, 5, 8, 11, 15, 17, 18, 20],
    columnIndices := [2, 3, 4, 5, 7, 0, 4, 6, 0, 4, 7, 1, 2, 3, 5, 1, 4, 2, 1, 3] }

/-! ## Properties and examples for the kernel steps (C11 to C17) -/

/-- What the Augment kernel pushes for one claimed pair: `p` is the root path of a vertex
`v` of `vs` reversed, followed by the root path of a neighbour `w` of `v` that is labelled
even and lies in another tree, both paths as `find_path_vector` returns them on the
predecessor table of `s`. -/
def EmittedPath (H : PathHelpers) (rowOffsets columnIndices : List Int) (s : PhaseState)
    (vs : List Int) (p : List Int) : Prop :=
  ∃ v w tree_v tree_w even_w path_v path_w, v ∈ vs ∧
    is_edge { rowOffsets := rowOffsets, columnIndices := columnIndices } v w = true ∧
    rd s.belongs v = some tree_v ∧ rd s.belongs w = some tree_w ∧
    rd s.is_even w = some even_w ∧
    (even_w ≠ 0 ∧ tree_v ≠ tree_w ∧ tree_v ≠ -1 ∧ tree_w ≠ -1) ∧
    H.find_path_vector s.path_table_vector v = some path_v ∧
    H.find_path_vector s.path_table_vector w = some path_w ∧
    p = path_v.reverse ++ path_w

/-- The vectors the Augment kernel only reads, and `path_collection`, which a worker only
touches at its end. -/
def AugmentFrame (s s1 : PhaseState) : Prop :=
  s1.path_table_vector = s.path_table_vector ∧ s1.belongs = s.belongs ∧
    s1.is_even = s.is_even ∧ s1.path_collection = s.path_collection

/-- The sequence `p` is pushed for a candidate `(v, w)` of the scan of `v` over the
positions `js` of `columnIndices`. -/
def ScanPath (H : PathHelpers) (columnIndices : List Int) (s : PhaseState) (v : Int)
    (js : List Int) (p : List Int) : Prop :=
  ∃ j w tree_v tree_w even_w path_v path_w, j ∈ js ∧ rd columnIndices j = some w ∧
    rd s.belongs v = some tree_v ∧ rd s.belongs w = some tree_w ∧
    rd s.is_even w = some even_w ∧
    (even_w ≠ 0 ∧ tree_v ≠ tree_w ∧ tree_v ≠ -1 ∧ tree_w ≠ -1) ∧
    H.find_path_vector s.path_table_vector v = some path_v ∧
    H.find_path_vector s.path_table_vector w = some path_w ∧
    p = path_v.reverse ++ path_w

/-- Whether `a` and `b` are neighbours of each other and mates of each other. -/
def matched_edge (G : Graph) (M : List Int) (a b : Int) : Bool :=
  is_edge G a b && is_edge G b a && rd M a == some b && rd M b == some a

/-- Whether `a` and `b` are neighbours of each other and not mates. -/
def free_edge (G : Graph) (M : List Int) (a b : Int) : Bool :=
  is_edge G a b && is_edge G b a && rd M a != some b && rd M b != some a

/-- Whether `path` is an alternating path from its first vertex to an exposed root: the
edges alternate matched/unmatched, starting with the matched edge of the first vertex, and
the last vertex is exposed. -/
def is_root_path (G : Graph) (M : List Int) : List Int → Bool
  | [r] => rd M r == some (-1)
  | a :: b :: c :: rest =>
    matched_edge G M a b && free_edge G M b c && is_root_path G M (c :: rest)
  | _ => false

/-- The arc the specification names: of the two arcs of the cycle sequence `B` between
position `k` and the base (back to `B[0]`, of `k` steps, and on to the closing entry, of
`B.length - 1 - k` steps), the one with fewer steps. -/
def shorter_arc (B : List Int) (k : Nat) : List Int :=
  if k ≤ B.length - 1 - k then (B.take k).reverse else B.drop (k + 1)

/-- How `blossom_to_base` may change while the cycle with base `b0` is contracted: an
entry that is set keeps its value, an entry that is `-1` stays `-1` or becomes `b0`. -/
def BaseStep (b0 : Int) (t t1 : List Int) : Prop :=
  (∀ u c, rd t u = some c → c ≠ -1 → rd t1 u = some c) ∧
    ∀ u, rd t u = some (-1) → rd t1 u = some (-1) ∨ rd t1 u = some b0

/-- The graph with the two edges `0-1` and `2-3`. -/
def two_edges : Graph := { rowOffsets := [0, 1, 2, 3, 4], columnIndices := [1, 0, 3, 2] }

/-- The state of a phase on `two_edges` started from the empty matching. -/
def two_edges_state : PhaseState :=
  { is_even := [1, 1, 1, 1], belongs := [0, 1, 2, 3], path_table_vector := [[], [], [], []],
    select_tree := [0, 0, 0, 0], select_match := [0, 0, 0, 0], select_blossom := [0, 0, 0, 0],
    blossom_to_base := [-1, -1, -1, -1], M := [-1, -1, -1, -1], path_collection := [],
    vector_1 := [], vector_2 := [], emitted := [] }

/-- Three roots `0, 1, 2` of which the trees 1 and 2 are claimed. -/
def claimed_state : PhaseState :=
  { is_even := [1, 1, 1], belongs := [0, 1, 2], path_table_vector := [[], [], []],
    select_tree := [0, 1, 1], select_match := [0, 0, 0], select_blossom := [0, 0, 0],
    blossom_to_base := [-1, -1, -1], M := [-1, -1, -1], path_collection := [[1, 2]],
    vector_1 := [], vector_2 := [], emitted := [(1, 2)] }

/-- The triangle `0-1-2`, neighbours listed in increasing order. -/
def triangle : Graph := { rowOffsets := [0, 2, 4, 6], columnIndices := [1, 2, 0, 2, 0, 1] }

/-- The state of a phase on `triangle` started from the matching `0-1`: vertex 2 is the
only root. -/
def triangle_start : PhaseState :=
  { is_even := [0, 0, 1], belongs := [-1, -1, 2], path_table_vector := [[], [], []],
    select_tree := [0, 0, 0], select_match := [0, 0, 0], select_blossom := [0, 0, 0],
    blossom_to_base := [-1, -1, -1], M := [1, 0, -1], path_collection := [],
    vector_1 := [], vector_2 := [], emitted := [] }

/-- The state of that phase after the Expand kernel: 0 is odd, its mate 1 is even. -/
def triangle_state : PhaseState :=
  { is_even := [0, 1, 1], belongs := [2, 2, 2], path_table_vector := [[], [0, 2], []],
    select_tree := [0, 0, 0], select_match := [1, 0, 0], select_blossom := [0, 0, 0],
    blossom_to_base := [-1, -1, -1], M := [1, 0, -1], path_collection := [],
    vector_1 := [1], vector_2 := [], emitted := [] }

/-- A state with six vertices in the tree of the root 5, of which 0, 3 and 4 are odd. -/
def odd_state : PhaseState :=
  { is_even := [0, 1, 1, 0, 0, 1], belongs := [5, 5, 5, 5, 5, 5],
    path_table_vector := [[], [], [], [], [], []],
    select_tree := [0, 0, 0, 0, 0, 0], select_match := [0, 0, 0, 0, 0, 0],
    select_blossom := [0, 0, 0, 0, 0, 0], blossom_to_base := [-1, -1, -1, -1, -1, -1],
    M := [-1, -1, -1, -1, -1, -1], path_collection := [], vector_1 := [], vector_2 := [],
    emitted := [] }

/-- The graph with the edges (0,1), (1,2), (2,3), (3,4), (2,4), (0,5), (5,6), (4,6): the
triangle `2, 3, 4` hangs on the stem `0-1-2`, and `4-6-5-0` closes a cycle of seven
vertices through it. -/
def nested_graph : Graph :=
  { rowOffsets := [0, 2, 4, 7, 9, 12, 14, 16],
    columnIndices := [1, 5, 0, 2, 1, 3, 4, 2, 4, 2, 3, 6, 0, 6, 4, 5] }

/-- The state of the phase on `nested_graph` started from the matching `1-2, 3-4, 5-6`
when the triangle `2, 3, 4` has been contracted (base 2) and the scan of vertex 4 reaches
its neighbour 6. -/
def nested_state : PhaseState :=
  { is_even := [1, 0, 1, 1, 1, 0, 1], belongs := [0, 0, 0, 0, 0, 0, 0],
    path_table_vector := [[], [], [1, 0], [4, 2], [3, 2], [], [5, 0]],
    select_tree := [0, 0, 0, 0, 0, 0, 0], select_match := [0, 1, 0, 1, 0, 1, 0],
    select_blossom := [0, 0, 0, 1, 0, 0, 0], blossom_to_base := [-1, -1, 2, 2, 2, -1, -1],
    M := [-1, 2, 1, 4, 3, 6, 5], path_collection := [], vector_1 := [4], vector_2 := [],
    emitted := [] }

/-! ## Reachable states of a phase and their invariants (C14, C18) -/

/-- Vertex `u` is labelled even. -/
def even_labelled (s : PhaseState) (u : Int) : Prop := ∃ e, rd s.is_even u = some e ∧ e ≠ 0

/-- Vertex `u` has a tree id. -/
def in_tree (s : PhaseState) (u : Int) : Prop := ∃ b, rd s.belongs u = some b ∧ b ≠ -1

/-- The matching is symmetric: the mate of a matched vertex points back to it. -/
def symmetric (M : List Int) : Prop := ∀ w x, rd M w = some x → x ≠ -1 → rd M x = some w

/-- Every exposed vertex is the root of its own tree. -/
def RootsKept (s : PhaseState) : Prop := ∀ u, rd s.M u = some (-1) → rd s.belongs u = some u

/-- One step of a phase, on a state and the list `front` of the vertices that have entered
a frontier so far: the scan of the neighbours at the positions `js` by a worker of the
Augment, Expand or Blossom kernel for a vertex `v` of `front`, where the vertices an Expand
or Blossom scan emits join `front`; or an update of `path_collection`, `vector_1` and
`vector_2`, as the workers do at their end and the loop between the kernels. -/
inductive PhaseStep (H : PathHelpers) (G : Graph) :
    PhaseState × List Int → PhaseState × List Int → Prop
  | augment {s s1 : PhaseState} {front local_path local_path1 : List Int} {v : Int}
      {js : List Int} :
      v ∈ front →
      augment_scan H G.columnIndices v js (s, local_path) = some (s1, local_path1) →
      PhaseStep H G (s, front) (s1, front)
  | expand {s s1 : PhaseState} {front local_vector emitted : List Int} {v : Int}
      {js : List Int} :
      v ∈ front →
      expand_scan G.columnIndices v js (s, local_vector) = some (s1, local_vector ++ emitted) →
      PhaseStep H G (s, front) (s1, front ++ emitted)
  | blossom {s s1 : PhaseState} {front local_vector emitted : List Int} {v : Int}
      {js : List Int} :
      v ∈ front →
      blossom_scan H G.columnIndices v js (s, local_vector)
        = some (s1, local_vector ++ emitted) →
      PhaseStep H G (s, front) (s1, front ++ emitted)
  | collect {s : PhaseState} {front : List Int} (path_collection : List (List Int))
      (vector_1 vector_2 : List Int) :
      PhaseStep H G (s, front)
        ({ s with path_collection := path_collection, vector_1 := vector_1,
                  vector_2 := vector_2 }, front)

/-- The states reachable within a phase on `G` started from the matching `M`, each with the
list of the vertices that have entered a frontier so far: the state built by the phase
initialization with the exposed vertices, and the states reached from it by steps. -/
inductive Reachable (H : PathHelpers) (G : Graph) (M : List Int) :
    PhaseState → List Int → Prop
  | init {path_collection path_table_vector : List (List Int)} {num_of_threads : Nat}
      {exposed : List Int} {s : PhaseState} :
      phase_init G M path_collection path_table_vector num_of_threads = some (exposed, s) →
      Reachable H G M s exposed
  | step {s s1 : PhaseState} {front front1 : List Int} :
      Reachable H G M s front → PhaseStep H G (s, front) (s1, front1) →
      Reachable H G M s1 front1

/-- The effect of one claim won by the Expand kernel for the frontier vertex `v`, its
neighbour `w` and the mate `x` of `w`, from the state `s` to the state `s1`. -/
def ExpandEmit (s : PhaseState) (v w x : Int) (s1 : PhaseState) : Prop :=
  rd s.M w = some x ∧ rd s.belongs w = some (-1) ∧ s1.M = s.M ∧
    (∃ chain, rd s.path_table_vector x = some chain ∧
      rd s1.path_table_vector x = some (chain ++ [w, v])) ∧
    (∀ u, u ≠ x → rd s1.path_table_vector u = rd s.path_table_vector u) ∧
    (∃ e, rd s.is_even x = some e) ∧ rd s1.is_even x = some 1 ∧
    (w ≠ x → rd s1.is_even w = some 0) ∧
    (∀ u, u ≠ w → u ≠ x → rd s1.is_even u = rd s.is_even u) ∧
    (∃ tree_v, rd s.belongs v = some tree_v ∧ rd s1.belongs w = some tree_v ∧
      rd s1.belongs x = some tree_v) ∧
    (∀ u, u ≠ w → u ≠ x → rd s1.belongs u = rd s.belongs u)

/-- The invariant of the labels within a phase started from the matching `M`: every even
vertex has a tree id, every vertex named in the predecessor table has a tree id, and the
mate of a vertex with a tree id has a tree id. -/
structure TreeInv (M : List Int) (s : PhaseState) : Prop where
  matching : s.M = M
  even_in_tree : ∀ u, even_labelled s u → in_tree s u
  table_in_tree :
    ∀ x chain, rd s.path_table_vector x = some chain → ∀ u ∈ chain, in_tree s u
  mates : ∀ a b, rd M a = some b → b ≠ -1 → in_tree s a → in_tree s b

/-- The vertices of a cycle sequence returned with both flags set are `v`, `w` or vertices
named in the predecessor table: the helpers build the sequence from the two walks, and a
walk from a vertex only follows entries of the table. -/
def CycleOnWalks (H : PathHelpers) : Prop :=
  ∀ (path_table_vector : List (List Int)) (belongs : List Int) (v w : Int)
    (path_v path_w B : List Int),
    H.find_path_vector_blossom path_table_vector v = some path_v →
    H.find_path_vector_blossom_w path_table_vector w belongs = some (path_w, true) →
    H.find_blossom_vector_debug path_v path_w path_table_vector = some (B, true) →
    ∀ u ∈ B, u = v ∨ u = w ∨ ∃ x chain, rd path_table_vector x = some chain ∧ u ∈ chain

/-- The labels, tree ids and predecessor entries agree. -/
def SameLabels (s s1 : PhaseState) : Prop :=
  s1.M = s.M ∧ s1.belongs = s.belongs ∧ s1.is_even = s.is_even ∧
    s1.path_table_vector = s.path_table_vector

/-- From `r` to `r1` the invariant is kept, no tree id changes, no even label is taken
away, and the vertices appended to the local vector are emitted once each, were not even
in `r` and are even in `r1`. -/
def Progress (M : List Int) (r r1 : PhaseState × List Int) : Prop :=
  TreeInv M r1.1 ∧ r1.1.belongs = r.1.belongs ∧
    (∀ u, even_labelled r.1 u → even_labelled r1.1 u) ∧
    ∃ emitted, r1.2 = r.2 ++ emitted ∧ emitted.Nodup ∧
      ∀ u ∈ emitted, ¬ even_labelled r.1 u ∧ even_labelled r1.1 u

/-- The vectors `vector_1` and `vector_2` agree. -/
def VectorsKept (s s1 : PhaseState) : Prop :=
  s1.vector_1 = s.vector_1 ∧ s1.vector_2 = s.vector_2

/-- From `r` to `r1` the vectors `vector_1` and `vector_2` are kept and the local vector is
extended. -/
def Appends (r r1 : PhaseState × List Int) : Prop :=
  VectorsKept r.1 r1.1 ∧ ∃ emitted, r1.2 = r.2 ++ emitted

/-- The state is reachable with `front`, and the vectors from which the next frontier is
copied hold vertices of `front`. -/
def Covered (H : PathHelpers) (G : Graph) (M : List Int) (s : PhaseState)
    (front : List Int) : Prop :=
  Reachable H G M s front ∧ (∀ u ∈ s.vector_1, u ∈ front) ∧ ∀ u ∈ s.vector_2, u ∈ front

/-- The frontier vertices are in a list that extends `front`, with which the state is
covered. -/
def CoveredFrom (H : PathHelpers) (G : Graph) (M : List Int) (front : List Int)
    (s : PhaseState) : Prop :=
  ∃ front1, (∀ u ∈ front, u ∈ front1) ∧ Covered H G M s front1

/-! ## Parity of the predecessor table (C21) -/

/-- Every entry of the predecessor table has an even number of vertices. -/
def EvenTable (path_table_vector : List (List Int)) : Prop :=
  ∀ (u : Int) (chain : List Int), rd path_table_vector u = some chain → chain.length % 2 = 0

/-- What the parity of a root path needs of `find_path_vector`, whose body is not among
the sources: the path it returns for `v` is `v` followed by entries of the predecessor
table, as for a walk that appends every entry it follows. -/
def WalkOfEntries (H : PathHelpers) : Prop :=
  ∀ (path_table_vector : List (List Int)) (v : Int) (path : List Int),
    H.find_path_vector path_table_vector v = some path →
    ∃ chains : List (List Int),
      (∀ chain ∈ chains, ∃ u, rd path_table_vector u = some chain) ∧
      path = v :: chains.flatten

/-! ## Basic facts on checked accesses -/

theorem rd_of_bounds {α : Type} (l : List α) (i : Int) (h0 : 0 ≤ i) (h1 : i.toNat < l.length) :
    rd l i = some (l.get ⟨i.toNat, h1⟩) := by
  unfold rd
  rw [if_neg (by omega)]
  simp [List.getElem?_eq_getElem h1]

theorem wr_of_bounds {α : Type} (l : List α) (i : Int) (x : α) (h0 : 0 ≤ i)
    (h1 : i.toNat < l.length) : wr l i x = some (l.set i.toNat x) := by
  unfold wr
  rw [if_neg (by omega), if_pos h1]

theorem wr_length {α : Type} {l l1 : List α} {i : Int} {x : α} (h : wr l i x = some l1) :
    l1.length = l.length := by
  unfold wr at h
  split at h
  · cases h
  · split at h
    · cases h; simp
    · cases h

theorem mem_strided {nodes_vector : List Int} {index num_threads : Nat} {v : Int}
    (h : v ∈ strided nodes_vector index num_threads) : v ∈ nodes_vector := by
  unfold strided at h
  rw [List.mem_map] at h
  obtain ⟨p, hp, rfl⟩ := h
  have hp1 := (List.mem_filter.mp hp).1
  obtain ⟨i, x⟩ := p
  have h2 := List.mem_enum hp1
  have h3 : x ∈ List.drop index nodes_vector := by
    rw [h2.2]; exact List.getElem_mem h2.1
  exact List.mem_of_mem_drop h3

theorem mem_parExposedNode {M : List Int} {T : Nat} {v : Int} (h : v ∈ parExposedNode M T) :
    0 ≤ v ∧ v.toNat < M.length := by
  simp only [parExposedNode, List.mem_map, List.mem_filter, List.mem_range] at h
  obtain ⟨i, hi, rfl⟩ := h
  constructor
  · exact Int.ofNat_nonneg i
  · simpa using hi.1

theorem parInitializeExposed_some (n : Nat) :
    ∀ (exposed is_even belongs : List Int), is_even.length = n → belongs.length = n →
      (∀ v ∈ exposed, 0 ≤ v ∧ v.toNat < n) →
      ∃ r, parInitializeExposed exposed (is_even, belongs) = some r
  | [], is_even, belongs, _, _, _ => ⟨_, rfl⟩
  | v :: exposed, is_even, belongs, h1, h2, hv => by
    have hv0 := hv v (List.mem_cons_self _ _)
    unfold parInitializeExposed
    rw [wr_of_bounds is_even v 1 hv0.1 (by omega), wr_of_bounds belongs v v hv0.1 (by omega)]
    exact parInitializeExposed_some n exposed _ _ (by simp [h1]) (by simp [h2])
      (fun u hu => hv u (List.mem_cons_of_mem _ hu))

/-! ## The size of `is_even` and the reserve of a worker (C5, C6) -/

theorem wr_bind_length {l l2 : List Int} {i j a b : Int}
    (h : (wr l i a).bind (fun e => wr e j b) = some l2) : l2.length = l.length := by
  cases h1 : wr l i a with
  | none => rw [h1] at h; contradiction
  | some e =>
    rw [h1] at h
    exact (wr_length h).trans (wr_length h1)

theorem augment_scan_size (H : PathHelpers) (columnIndices : List Int) (v : Int) :
    ∀ (js : List Int) (s : PhaseState) (l : List Int) (s1 : PhaseState) (l1 : List Int),
      augment_scan H columnIndices v js (s, l) = some (s1, l1) →
      s1.is_even.length = s.is_even.length
  | [], s, l, s1, l1, h => by
    simp only [augment_scan, Option.some.injEq, Prod.mk.injEq] at h
    rw [← h.1]
  | j :: js, s, l, s1, l1, h => by
    simp only [augment_scan] at h
    repeat' (split at h)
    all_goals first
      | contradiction
      | (simp only [Option.some.injEq, Prod.mk.injEq] at h; rw [← h.1])
      | (have h2 := augment_scan_size H columnIndices v js _ _ _ _ h
         exact h2)

theorem augment_vertices_size (H : PathHelpers) (rowOffsets columnIndices : List Int) :
    ∀ (vs : List Int) (r r1 : PhaseState × List Int),
      augment_vertices H rowOffsets columnIndices vs r = some r1 →
      r1.1.is_even.length = r.1.is_even.length
  | [], r, r1, h => by
    simp only [augment_vertices, Option.some.injEq] at h
    rw [← h]
  | v :: vs, r, r1, h => by
    simp only [augment_vertices] at h
    repeat' (split at h)
    all_goals first
      | contradiction
      | exact (augment_vertices_size H rowOffsets columnIndices vs _ _ h).trans
          (augment_scan_size H columnIndices v _ _ _ _ _ ‹_›)

theorem parAugmentingPath_size (H : PathHelpers) (rowOffsets columnIndices nodes_vector : List Int)
    (index num_threads : Nat) (s s1 : PhaseState)
    (h : parAugmentingPath H rowOffsets columnIndices nodes_vector index num_threads s = some s1) :
    s1.is_even.length = s.is_even.length := by
  simp only [parAugmentingPath] at h
  repeat' (split at h)
  all_goals first
    | contradiction
    | (simp only [Option.some.injEq] at h
       rw [← h]
       exact augment_vertices_size H rowOffsets columnIndices _ (s, []) _ ‹_›)

theorem expand_scan_size (columnIndices : List Int) (v : Int) :
    ∀ (js : List Int) (s : PhaseState) (l : List Int) (s1 : PhaseState) (l1 : List Int),
      expand_scan columnIndices v js (s, l) = some (s1, l1) →
      s1.is_even.length = s.is_even.length
  | [], s, l, s1, l1, h => by
    simp only [expand_scan, Option.some.injEq, Prod.mk.injEq] at h
    rw [← h.1]
  | j :: js, s, l, s1, l1, h => by
    simp only [expand_scan] at h
    repeat' (split at h)
    all_goals first
      | contradiction
      | (have h2 := expand_scan_size columnIndices v js _ _ _ _ h
         exact h2)
      | (have h2 := expand_scan_size columnIndices v js _ _ _ _ h
         exact h2.trans (wr_bind_length ‹(wr s.is_even _ _).bind _ = some _›))

theorem expand_vertices_size (rowOffsets columnIndices : List Int) :
    ∀ (vs : List Int) (r r1 : PhaseState × List Int),
      expand_vertices rowOffsets columnIndices vs r = some r1 →
      r1.1.is_even.length = r.1.is_even.length
  | [], r, r1, h => by
    simp only [expand_vertices, Option.some.injEq] at h
    rw [← h]
  | v :: vs, r, r1, h => by
    simp only [expand_vertices] at h
    repeat' (split at h)
    all_goals first
      | contradiction
      | exact (expand_vertices_size rowOffsets columnIndices vs _ _ h).trans
          (expand_scan_size columnIndices v _ _ _ _ _ ‹_›)

theorem parExpand_size (rowOffsets columnIndices nodes_vector : List Int)
    (index num_threads : Nat) (s s1 : PhaseState)
    (h : parExpand rowOffsets columnIndices nodes_vector index num_threads s = some s1) :
    s1.is_even.length = s.is_even.length := by
  simp only [parExpand] at h
  repeat' (split at h)
  all_goals first
    | contradiction
    | (simp only [Option.some.injEq] at h
       rw [← h]
       exact expand_vertices_size rowOffsets columnIndices _ (s, []) _ ‹_›)

theorem blossom_visit_size (blossom : List Int) (k : Nat) (chain : List Int)
    (r r1 : PhaseState × List Int) (h : blossom_visit blossom k chain r = some r1) :
    r1.1.is_even.length = r.1.is_even.length := by
  simp only [blossom_visit] at h
  repeat' (split at h)
  all_goals first
    | contradiction
    | (simp only [Option.some.injEq] at h
       subst h
       first
        | rfl
        | exact wr_length ‹wr r.1.is_even _ _ = some _›)

theorem blossom_first_pass_size (blossom : List Int) :
    ∀ (ks : List Nat) (r r1 : PhaseState × List Int),
      blossom_first_pass blossom ks r = some r1 → r1.1.is_even.length = r.1.is_even.length
  | [], r, r1, h => by
    simp only [blossom_first_pass, Option.some.injEq] at h
    rw [← h]
  | k :: ks, r, r1, h => by
    simp only [blossom_first_pass] at h
    split at h
    · contradiction
    · exact (blossom_first_pass_size blossom ks _ _ h).trans
        (blossom_visit_size blossom k _ _ _ ‹_›)

theorem blossom_second_pass_size (blossom : List Int) :
    ∀ (ks : List Nat) (r r1 : PhaseState × List Int),
      blossom_second_pass blossom ks r = some r1 → r1.1.is_even.length = r.1.is_even.length
  | [], r, r1, h => by
    simp only [blossom_second_pass, Option.some.injEq] at h
    rw [← h]
  | k :: ks, r, r1, h => by
    simp only [blossom_second_pass] at h
    split at h
    · contradiction
    · exact (blossom_second_pass_size blossom ks _ _ h).trans
        (blossom_visit_size blossom k _ _ _ ‹_›)

theorem blossom_contract_size (H : PathHelpers) (v w : Int)
    (r r1 : PhaseState × List Int) (h : blossom_contract H v w r = some r1) :
    r1.1.is_even.length = r.1.is_even.length := by
  simp only [blossom_contract] at h
  repeat' (split at h)
  all_goals first
    | contradiction
    | (simp only [Option.some.injEq] at h; rw [← h])
    | (have h1 := blossom_first_pass_size _ _ _ _ ‹blossom_first_pass _ _ _ = some _›
       have h2 := blossom_second_pass_size _ _ _ _ h
       exact h2.trans h1)

theorem blossom_scan_size (H : PathHelpers) (columnIndices : List Int) (v : Int) :
    ∀ (js : List Int) (r r1 : PhaseState × List Int),
      blossom_scan H columnIndices v js r = some r1 → r1.1.is_even.length = r.1.is_even.length
  | [], r, r1, h => by
    simp only [blossom_scan, Option.some.injEq] at h
    rw [← h]
  | j :: js, r, r1, h => by
    simp only [blossom_scan] at h
    repeat' (split at h)
    all_goals first
      | contradiction
      | exact blossom_scan_size H columnIndices v js _ _ h
      | exact (blossom_scan_size H columnIndices v js _ _ h).trans
          (blossom_contract_size H v _ _ _ ‹_›)

theorem blossom_vertices_size (H : PathHelpers) (rowOffsets columnIndices : List Int) :
    ∀ (vs : List Int) (r r1 : PhaseState × List Int),
      blossom_vertices H rowOffsets columnIndices vs r = some r1 →
      r1.1.is_even.length = r.1.is_even.length
  | [], r, r1, h => by
    simp only [blossom_vertices, Option.some.injEq] at h
    rw [← h]
  | v :: vs, r, r1, h => by
    simp only [blossom_vertices] at h
    repeat' (split at h)
    all_goals first
      | contradiction
      | exact (blossom_vertices_size H rowOffsets columnIndices vs _ _ h).trans
          (blossom_scan_size H columnIndices v _ _ _ ‹_›)

theorem parBlossom_size (H : PathHelpers) (rowOffsets columnIndices nodes_vector : List Int)
    (index num_threads : Nat) (s s1 : PhaseState)
    (h : parBlossom H rowOffsets columnIndices nodes_vector index num_threads s = some s1) :
    s1.is_even.length = s.is_even.length := by
  simp only [parBlossom] at h
  repeat' (split at h)
  all_goals first
    | contradiction
    | (simp only [Option.some.injEq] at h
       rw [← h]
       exact blossom_vertices_size H rowOffsets columnIndices _ (s, []) _ ‹_›)

theorem parInitializeExposed_length :
    ∀ (exposed : List Int) (r r1 : List Int × List Int),
      parInitializeExposed exposed r = some r1 →
      r1.1.length = r.1.length ∧ r1.2.length = r.2.length
  | [], r, r1, h => by
    simp only [parInitializeExposed, Option.some.injEq] at h
    rw [← h]; exact ⟨rfl, rfl⟩
  | v :: exposed, (is_even, belongs), r1, h => by
    simp only [parInitializeExposed] at h
    split at h
    · rename_i e1 b1 he hb
      have h2 := parInitializeExposed_length exposed _ _ h
      exact ⟨h2.1.trans (wr_length he), h2.2.trans (wr_length hb)⟩
    · contradiction

/-- The vector `is_even` built by the phase initialization has one entry per vertex. -/
theorem phase_init_size (G : Graph) (M : List Int) (pc pt : List (List Int)) (T : Nat)
    (exposed : List Int) (s : PhaseState) (h : phase_init G M pc pt T = some (exposed, s)) :
    s.is_even.length = G.nodes.toNat := by
  simp only [phase_init] at h
  split at h
  · contradiction
  · rename_i e1 b1 hinit
    simp only [Option.some.injEq, Prod.mk.injEq] at h
    rw [← h.2]
    have := (parInitializeExposed_length _ _ _ hinit).1
    simpa using this

theorem estimated_size_fits_of_small (size num_threads quarters : Nat) (hq : quarters ≤ 5)
    (hT : 1 ≤ num_threads) (h : 5 * size < 2 ^ 33) :
    estimated_size_fits size num_threads quarters = true := by
  unfold estimated_size_fits
  rw [decide_eq_true_eq]
  calc quarters * size ≤ 5 * size := Nat.mul_le_mul_right _ hq
    _ < 2 ^ 33 := h
    _ ≤ 2 ^ 33 * num_threads := Nat.le_mul_of_pos_right _ hT

theorem indices_self (a : Int) : indices a a = [] := by
  simp [indices]

theorem Isolated.tail {rowOffsets : List Int} {v : Int} {vs : List Int}
    (h : Isolated rowOffsets (v :: vs)) : Isolated rowOffsets vs :=
  fun u hu => h u (List.mem_cons_of_mem _ hu)

theorem Isolated.strided {rowOffsets nodes_vector : List Int} (h : Isolated rowOffsets nodes_vector)
    (index num_threads : Nat) : Isolated rowOffsets (strided nodes_vector index num_threads) :=
  fun u hu => h u (mem_strided hu)

theorem blossom_vertices_isolated (H : PathHelpers) (rowOffsets columnIndices : List Int) :
    ∀ (vs : List Int) (r : PhaseState × List Int), Isolated rowOffsets vs →
      blossom_vertices H rowOffsets columnIndices vs r = some r
  | [], _, _ => rfl
  | v :: vs, r, h => by
    obtain ⟨a, h1, h2⟩ := h v (List.mem_cons_self _ _)
    simp only [blossom_vertices, h1, h2, indices_self, blossom_scan]
    exact blossom_vertices_isolated H rowOffsets columnIndices vs r h.tail

theorem phase_init_some (G : Graph) (M : List Int) (pc pt : List (List Int)) (T : Nat)
    (hM : M.length ≤ G.nodes.toNat) :
    ∃ s, phase_init G M pc pt T = some (parExposedNode M T, s) ∧ s.path_collection = pc ∧
      s.M = M ∧ s.vector_1 = [] ∧ s.vector_2 = [] := by
  obtain ⟨⟨e, b⟩, hr⟩ := parInitializeExposed_some G.nodes.toNat (parExposedNode M T)
    (List.replicate G.nodes.toNat 0) (List.replicate G.nodes.toNat (-1)) (by simp) (by simp)
    (fun v hv => ⟨(mem_parExposedNode hv).1, by have := (mem_parExposedNode hv).2; omega⟩)
  simp only [phase_init, hr]
  exact ⟨_, rfl, rfl, rfl, rfl, rfl⟩

/-- With no worker at all, a phase collects no path and changes nothing. -/
theorem phase_loop_no_worker (H : PathHelpers) (G : Graph) (fuel : Nat)
    (nodes_vector : List Int) (s : PhaseState)
    (hpc : s.path_collection = []) (h1 : s.vector_1 = []) (h2 : s.vector_2 = []) :
    phase_loop H G 0 (fuel + 1) nodes_vector s = some s := by
  obtain ⟨ie, b, pt, st, sm, sb, bb, M, pc, v1, v2, em⟩ := s
  simp only at hpc h1 h2
  subst hpc h1 h2
  simp [phase_loop, run_workers, copy_vector_to_vector]

theorem x_blossom_loop_no_worker (H : PathHelpers) (fuel pfuel : Nat) (G : Graph) (M : List Int)
    (pt : List (List Int)) (hM : M.length ≤ G.nodes.toNat) :
    x_blossom_loop H G 0 (pfuel + 1) (fuel + 1) M pt = some M := by
  obtain ⟨s, hs, hpc, hm, h1, h2⟩ := phase_init_some G M [] (pt.map (fun _ => [])) 0 hM
  simp only [x_blossom_loop, parFindAugmentingPathNoRecursionUpdatePathTable, hs,
    phase_loop_no_worker H G pfuel _ s hpc h1 h2, hpc, if_true, hm]

/-- C8, counterexample: with `num_threads = 0` the call on the single edge returns, with
the starting matching, instead of failing. -/
theorem C8_zero_threads_returns :
    max_matching_csr specHelpers 1 [0, 1, 2] [1, 0] 0 = Outcome.returned [-1, -1] := by
  decide

/-- C8, amended: for a thread count below 1 on a graph with `n ≥ 0` vertices and a
starting matching of at most `n` entries, the call throws `std::length_error` (from the
`reserve` of `path_collection`) when the count is negative and returns no matching, and
when the count is 0 it starts no worker and returns the starting matching unchanged. -/
theorem C8_thread_count_below_one (H : PathHelpers) (fuel : Nat) (G : Graph) (M : List Int)
    (T : Int) (hT : T < 1) (hn : 0 ≤ G.nodes) (hM : M.length ≤ G.nodes.toNat) :
    x_blossom_maximum_matching H (fuel + 1) G M T
      = if T < 0 then Outcome.length_error else Outcome.returned M := by
  unfold x_blossom_maximum_matching
  by_cases h : T < 0
  · simp [h]
  · have h0 : T = 0 := by omega
    subst h0
    rw [if_neg h, if_neg (by omega), if_neg h]
    simp only [Int.toNat_zero, x_blossom_loop_no_worker H fuel fuel G M _ hM]

/-- Witness for C8 amended: the single edge started from the all `-1` matching, with 0
threads (returns the starting matching) and with -1 threads (`std::length_error`). -/
theorem C8_thread_count_below_one_witness :
    ((0 : Int) < 1 ∧
      0 ≤ ({ rowOffsets := [0, 1, 2], columnIndices := [1, 0] } : Graph).nodes ∧
      ([-1, -1] : List Int).length
        ≤ ({ rowOffsets := [0, 1, 2], columnIndices := [1, 0] } : Graph).nodes.toNat) ∧
      x_blossom_maximum_matching specHelpers 1 { rowOffsets := [0, 1, 2], columnIndices := [1, 0] }
        [-1, -1] 0 = Outcome.returned [-1, -1] ∧
      x_blossom_maximum_matching specHelpers 1 { rowOffsets := [0, 1, 2], columnIndices := [1, 0] }
        [-1, -1] (-1) = Outcome.length_error :=
  ⟨by decide, by
    simpa using C8_thread_count_below_one specHelpers 0
      { rowOffsets := [0, 1, 2], columnIndices := [1, 0] } [-1, -1] 0 (by decide) (by decide)
      (by decide), by
    simpa using C8_thread_count_below_one specHelpers 0
      { rowOffsets := [0, 1, 2], columnIndices := [1, 0] } [-1, -1] (-1) (by decide) (by decide)
      (by decide)⟩

/-! ## What no kernel changes (C4) -/

theorem Preserved.refl (s : PhaseState) : Preserved s s := ⟨rfl, rfl⟩

theorem Preserved.trans {s s1 s2 : PhaseState} (h1 : Preserved s s1) (h2 : Preserved s1 s2) :
    Preserved s s2 := ⟨h2.1.trans h1.1, h2.2.trans h1.2⟩

theorem augment_scan_preserved (H : PathHelpers) (columnIndices : List Int) (v : Int) :
    ∀ (js : List Int) (s : PhaseState) (l : List Int) (s1 : PhaseState) (l1 : List Int),
      augment_scan H columnIndices v js (s, l) = some (s1, l1) → Preserved s s1
  | [], s, l, s1, l1, h => by
    simp only [augment_scan, Option.some.injEq, Prod.mk.injEq] at h
    rw [← h.1]; exact Preserved.refl s
  | j :: js, s, l, s1, l1, h => by
    simp only [augment_scan] at h
    repeat' (split at h)
    all_goals first
      | contradiction
      | (simp only [Option.some.injEq, Prod.mk.injEq] at h; rw [← h.1]; exact Preserved.refl s)
      | (have h2 := augment_scan_preserved H columnIndices v js _ _ _ _ h
         exact ⟨h2.1, h2.2⟩)

theorem augment_vertices_preserved (H : PathHelpers) (rowOffsets columnIndices : List Int) :
    ∀ (vs : List Int) (r r1 : PhaseState × List Int),
      augment_vertices H rowOffsets columnIndices vs r = some r1 → Preserved r.1 r1.1
  | [], r, r1, h => by
    simp only [augment_vertices, Option.some.injEq] at h
    rw [← h]; exact Preserved.refl _
  | v :: vs, r, r1, h => by
    simp only [augment_vertices] at h
    repeat' (split at h)
    all_goals first
      | contradiction
      | exact (augment_scan_preserved H columnIndices v _ _ _ _ _ ‹_›).trans
          (augment_vertices_preserved H rowOffsets columnIndices vs _ _ h)

theorem parAugmentingPath_preserved (H : PathHelpers) (rowOffsets columnIndices nodes_vector : List Int)
    (index num_threads : Nat) (s s1 : PhaseState)
    (h : parAugmentingPath H rowOffsets columnIndices nodes_vector index num_threads s = some s1) :
    Preserved s s1 := by
  simp only [parAugmentingPath] at h
  repeat' (split at h)
  all_goals first
    | contradiction
    | (simp only [Option.some.injEq] at h
       rw [← h]
       exact augment_vertices_preserved H rowOffsets columnIndices _ (s, []) _ ‹_›)

theorem expand_scan_preserved (columnIndices : List Int) (v : Int) :
    ∀ (js : List Int) (s : PhaseState) (l : List Int) (s1 : PhaseState) (l1 : List Int),
      expand_scan columnIndices v js (s, l) = some (s1, l1) → Preserved s s1
  | [], s, l, s1, l1, h => by
    simp only [expand_scan, Option.some.injEq, Prod.mk.injEq] at h
    rw [← h.1]; exact Preserved.refl s
  | j :: js, s, l, s1, l1, h => by
    simp only [expand_scan] at h
    repeat' (split at h)
    all_goals first
      | contradiction
      | (have h2 := expand_scan_preserved columnIndices v js _ _ _ _ h
         exact ⟨h2.1, h2.2⟩)
      | (have h2 := expand_scan_preserved columnIndices v js _ _ _ _ h
         exact ⟨h2.1, h2.2.trans (wr_length ‹wr s.path_table_vector _ _ = some _›)⟩)

theorem expand_vertices_preserved (rowOffsets columnIndices : List Int) :
    ∀ (vs : List Int) (r r1 : PhaseState × List Int),
      expand_vertices rowOffsets columnIndices vs r = some r1 → Preserved r.1 r1.1
  | [], r, r1, h => by
    simp only [expand_vertices, Option.some.injEq] at h
    rw [← h]; exact Preserved.refl _
  | v :: vs, r, r1, h => by
    simp only [expand_vertices] at h
    repeat' (split at h)
    all_goals first
      | contradiction
      | exact (expand_scan_preserved columnIndices v _ _ _ _ _ ‹_›).trans
          (expand_vertices_preserved rowOffsets columnIndices vs _ _ h)

theorem parExpand_preserved (rowOffsets columnIndices nodes_vector : List Int)
    (index num_threads : Nat) (s s1 : PhaseState)
    (h : parExpand rowOffsets columnIndices nodes_vector index num_threads s = some s1) :
    Preserved s s1 := by
  simp only [parExpand] at h
  repeat' (split at h)
  all_goals first
    | contradiction
    | (simp only [Option.some.injEq] at h
       rw [← h]
       exact expand_vertices_preserved rowOffsets columnIndices _ (s, []) _ ‹_›)

theorem blossom_visit_preserved (blossom : List Int) (k : Nat) (chain : List Int)
    (r r1 : PhaseState × List Int) (h : blossom_visit blossom k chain r = some r1) :
    Preserved r.1 r1.1 := by
  simp only [blossom_visit] at h
  repeat' (split at h)
  all_goals first
    | contradiction
    | (simp only [Option.some.injEq] at h
       rw [← h]
       first
        | exact ⟨rfl, rfl⟩
        | exact ⟨rfl, wr_length ‹wr _ _ ([] : List Int) = some _›⟩
        | exact ⟨rfl, wr_length ‹wr _ _ (_ ++ chain) = some _›⟩)

theorem blossom_first_pass_preserved (blossom : List Int) :
    ∀ (ks : List Nat) (r r1 : PhaseState × List Int),
      blossom_first_pass blossom ks r = some r1 → Preserved r.1 r1.1
  | [], r, r1, h => by
    simp only [blossom_first_pass, Option.some.injEq] at h
    rw [← h]; exact Preserved.refl _
  | k :: ks, r, r1, h => by
    simp only [blossom_first_pass] at h
    split at h
    · contradiction
    · exact (blossom_visit_preserved blossom k _ _ _ ‹_›).trans
        (blossom_first_pass_preserved blossom ks _ _ h)

theorem blossom_second_pass_preserved (blossom : List Int) :
    ∀ (ks : List Nat) (r r1 : PhaseState × List Int),
      blossom_second_pass blossom ks r = some r1 → Preserved r.1 r1.1
  | [], r, r1, h => by
    simp only [blossom_second_pass, Option.some.injEq] at h
    rw [← h]; exact Preserved.refl _
  | k :: ks, r, r1, h => by
    simp only [blossom_second_pass] at h
    split at h
    · contradiction
    · exact (blossom_visit_preserved blossom k _ _ _ ‹_›).trans
        (blossom_second_pass_preserved blossom ks _ _ h)

theorem blossom_contract_preserved (H : PathHelpers) (v w : Int)
    (r r1 : PhaseState × List Int) (h : blossom_contract H v w r = some r1) :
    Preserved r.1 r1.1 := by
  simp only [blossom_contract] at h
  repeat' (split at h)
  all_goals first
    | contradiction
    | (simp only [Option.some.injEq] at h; rw [← h]; exact Preserved.refl _)
    | (have h1 := blossom_first_pass_preserved _ _ _ _ ‹_›
       have h2 := blossom_second_pass_preserved _ _ _ _ h
       exact ⟨h2.1.trans h1.1, h2.2.trans h1.2⟩)

theorem blossom_scan_preserved (H : PathHelpers) (columnIndices : List Int) (v : Int) :
    ∀ (js : List Int) (r r1 : PhaseState × List Int),
      blossom_scan H columnIndices v js r = some r1 → Preserved r.1 r1.1
  | [], r, r1, h => by
    simp only [blossom_scan, Option.some.injEq] at h
    rw [← h]; exact Preserved.refl _
  | j :: js, r, r1, h => by
    simp only [blossom_scan] at h
    repeat' (split at h)
    all_goals first
      | contradiction
      | exact blossom_scan_preserved H columnIndices v js _ _ h
      | exact (blossom_contract_preserved H v _ _ _ ‹_›).trans
          (blossom_scan_preserved H columnIndices v js _ _ h)

theorem blossom_vertices_preserved (H : PathHelpers) (rowOffsets columnIndices : List Int) :
    ∀ (vs : List Int) (r r1 : PhaseState × List Int),
      blossom_vertices H rowOffsets columnIndices vs r = some r1 → Preserved r.1 r1.1
  | [], r, r1, h => by
    simp only [blossom_vertices, Option.some.injEq] at h
    rw [← h]; exact Preserved.refl _
  | v :: vs, r, r1, h => by
    simp only [blossom_vertices] at h
    repeat' (split at h)
    all_goals first
      | contradiction
      | exact (blossom_scan_preserved H columnIndices v _ _ _ ‹_›).trans
          (blossom_vertices_preserved H rowOffsets columnIndices vs _ _ h)

theorem parBlossom_preserved (H : PathHelpers) (rowOffsets columnIndices nodes_vector : List Int)
    (index num_threads : Nat) (s s1 : PhaseState)
    (h : parBlossom H rowOffsets columnIndices nodes_vector index num_threads s = some s1) :
    Preserved s s1 := by
  simp only [parBlossom] at h
  repeat' (split at h)
  all_goals first
    | contradiction
    | (simp only [Option.some.injEq] at h
       rw [← h]
       exact blossom_vertices_preserved H rowOffsets columnIndices _ (s, []) _ ‹_›)

theorem run_workers_preserved (worker : Nat → PhaseState → Option PhaseState)
    (hw : ∀ index s s1, worker index s = some s1 → Preserved s s1) :
    ∀ (order : List Nat) (s s1 : PhaseState), run_workers worker order s = some s1 →
      Preserved s s1
  | [], s, s1, h => by
    simp only [run_workers, Option.some.injEq] at h
    rw [← h]; exact Preserved.refl _
  | index :: order, s, s1, h => by
    simp only [run_workers] at h
    split at h
    · contradiction
    · exact (hw index _ _ ‹_›).trans (run_workers_preserved worker hw order _ _ h)

theorem phase_loop_preserved (H : PathHelpers) (G : Graph) (T : Nat) :
    ∀ (fuel : Nat) (nodes_vector : List Int) (s s1 : PhaseState),
      phase_loop H G T fuel nodes_vector s = some s1 → Preserved s s1
  | 0, _, _, _, h => by simp [phase_loop] at h
  | fuel + 1, nodes_vector, s, s1, h => by
    simp only [phase_loop] at h
    split at h
    · contradiction
    · rename_i sa ha
      have pa := run_workers_preserved _
        (fun index t t1 => parAugmentingPath_preserved H _ _ _ index T t t1) _ _ _ ha
      split at h
      · simp only [Option.some.injEq] at h; rw [← h]; exact pa
      · split at h
        · contradiction
        · rename_i sb hb
          have pb := run_workers_preserved _
            (fun index t t1 => parExpand_preserved _ _ _ index T t t1) _ _ _ hb
          split at h
          · contradiction
          · rename_i sc hc
            have pc := run_workers_preserved _
              (fun index t t1 => parBlossom_preserved H _ _ _ index T t t1) _ _ _ hc
            have p3 : Preserved s sc :=
              ⟨pc.1.trans (pb.1.trans pa.1), pc.2.trans (pb.2.trans pa.2)⟩
            split at h
            · simp only [Option.some.injEq] at h; rw [← h]; exact p3
            · exact p3.trans (phase_loop_preserved H G T fuel _ _ _ h)

/-- A phase returns the matching it was given and a predecessor table of the same size. -/
theorem phase_preserved (H : PathHelpers) (fuel : Nat) (G : Graph) (M : List Int)
    (pc pt : List (List Int)) (T : Nat) (s : PhaseState)
    (h : parFindAugmentingPathNoRecursionUpdatePathTable H fuel G M pc pt T = some s) :
    s.M = M ∧ s.path_table_vector.length = pt.length := by
  simp only [parFindAugmentingPathNoRecursionUpdatePathTable] at h
  split at h
  · contradiction
  · rename_i exposed s0 h0
    have p := phase_loop_preserved H G T fuel _ _ _ h
    simp only [phase_init] at h0
    split at h0
    · contradiction
    · simp only [Option.some.injEq, Prod.mk.injEq] at h0
      rw [← h0.2] at p
      exact ⟨p.1, by simpa using p.2⟩

theorem testMatching_is_valid_fold (M : List Int) (hM : ∀ x ∈ M, -1 ≤ x ∧ x < M.length) :
    ∀ (l : List Nat) (acc : Bool), (∀ i ∈ l, i < M.length) →
      l.foldlM
        (fun (is_valid : Bool) (i : Nat) =>
          match rd M (i : Int) with
          | none => none
          | some k =>
            if k ≠ -1 then
              match rd M k with
              | none => none
              | some mate => some (if mate ≠ (i : Int) then false else is_valid)
            else some is_valid)
        acc = some (acc && decide (∀ i ∈ l, mate_ok M i))
  | [], acc, _ => by simp
  | i :: l, acc, hl => by
    have hi : i < M.length := hl i (List.mem_cons_self _ _)
    have hrd : rd M (i : Int) = some (M.getD i (-1)) := by
      rw [rd_of_bounds M i (Int.ofNat_nonneg i) (by simpa using hi)]
      simp [List.getD_eq_getElem?_getD, List.getElem?_eq_getElem hi]
    have hk := hM (M.getD i (-1))
      (by rw [List.getD_eq_getElem?_getD, List.getElem?_eq_getElem hi]; simp)
    have hok : mate_ok M i ↔
        (M.getD i (-1) = -1 ∨ rd M (M.getD i (-1)) = some (i : Int)) := Iff.rfl
    have ih := fun a => testMatching_is_valid_fold M hM l a
      (fun j hj => hl j (List.mem_cons_of_mem _ hj))
    generalize M.getD i (-1) = k at hrd hk hok
    rw [List.foldlM_cons]
    simp only [hrd]
    by_cases hk1 : k = -1
    · simp only [hk1, ne_eq, not_true_eq_false, if_false, Option.bind_eq_bind, Option.some_bind]
      rw [ih]
      have : mate_ok M i := hok.mpr (Or.inl hk1)
      simp [this]
    · obtain ⟨mate, hmate⟩ : ∃ mate, rd M k = some mate :=
        ⟨_, rd_of_bounds M k (by omega) (by omega)⟩
      simp only [ne_eq, hk1, not_false_eq_true, if_true, hmate, Option.bind_eq_bind,
        Option.some_bind]
      rw [ih]
      by_cases hm : mate = (i : Int)
      · have : mate_ok M i := hok.mpr (Or.inr (by rw [hmate, hm]))
        simp [hm, this]
      · have : ¬ mate_ok M i := fun h =>
          (hok.mp h).elim hk1 (fun h2 => hm (by rw [hmate] at h2; exact Option.some.inj h2))
        simp [hm, this]

theorem testMatching_M_set_fold (M : List Int) :
    ∀ (l : List Nat) (acc : List (Int × Int)), (∀ i ∈ l, i < M.length) → acc.Nodup →
      (l.foldl
        (fun (M_set : List (Int × Int)) (i : Nat) =>
          match M[i]? with
          | none => M_set
          | some k =>
            if k ≠ -1 then
              (if (min (i : Int) k, max (i : Int) k) ∈ M_set then M_set
               else M_set ++ [(min (i : Int) k, max (i : Int) k)])
            else M_set)
        acc).Nodup ∧
      ∀ p, p ∈ (l.foldl
        (fun (M_set : List (Int × Int)) (i : Nat) =>
          match M[i]? with
          | none => M_set
          | some k =>
            if k ≠ -1 then
              (if (min (i : Int) k, max (i : Int) k) ∈ M_set then M_set
               else M_set ++ [(min (i : Int) k, max (i : Int) k)])
            else M_set)
        acc) ↔ p ∈ acc ∨ ∃ i ∈ l, M.getD i (-1) ≠ -1 ∧ p = ordered_pair M i
  | [], acc, _, hacc => by simp [hacc]
  | i :: l, acc, hl, hacc => by
    have hi : i < M.length := hl i (List.mem_cons_self _ _)
    have hget : M[i]? = some (M.getD i (-1)) := by
      rw [List.getD_eq_getElem?_getD, List.getElem?_eq_getElem hi]; simp
    have hop : ordered_pair M i
        = (min (i : Int) (M.getD i (-1)), max (i : Int) (M.getD i (-1))) := rfl
    have ih := fun a => testMatching_M_set_fold M l a
      (fun j hj => hl j (List.mem_cons_of_mem _ hj))
    generalize hkdef : M.getD i (-1) = k at hget hop
    rw [List.foldl_cons]
    simp only [hget]
    by_cases hk : k = -1
    · simp only [hk, ne_eq, not_true_eq_false, if_false]
      refine ⟨(ih acc hacc).1, fun p => ?_⟩
      rw [(ih acc hacc).2 p]
      constructor
      · rintro (h | ⟨j, hj, h⟩)
        · exact Or.inl h
        · exact Or.inr ⟨j, List.mem_cons_of_mem _ hj, h⟩
      · rintro (h | ⟨j, hj, h⟩)
        · exact Or.inl h
        · rcases List.mem_cons.mp hj with rfl | hj
          · exact absurd (hkdef.trans hk) h.1
          · exact Or.inr ⟨j, hj, h⟩
    · simp only [ne_eq, hk, not_false_eq_true, if_true]
      by_cases hmem : (min (i : Int) k, max (i : Int) k) ∈ acc
      · simp only [hmem, if_true]
        refine ⟨(ih acc hacc).1, fun p => ?_⟩
        rw [(ih acc hacc).2 p]
        constructor
        · rintro (h | ⟨j, hj, h⟩)
          · exact Or.inl h
          · exact Or.inr ⟨j, List.mem_cons_of_mem _ hj, h⟩
        · rintro (h | ⟨j, hj, h⟩)
          · exact Or.inl h
          · rcases List.mem_cons.mp hj with hji | hj
            · left
              rw [h.2, hji, hop]
              exact hmem
            · exact Or.inr ⟨j, hj, h⟩
      · simp only [hmem, if_false]
        have hnd : (acc ++ [(min (i : Int) k, max (i : Int) k)]).Nodup := by
          rw [List.nodup_append]
          refine ⟨hacc, List.nodup_singleton _, ?_⟩
          intro a ha hb
          rw [List.mem_singleton] at hb
          exact hmem (hb ▸ ha)
        refine ⟨(ih _ hnd).1, fun p => ?_⟩
        rw [(ih _ hnd).2 p]
        constructor
        · rintro (h | ⟨j, hj, h⟩)
          · rcases List.mem_append.mp h with h | h
            · exact Or.inl h
            · rw [List.mem_singleton] at h
              refine Or.inr ⟨i, List.mem_cons_self _ _, by rw [hkdef]; exact hk, ?_⟩
              rw [h, hop]
          · exact Or.inr ⟨j, List.mem_cons_of_mem _ hj, h⟩
        · rintro (h | ⟨j, hj, h⟩)
          · exact Or.inl (List.mem_append_left _ h)
          · rcases List.mem_cons.mp hj with hji | hj
            · left
              rw [h.2, hji, hop]
              exact List.mem_append_right _ (List.mem_singleton_self _)
            · exact Or.inr ⟨j, hj, h⟩

theorem sym2_mk_min_max (a b : Int) : Sym2.mk (min a b, max a b) = Sym2.mk (a, b) := by
  rcases le_total a b with h | h
  · rw [min_eq_left h, max_eq_right h]
  · rw [min_eq_right h, max_eq_left h]
    exact Sym2.eq_swap

theorem testMatching_M_set_length (M : List Int) :
    (testMatching_M_set M).length = pair_count M := by
  obtain ⟨hnd, hmem⟩ := testMatching_M_set_fold M (List.range M.length) []
    (fun i hi => List.mem_range.mp hi) List.nodup_nil
  have hset : (testMatching_M_set M).toFinset
      = ((Finset.range M.length).filter (fun (i : Nat) => M.getD i (-1) ≠ -1)).image
          (ordered_pair M) := by
    ext p
    rw [List.mem_toFinset]
    unfold testMatching_M_set
    rw [hmem p]
    simp only [List.not_mem_nil, false_or, List.mem_range, Finset.mem_image, Finset.mem_filter,
      Finset.mem_range]
    constructor
    · rintro ⟨i, hi, h1, h2⟩
      exact ⟨i, ⟨hi, h1⟩, h2.symm⟩
    · rintro ⟨i, ⟨hi, h1⟩, h2⟩
      exact ⟨i, hi, h1, h2.symm⟩
  have hlen : (testMatching_M_set M).length = (testMatching_M_set M).toFinset.card :=
    (List.toFinset_card_of_nodup hnd).symm
  have himg : ((Finset.range M.length).filter (fun (i : Nat) => M.getD i (-1) ≠ -1)).image
      (fun (i : Nat) => Sym2.mk ((i : Int), M.getD i (-1)))
      = (((Finset.range M.length).filter (fun (i : Nat) => M.getD i (-1) ≠ -1)).image
          (ordered_pair M)).image Sym2.mk := by
    rw [Finset.image_image]
    apply Finset.image_congr
    intro i _
    simp only [Function.comp_apply, ordered_pair]
    exact (sym2_mk_min_max _ _).symm
  have hinj : Set.InjOn (Sym2.mk : Int × Int → Sym2 Int)
      ↑(((Finset.range M.length).filter (fun (i : Nat) => M.getD i (-1) ≠ -1)).image
          (ordered_pair M)) := by
    intro p hp q hq hpq
    simp only [Finset.coe_image, Set.mem_image] at hp hq
    obtain ⟨i, _, rfl⟩ := hp
    obtain ⟨j, _, rfl⟩ := hq
    rcases Sym2.mk_eq_mk_iff.mp hpq with h | h
    · exact h
    · simp only [ordered_pair, Prod.swap_prod_mk, Prod.mk.injEq] at h ⊢
      have h1 := min_le_max (a := (i : Int)) (b := M.getD i (-1))
      have h2 := min_le_max (a := (j : Int)) (b := M.getD j (-1))
      constructor <;> omega
  unfold pair_count
  rw [hlen, hset, himg, Finset.card_image_of_injOn hinj]

/-- C9: for a vector `M` whose entries all lie in `[-1, len(M))`, `testMatching` reports
the matching as valid exactly when `M` is symmetric (every `M[i]` is `-1` or
`M[M[i]] = i`), and the size it reports is the number of distinct unordered pairs
`{i, M[i]}` with `M[i] ≠ -1`. -/
theorem C9_testMatching_valid_iff_symmetric (M : List Int)
    (hM : ∀ x ∈ M, -1 ≤ x ∧ x < M.length) :
    ∃ report, testMatching M = some report ∧
      (report.isSome = true ↔ ∀ i, i < M.length → mate_ok M i) ∧
      ∀ size, report = some size → size = pair_count M := by
  have hv := testMatching_is_valid_fold M hM (List.range M.length) true
    (fun i hi => List.mem_range.mp hi)
  have hv2 : testMatching_is_valid M = some (decide (∀ i ∈ List.range M.length, mate_ok M i)) := by
    unfold testMatching_is_valid
    rw [hv]; simp
  have ht : testMatching M = some (if decide (∀ i ∈ List.range M.length, mate_ok M i) = true
      then some (testMatching_M_set M).length else none) := by
    simp only [testMatching, hv2]
  refine ⟨_, ht, ?_, ?_⟩
  · by_cases h : ∀ i ∈ List.range M.length, mate_ok M i
    · rw [if_pos (decide_eq_true h)]
      exact ⟨fun _ i hi => h i (List.mem_range.mpr hi), fun _ => rfl⟩
    · rw [if_neg (by simpa using h)]
      exact ⟨fun h2 => by simp at h2,
        fun h2 => absurd (fun i hi => h2 i (List.mem_range.mp hi)) h⟩
  · intro size hsize
    split at hsize
    · simp only [Option.some.injEq] at hsize
      rw [← hsize]
      exact testMatching_M_set_length M
    · contradiction

/-- Witness for C9: the vector `[1, 0, -1, 4, 3]`. -/
theorem C9_testMatching_valid_iff_symmetric_witness :
    (∀ x ∈ [1, 0, -1, 4, 3], (-1 : Int) ≤ x ∧ x < ([1, 0, -1, 4, 3] : List Int).length) ∧
      ∃ report, testMatching [1, 0, -1, 4, 3] = some report ∧
        (report.isSome = true ↔
          ∀ i, i < ([1, 0, -1, 4, 3] : List Int).length → mate_ok [1, 0, -1, 4, 3] i) ∧
        ∀ size, report = some size → size = pair_count [1, 0, -1, 4, 3] :=
  ⟨by decide, C9_testMatching_valid_iff_symmetric [1, 0, -1, 4, 3] (by decide)⟩

/-! ## Tree claims of the Augment kernel (C10) -/

theorem tree_ids_append (a b : List (Int × Int)) :
    tree_ids (a ++ b) = tree_ids a ++ tree_ids b := by
  induction a with
  | nil => rfl
  | cons p a ih => simp [tree_ids, ih]

theorem rd_wr_same {α : Type} {l l1 : List α} {i : Int} {x : α} (h : wr l i x = some l1) :
    rd l1 i = some x := by
  unfold wr at h
  split at h
  · contradiction
  · split at h
    · rename_i h0 h1
      simp only [Option.some.injEq] at h
      subst h
      unfold rd
      rw [if_neg h0]
      simp [h1]
    · contradiction

theorem rd_wr_other {α : Type} {l l1 : List α} {i j : Int} {x : α} (h : wr l i x = some l1)
    (hij : j ≠ i) : rd l1 j = rd l j := by
  unfold wr at h
  split at h
  · contradiction
  · split at h
    · rename_i h0 h1
      simp only [Option.some.injEq] at h
      subst h
      unfold rd
      by_cases hj : j < 0
      · simp [hj]
      · rw [if_neg hj, if_neg hj]
        have : i.toNat ≠ j.toNat := by omega
        simp [List.getElem?_set_ne this]
    · contradiction

theorem cas_won {cells cells1 : List Int} {i expected desired : Int}
    (h : compare_exchange_strong cells i expected desired = some (true, cells1)) :
    rd cells i = some expected ∧ wr cells i desired = some cells1 := by
  unfold compare_exchange_strong at h
  split at h
  · contradiction
  · rename_i cur hcur
    split at h
    · rename_i he
      split at h
      · contradiction
      · simp only [Option.some.injEq, Prod.mk.injEq, true_and] at h
        subst h; subst he
        exact ⟨hcur, ‹_›⟩
    · simp at h

theorem cas_lost {cells cells1 : List Int} {i expected desired : Int}
    (h : compare_exchange_strong cells i expected desired = some (false, cells1)) :
    cells1 = cells ∧ ∃ cur, rd cells i = some cur ∧ cur ≠ expected := by
  unfold compare_exchange_strong at h
  split at h
  · contradiction
  · rename_i cur hcur
    split at h
    · split at h
      · contradiction
      · simp at h
    · rename_i he
      simp only [Option.some.injEq, Prod.mk.injEq, true_and] at h
      exact ⟨h.symm, cur, hcur, he⟩

theorem TreeClaims.emit {s : PhaseState} (hs : TreeClaims s) {tv tw mn mx : Int}
    (hne : tv ≠ tw) (hm : (mn = tv ∧ mx = tw) ∨ (mn = tw ∧ mx = tv)) {st1 st2 : List Int}
    (h1 : compare_exchange_strong s.select_tree mn 0 1 = some (true, st1))
    (h2 : compare_exchange_strong st1 mx 0 1 = some (true, st2)) :
    TreeClaims { s with select_tree := st2, emitted := s.emitted ++ [(tv, tw)] } := by
  obtain ⟨hnd, hiff⟩ := hs
  obtain ⟨r1, w1⟩ := cas_won h1
  obtain ⟨r2, w2⟩ := cas_won h2
  have hmm : mx ≠ mn := by rcases hm with ⟨rfl, rfl⟩ | ⟨rfl, rfl⟩ <;> [exact hne.symm; exact hne]
  have r2a : rd s.select_tree mx = some 0 := by rw [← rd_wr_other w1 hmm]; exact r2
  have n1 : mn ∉ tree_ids s.emitted := fun hin => by
    have := (hiff mn).mpr hin; rw [r1] at this; simp at this
  have n2 : mx ∉ tree_ids s.emitted := fun hin => by
    have := (hiff mx).mpr hin; rw [r2a] at this; simp at this
  have nv : tv ∉ tree_ids s.emitted := by
    rcases hm with ⟨rfl, rfl⟩ | ⟨rfl, rfl⟩ <;> assumption
  have nw : tw ∉ tree_ids s.emitted := by
    rcases hm with ⟨rfl, rfl⟩ | ⟨rfl, rfl⟩ <;> assumption
  have key : ∀ t, rd st2 t = some 1 ↔ (t ∈ tree_ids s.emitted ∨ t = mn ∨ t = mx) := by
    intro t
    by_cases htx : t = mx
    · subst htx; simp [rd_wr_same w2]
    · rw [rd_wr_other w2 htx]
      by_cases htn : t = mn
      · subst htn; simp [rd_wr_same w1]
      · rw [rd_wr_other w1 htn, hiff t]; simp [htx, htn]
  refine ⟨?_, fun t => ?_⟩
  · simp only [tree_ids_append, tree_ids]
    rw [List.nodup_append]
    refine ⟨hnd, by simp [hne], ?_⟩
    intro a ha hb
    simp only [List.mem_cons, List.mem_singleton, List.not_mem_nil, or_false] at hb
    rcases hb with rfl | rfl
    · exact nv ha
    · exact nw ha
  · simp only [tree_ids_append, tree_ids, List.mem_append, List.mem_cons, List.not_mem_nil,
      or_false]
    rw [key t]
    rcases hm with ⟨rfl, rfl⟩ | ⟨rfl, rfl⟩
    · exact Iff.rfl
    · constructor
      · rintro (h | h | h)
        · exact Or.inl h
        · exact Or.inr (Or.inr h)
        · exact Or.inr (Or.inl h)
      · rintro (h | h | h)
        · exact Or.inl h
        · exact Or.inr (Or.inr h)
        · exact Or.inr (Or.inl h)

theorem TreeClaims.rollback {s : PhaseState} (hs : TreeClaims s) {mn mx : Int}
    {st1 st2 st3 : List Int} {b : Bool}
    (h1 : compare_exchange_strong s.select_tree mn 0 1 = some (true, st1))
    (h2 : compare_exchange_strong st1 mx 0 1 = some (false, st2))
    (h3 : compare_exchange_strong st2 mn 1 0 = some (b, st3)) :
    TreeClaims { s with select_tree := st3 } := by
  obtain ⟨hnd, hiff⟩ := hs
  obtain ⟨r1, w1⟩ := cas_won h1
  obtain ⟨e2, -⟩ := cas_lost h2
  subst e2
  have r3 : rd st2 mn = some 1 := rd_wr_same w1
  cases b with
  | false =>
    obtain ⟨-, cur, hc, hne⟩ := cas_lost h3
    rw [r3] at hc
    exact absurd (Option.some.inj hc).symm hne
  | true =>
    obtain ⟨-, w3⟩ := cas_won h3
    refine ⟨hnd, fun t => ?_⟩
    show rd st3 t = some 1 ↔ _
    by_cases htn : t = mn
    · subst htn
      rw [rd_wr_same w3, ← hiff t, r1]
    · rw [rd_wr_other w3 htn, rd_wr_other w1 htn, hiff t]

theorem augment_scan_claims (H : PathHelpers) (columnIndices : List Int) (v : Int) :
    ∀ (js : List Int) (s : PhaseState) (l : List Int) (s1 : PhaseState) (l1 : List Int),
      TreeClaims s → augment_scan H columnIndices v js (s, l) = some (s1, l1) → TreeClaims s1
  | [], s, l, s1, l1, hs, h => by
    simp only [augment_scan, Option.some.injEq, Prod.mk.injEq] at h
    rw [← h.1]; exact hs
  | j :: js, s, l, s1, l1, hs, h => by
    simp only [augment_scan] at h
    split at h
    · contradiction
    · split at h
      · split at h
        · rename_i hcond
          split at h
          · contradiction
          · simp only [Option.some.injEq, Prod.mk.injEq] at h
            rw [← h.1]; exact hs
          · rename_i st1 hc1
            split at h
            · contradiction
            · rename_i st2 hc2
              split at h
              · refine augment_scan_claims H columnIndices v js _ _ _ _ ?_ h
                refine hs.emit hcond.2.1 ?_ hc1 hc2
                split <;> simp
              · contradiction
            · rename_i st2 hc2
              split at h
              · contradiction
              · rename_i hc3
                exact augment_scan_claims H columnIndices v js _ _ _ _
                  (hs.rollback hc1 hc2 hc3) h
        · exact augment_scan_claims H columnIndices v js _ _ _ _ hs h
      · contradiction

theorem augment_vertices_claims (H : PathHelpers) (rowOffsets columnIndices : List Int) :
    ∀ (vs : List Int) (r r1 : PhaseState × List Int), TreeClaims r.1 →
      augment_vertices H rowOffsets columnIndices vs r = some r1 → TreeClaims r1.1
  | [], r, r1, hs, h => by
    simp only [augment_vertices, Option.some.injEq] at h
    rw [← h]; exact hs
  | v :: vs, r, r1, hs, h => by
    simp only [augment_vertices] at h
    split at h
    · split at h
      · contradiction
      · rename_i r2 h2
        exact augment_vertices_claims H rowOffsets columnIndices vs _ _
          (augment_scan_claims H columnIndices v _ _ _ _ _ hs h2) h
    · contradiction

theorem parAugmentingPath_claims (H : PathHelpers) (rowOffsets columnIndices nodes_vector : List Int)
    (index num_threads : Nat) (s s1 : PhaseState) (hs : TreeClaims s)
    (h : parAugmentingPath H rowOffsets columnIndices nodes_vector index num_threads s = some s1) :
    TreeClaims s1 := by
  simp only [parAugmentingPath] at h
  split at h
  swap
  · contradiction
  split at h
  · contradiction
  · rename_i s2 l2 h2
    have h3 := augment_vertices_claims H rowOffsets columnIndices _ (s, []) _ hs h2
    split at h
    · simp only [Option.some.injEq] at h
      rw [← h]; exact h3
    · simp only [Option.some.injEq] at h
      rw [← h]; exact h3

theorem run_workers_claims (worker : Nat → PhaseState → Option PhaseState)
    (hw : ∀ index s s1, TreeClaims s → worker index s = some s1 → TreeClaims s1) :
    ∀ (order : List Nat) (s s1 : PhaseState), TreeClaims s →
      run_workers worker order s = some s1 → TreeClaims s1
  | [], s, s1, hs, h => by
    simp only [run_workers, Option.some.injEq] at h
    rw [← h]; exact hs
  | index :: order, s, s1, hs, h => by
    simp only [run_workers] at h
    split at h
    · contradiction
    · rename_i s2 h2
      exact run_workers_claims worker hw order _ _ (hw index _ _ hs h2) h

theorem rd_mem {α : Type} {l : List α} {i : Int} {x : α} (h : rd l i = some x) : x ∈ l := by
  unfold rd at h
  split at h
  · contradiction
  · exact List.getElem?_mem h

/-- C10: one invocation of the Augment kernel, started with every `select_tree` cell at 0
(as the phase leaves them) and run by the workers of `order` one after the other in any
order: the tree ids of the emitted pairs `(tree_v, tree_w)` are pairwise distinct, so each
tree is an endpoint tree of at most one emitted path, and afterwards `select_tree[t] = 1`
exactly for the tree ids `t` of the emitted pairs.  This holds whatever the helper
`find_path_vector` returns. -/
theorem C10_augment_claims_each_tree_once (H : PathHelpers)
    (rowOffsets columnIndices nodes_vector : List Int) (num_threads : Nat) (order : List Nat)
    (s s1 : PhaseState) (hzero : ∀ c ∈ s.select_tree, c = 0) (hem : s.emitted = [])
    (h : run_workers
      (fun index => parAugmentingPath H rowOffsets columnIndices nodes_vector index num_threads)
      order s = some s1) :
    (tree_ids s1.emitted).Nodup ∧
      ∀ t, rd s1.select_tree t = some 1 ↔ t ∈ tree_ids s1.emitted := by
  have hs : TreeClaims s := by
    refine ⟨by rw [hem]; exact List.nodup_nil, fun t => ?_⟩
    rw [hem]
    constructor
    · intro ht
      have := hzero 1 (rd_mem ht)
      omega
    · intro ht
      simp [tree_ids] at ht
  exact run_workers_claims _
    (fun index t t1 ht hw => parAugmentingPath_claims H _ _ _ index num_threads t t1 ht hw)
    order s s1 hs h

/-- Witness for C10: three roots 0, 1, 2 with the edges 0-2 and 1-2, frontier `1, 0, 2`, one
worker: the pair `(1, 2)` is emitted, the claim of tree 0 is taken and rolled back twice,
and the last scan stops at the taken tree 1. -/
theorem C10_augment_claims_each_tree_once_witness :
    (∀ c ∈ ([0, 0, 0] : List Int), c = 0) ∧
      run_workers
          (fun index => parAugmentingPath specHelpers [0, 1, 2, 4] [2, 2, 0, 1] [1, 0, 2] index 1)
          [0]
          { is_even := [1, 1, 1], belongs := [0, 1, 2], path_table_vector := [[], [], []],
            select_tree := [0, 0, 0], select_match := [0, 0, 0], select_blossom := [0, 0, 0],
            blossom_to_base := [-1, -1, -1], M := [-1, -1, -1], path_collection := [],
            vector_1 := [], vector_2 := [], emitted := [] }
        = some
          { is_even := [1, 1, 1], belongs := [0, 1, 2], path_table_vector := [[], [], []],
            select_tree := [0, 1, 1], select_match := [0, 0, 0], select_blossom := [0, 0, 0],
            blossom_to_base := [-1, -1, -1], M := [-1, -1, -1], path_collection := [[1, 2]],
            vector_1 := [], vector_2 := [], emitted := [(1, 2)] } ∧
      (tree_ids [(1, 2)]).Nodup ∧
      ∀ t, rd ([0, 1, 1] : List Int) t = some 1 ↔ t ∈ tree_ids [(1, 2)] :=
  ⟨by decide, by decide,
    C10_augment_claims_each_tree_once specHelpers [0, 1, 2, 4] [2, 2, 0, 1] [1, 0, 2] 1 [0]
      { is_even := [1, 1, 1], belongs := [0, 1, 2], path_table_vector := [[], [], []],
        select_tree := [0, 0, 0], select_match := [0, 0, 0], select_blossom := [0, 0, 0],
        blossom_to_base := [-1, -1, -1], M := [-1, -1, -1], path_collection := [],
        vector_1 := [], vector_2 := [], emitted := [] }
      { is_even := [1, 1, 1], belongs := [0, 1, 2], path_table_vector := [[], [], []],
        select_tree := [0, 1, 1], select_match := [0, 0, 0], select_blossom := [0, 0, 0],
        blossom_to_base := [-1, -1, -1], M := [-1, -1, -1], path_collection := [[1, 2]],
        vector_1 := [], vector_2 := [], emitted := [(1, 2)] }
      (by decide) rfl (by decide)⟩


/-! ## Thread counts above the frontier size (C6) -/

theorem enumFrom_filter_mod (T : Nat) :
    ∀ (m : List Int) (k : Nat), 0 < k → k + m.length ≤ T →
      (m.enumFrom k).filter (fun p => p.1 % T = 0) = []
  | [], _, _, _ => rfl
  | a :: m, k, hk, hT => by
    simp only [List.length_cons] at hT
    have hkT : k % T = k := Nat.mod_eq_of_lt (by omega)
    have hne : ¬ (k % T = 0) := by omega
    simp only [List.enumFrom_cons, List.filter_cons, hne, decide_False, Bool.false_eq_true,
      if_false]
    exact enumFrom_filter_mod T m (k + 1) (by omega) (by omega)

/-- With at least as many workers as frontier vertices, worker `index` visits the vertex
`nodes_vector[index]` only. -/
theorem strided_of_le (nodes_vector : List Int) (index T : Nat)
    (h : nodes_vector.length ≤ T) :
    strided nodes_vector index T = (nodes_vector.drop index).take 1 := by
  unfold strided
  have hlen : (nodes_vector.drop index).length ≤ T := by
    rw [List.length_drop]; omega
  generalize nodes_vector.drop index = m at hlen
  cases m with
  | nil => rfl
  | cons a m =>
    simp only [List.length_cons] at hlen
    simp only [List.enum, List.enumFrom_cons, List.filter_cons, Nat.zero_mod, decide_True,
      if_true, List.map_cons, List.take_succ_cons, List.take_zero]
    rw [enumFrom_filter_mod T m (0 + 1) (by omega) (by omega)]
    rfl

theorem strided_zero_one (items : List Int) : strided items 0 1 = items := by
  unfold strided
  simp only [List.drop_zero, Nat.mod_one, decide_True, List.filter_true]
  rw [List.enum_map_snd]

theorem run_workers_append (worker : Nat → PhaseState → Option PhaseState) :
    ∀ (a b : List Nat) (s : PhaseState),
      run_workers worker (a ++ b) s = (run_workers worker a s).bind (run_workers worker b)
  | [], _, _ => rfl
  | index :: a, b, s => by
    simp only [List.cons_append, run_workers]
    cases worker index s with
    | none => rfl
    | some s1 => exact run_workers_append worker a b s1

theorem run_workers_induct (P : PhaseState → Prop)
    (worker : Nat → PhaseState → Option PhaseState)
    (hw : ∀ index s s1, P s → worker index s = some s1 → P s1) :
    ∀ (order : List Nat) (s s1 : PhaseState), P s → run_workers worker order s = some s1 → P s1
  | [], s, s1, hs, h => by
    simp only [run_workers, Option.some.injEq] at h
    rw [← h]; exact hs
  | index :: order, s, s1, hs, h => by
    simp only [run_workers] at h
    split at h
    · contradiction
    · rename_i s2 h2
      exact run_workers_induct P worker hw order _ _ (hw index _ _ hs h2) h

theorem run_workers_congr (P : PhaseState → Prop)
    (w1 w2 : Nat → PhaseState → Option PhaseState)
    (hP : ∀ index s s1, P s → w1 index s = some s1 → P s1)
    (heq : ∀ index s, P s → w1 index s = w2 index s) :
    ∀ (order : List Nat) (s : PhaseState), P s →
      run_workers w1 order s = run_workers w2 order s
  | [], _, _ => rfl
  | index :: order, s, hs => by
    simp only [run_workers]
    rw [← heq index s hs]
    cases h : w1 index s with
    | none => rfl
    | some s1 => exact run_workers_congr P w1 w2 hP heq order s1 (hP index s s1 hs h)

/-- Workers from `n` on that do nothing can be left out. -/
theorem run_workers_range_of_idle (P : PhaseState → Prop)
    (worker : Nat → PhaseState → Option PhaseState) (n : Nat)
    (hP : ∀ index s s1, P s → worker index s = some s1 → P s1)
    (hidle : ∀ index, n ≤ index → ∀ s, P s → worker index s = some s) :
    ∀ (d : Nat) (s : PhaseState), P s →
      run_workers worker (List.range (n + d)) s = run_workers worker (List.range n) s
  | 0, _, _ => rfl
  | d + 1, s, hs => by
    rw [← Nat.add_assoc, List.range_succ, run_workers_append,
      run_workers_range_of_idle P worker n hP hidle d s hs]
    cases h : run_workers worker (List.range n) s with
    | none => rfl
    | some s1 =>
      have hs1 := run_workers_induct P worker hP _ _ _ hs h
      simp [run_workers, hidle (n + d) (by omega) s1 hs1]

/-- A kernel whose workers depend on the thread count through their share of the frontier
only computes the same state for all thread counts that reach the frontier size, on the
states `P` on which the workers have this property. -/
theorem kernel_of_le (P : PhaseState → Prop)
    (worker : List Int → Nat → Nat → PhaseState → Option PhaseState)
    (hP : ∀ nodes index T s s1, P s → worker nodes index T s = some s1 → P s1)
    (hshare : ∀ nodes index T s, 1 ≤ T → P s →
      worker nodes index T s = worker (strided nodes index T) 0 1 s)
    (hidle : ∀ s, P s → worker [] 0 1 s = some s)
    (nodes_vector : List Int) (T B : Nat) (hT : nodes_vector.length ≤ T)
    (hB : nodes_vector.length ≤ B) (hT1 : 1 ≤ T) (hB1 : 1 ≤ B) (s : PhaseState) (hs : P s) :
    run_workers (fun index => worker nodes_vector index T) (List.range T) s
      = run_workers (fun index => worker nodes_vector index B) (List.range B) s := by
  have key : ∀ T, nodes_vector.length ≤ T → 1 ≤ T →
      run_workers (fun index => worker nodes_vector index T) (List.range T) s
        = run_workers (fun index => worker ((nodes_vector.drop index).take 1) 0 1)
            (List.range nodes_vector.length) s := by
    intro T hT hT1
    rw [run_workers_congr P (fun index => worker nodes_vector index T)
      (fun index => worker ((nodes_vector.drop index).take 1) 0 1)
      (fun index t t1 ht h => hP _ _ _ _ _ ht h)
      (fun index t ht => by
        show worker nodes_vector index T t = _
        rw [hshare _ _ _ _ hT1 ht, strided_of_le nodes_vector index T hT])
      _ s hs]
    obtain ⟨d, rfl⟩ := Nat.exists_eq_add_of_le hT
    apply run_workers_range_of_idle P _ _ (fun index t t1 ht h => hP _ _ _ _ _ ht h)
    · intro index hi s1 hs1
      rw [List.drop_eq_nil_of_le hi]
      exact hidle s1 hs1
    · exact hs
  rw [key T hT hT1, key B hB hB1]

theorem parAugmentingPath_share (H : PathHelpers) (rowOffsets columnIndices nodes : List Int)
    (index T : Nat) (s : PhaseState) (hT : 1 ≤ T) (hs : 5 * s.is_even.length < 2 ^ 33) :
    parAugmentingPath H rowOffsets columnIndices nodes index T s
      = parAugmentingPath H rowOffsets columnIndices (strided nodes index T) 0 1 s := by
  simp only [parAugmentingPath, strided_zero_one,
    estimated_size_fits_of_small _ T 5 (Nat.le_refl 5) hT hs,
    estimated_size_fits_of_small _ 1 5 (Nat.le_refl 5) (Nat.le_refl 1) hs]

theorem parExpand_share (rowOffsets columnIndices nodes : List Int)
    (index T : Nat) (s : PhaseState) (hT : 1 ≤ T) (hs : 5 * s.is_even.length < 2 ^ 33) :
    parExpand rowOffsets columnIndices nodes index T s
      = parExpand rowOffsets columnIndices (strided nodes index T) 0 1 s := by
  simp only [parExpand, strided_zero_one,
    estimated_size_fits_of_small _ T 5 (Nat.le_refl 5) hT hs,
    estimated_size_fits_of_small _ 1 5 (Nat.le_refl 5) (Nat.le_refl 1) hs]

theorem parBlossom_share (H : PathHelpers) (rowOffsets columnIndices nodes : List Int)
    (index T : Nat) (s : PhaseState) (hT : 1 ≤ T) (hs : 5 * s.is_even.length < 2 ^ 33) :
    parBlossom H rowOffsets columnIndices nodes index T s
      = parBlossom H rowOffsets columnIndices (strided nodes index T) 0 1 s := by
  simp only [parBlossom, strided_zero_one,
    estimated_size_fits_of_small _ T 4 (by omega) hT hs,
    estimated_size_fits_of_small _ 1 4 (by omega) (Nat.le_refl 1) hs]

theorem parAugmentingPath_idle (H : PathHelpers) (rowOffsets columnIndices : List Int)
    (s : PhaseState) (hs : 5 * s.is_even.length < 2 ^ 33) :
    parAugmentingPath H rowOffsets columnIndices [] 0 1 s = some s := by
  simp [parAugmentingPath, strided, augment_vertices,
    estimated_size_fits_of_small _ 1 5 (Nat.le_refl 5) (Nat.le_refl 1) hs]

theorem parExpand_idle (rowOffsets columnIndices : List Int) (s : PhaseState)
    (hs : 5 * s.is_even.length < 2 ^ 33) :
    parExpand rowOffsets columnIndices [] 0 1 s = some s := by
  have hf := estimated_size_fits_of_small _ 1 5 (Nat.le_refl 5) (Nat.le_refl 1) hs
  cases s
  simp only at hf
  simp [parExpand, strided, expand_vertices, hf]

theorem parBlossom_idle (H : PathHelpers) (rowOffsets columnIndices : List Int)
    (s : PhaseState) (hs : 5 * s.is_even.length < 2 ^ 33) :
    parBlossom H rowOffsets columnIndices [] 0 1 s = some s := by
  have hf := estimated_size_fits_of_small _ 1 4 (by omega) (Nat.le_refl 1) hs
  cases s
  simp only at hf
  simp [parBlossom, strided, blossom_vertices, hf]

/-- A result of the bounded loop is the result of `phase_loop` for every thread count
from the bound on. -/
theorem phase_loop_of_upto (H : PathHelpers) (G : Graph) (B T : Nat) (hBT : B ≤ T)
    (hB1 : 1 ≤ B) :
    ∀ (fuel : Nat) (nodes_vector : List Int) (s r : PhaseState),
      5 * s.is_even.length < 2 ^ 33 →
      phase_loop_upto H G B fuel nodes_vector s = some r →
      phase_loop H G T fuel nodes_vector s = some r
  | 0, _, _, _, _, h => by simp [phase_loop_upto] at h
  | fuel + 1, nodes_vector, s, r, hs, h => by
    simp only [phase_loop_upto] at h
    split at h
    · contradiction
    · rename_i hlen
      have hlen : nodes_vector.length ≤ B := by omega
      have pa : ∀ (nodes : List Int) (index T : Nat) (t t1 : PhaseState),
          5 * t.is_even.length < 2 ^ 33 →
          parAugmentingPath H G.rowOffsets G.columnIndices nodes index T t = some t1 →
          5 * t1.is_even.length < 2 ^ 33 := by
        intro nodes index T t t1 ht h
        rw [parAugmentingPath_size H _ _ nodes index T t t1 h]; exact ht
      have pe : ∀ (nodes : List Int) (index T : Nat) (t t1 : PhaseState),
          5 * t.is_even.length < 2 ^ 33 →
          parExpand G.rowOffsets G.columnIndices nodes index T t = some t1 →
          5 * t1.is_even.length < 2 ^ 33 := by
        intro nodes index T t t1 ht h
        rw [parExpand_size _ _ nodes index T t t1 h]; exact ht
      have pb : ∀ (nodes : List Int) (index T : Nat) (t t1 : PhaseState),
          5 * t.is_even.length < 2 ^ 33 →
          parBlossom H G.rowOffsets G.columnIndices nodes index T t = some t1 →
          5 * t1.is_even.length < 2 ^ 33 := by
        intro nodes index T t t1 ht h
        rw [parBlossom_size H _ _ nodes index T t t1 h]; exact ht
      have ka : ∀ t : PhaseState, 5 * t.is_even.length < 2 ^ 33 →
          run_workers (fun begin => parAugmentingPath H G.rowOffsets G.columnIndices
              nodes_vector begin T) (List.range T) t
            = run_workers (fun begin => parAugmentingPath H G.rowOffsets G.columnIndices
              nodes_vector begin B) (List.range B) t :=
        fun t ht => kernel_of_le (fun t => 5 * t.is_even.length < 2 ^ 33)
          (fun nodes index T => parAugmentingPath H G.rowOffsets G.columnIndices nodes index T)
          pa
          (fun nodes index T t hT ht => parAugmentingPath_share H _ _ nodes index T t hT ht)
          (fun t ht => parAugmentingPath_idle H _ _ t ht) nodes_vector T B (by omega) hlen
          (by omega) hB1 t ht
      have ke : ∀ t : PhaseState, 5 * t.is_even.length < 2 ^ 33 →
          run_workers (fun begin => parExpand G.rowOffsets G.columnIndices
              nodes_vector begin T) (List.range T) t
            = run_workers (fun begin => parExpand G.rowOffsets G.columnIndices
              nodes_vector begin B) (List.range B) t :=
        fun t ht => kernel_of_le (fun t => 5 * t.is_even.length < 2 ^ 33)
          (fun nodes index T => parExpand G.rowOffsets G.columnIndices nodes index T)
          pe
          (fun nodes index T t hT ht => parExpand_share _ _ nodes index T t hT ht)
          (fun t ht => parExpand_idle _ _ t ht) nodes_vector T B (by omega) hlen
          (by omega) hB1 t ht
      simp only [phase_loop]
      rw [ka s hs]
      split at h
      · contradiction
      · rename_i s1 h1
        have hs1 : 5 * s1.is_even.length < 2 ^ 33 :=
          run_workers_induct (fun t => 5 * t.is_even.length < 2 ^ 33) _
            (fun index t t1 ht h => pa _ index B t t1 ht h) _ _ _ hs h1
        try simp only [h1]
        split at h
        · rename_i hpc
          rw [if_pos hpc]
          exact h
        · rename_i hpc
          rw [if_neg hpc, ke { s1 with vector_1 := [] } hs1]
          split at h
          · contradiction
          · rename_i s2 h2
            have hs2 : 5 * s2.is_even.length < 2 ^ 33 :=
              run_workers_induct (fun t => 5 * t.is_even.length < 2 ^ 33) _
                (fun index t t1 ht h => pe _ index B t t1 ht h) _
                { s1 with vector_1 := [] } _ hs1 h2
            try simp only [h2]
            split at h
            · contradiction
            · rename_i hlen2
              have kb : ∀ t : PhaseState, 5 * t.is_even.length < 2 ^ 33 →
                  run_workers (fun begin => parBlossom H G.rowOffsets G.columnIndices
                      (copy_vector_to_vector s2.vector_1 s2.vector_2) begin T) (List.range T) t
                    = run_workers (fun begin => parBlossom H G.rowOffsets G.columnIndices
                      (copy_vector_to_vector s2.vector_1 s2.vector_2) begin B)
                      (List.range B) t :=
                fun t ht => kernel_of_le (fun t => 5 * t.is_even.length < 2 ^ 33)
                  (fun nodes index T => parBlossom H G.rowOffsets G.columnIndices nodes index T)
                  pb
                  (fun nodes index T t hT ht => parBlossom_share H _ _ nodes index T t hT ht)
                  (fun t ht => parBlossom_idle H _ _ t ht)
                  (copy_vector_to_vector s2.vector_1 s2.vector_2) T B (by omega) (by omega)
                  (by omega) hB1 t ht
              rw [kb { s2 with vector_2 := [] } hs2]
              split at h
              · contradiction
              · rename_i s3 h3
                have hs3 : 5 * s3.is_even.length < 2 ^ 33 :=
                  run_workers_induct (fun t => 5 * t.is_even.length < 2 ^ 33) _
                    (fun index t t1 ht h => pb _ index B t t1 ht h) _
                    { s2 with vector_2 := [] } _ hs2 h3
                try simp only [h3]
                split at h
                · rename_i he
                  rw [if_pos he]
                  exact h
                · rename_i he
                  rw [if_neg he]
                  exact phase_loop_of_upto H G B T hBT hB1 fuel _ _ _ hs3 h

theorem phase_of_upto (H : PathHelpers) (fuel : Nat) (G : Graph) (M : List Int)
    (pc pt : List (List Int)) (B T : Nat) (hBT : B ≤ T) (hB1 : 1 ≤ B)
    (hG : 5 * G.nodes.toNat < 2 ^ 33) (r : PhaseState)
    (h : phase_upto H fuel G M pc pt B = some r) :
    parFindAugmentingPathNoRecursionUpdatePathTable H fuel G M pc pt T = some r := by
  simp only [phase_upto] at h
  have hinit : phase_init G M pc pt T = phase_init G M pc pt B := rfl
  simp only [parFindAugmentingPathNoRecursionUpdatePathTable, hinit]
  split at h
  · contradiction
  · rename_i exposed s h0
    try simp only [h0]
    exact phase_loop_of_upto H G B T hBT hB1 fuel _ _ _
      (by rw [phase_init_size G M pc pt B _ s h0]; exact hG) h

theorem x_blossom_loop_of_upto (H : PathHelpers) (G : Graph) (B T pf : Nat) (hBT : B ≤ T)
    (hB1 : 1 ≤ B) (hG : 5 * G.nodes.toNat < 2 ^ 33) :
    ∀ (fuel : Nat) (M : List Int) (pt : List (List Int)) (M1 : List Int),
      x_blossom_loop_upto H G B pf fuel M pt = some M1 →
      x_blossom_loop H G T pf fuel M pt = some M1
  | 0, _, _, _, h => by simp [x_blossom_loop_upto] at h
  | fuel + 1, M, pt, M1, h => by
    simp only [x_blossom_loop_upto] at h
    split at h
    · contradiction
    · rename_i s hs
      simp only [x_blossom_loop, phase_of_upto H pf G M [] _ B T hBT hB1 hG s hs]
      split at h
      · rename_i hpc
        rw [if_pos hpc]
        exact h
      · rename_i hpc
        rw [if_neg hpc]
        have hflip : parNewMatchingVector s.M s.path_collection T
            = parNewMatchingVector s.M s.path_collection B := rfl
        rw [hflip]
        split at h
        · contradiction
        · rename_i M2 h2
          try simp only [h2]
          exact x_blossom_loop_of_upto H G B T pf hBT hB1 hG fuel _ _ _ h

theorem cycle5_check_of_upto (code B T : Nat) (hBT : B ≤ T) (hB1 : 1 ≤ B)
    (h : cycle5_check_upto code B = true) : cycle5_check code T = true := by
  have hnodes : (cycle5_graph code).nodes = 5 := rfl
  have hG : 5 * (cycle5_graph code).nodes.toNat < 2 ^ 33 := by rw [hnodes]; decide
  unfold cycle5_check_upto at h
  split at h
  · rename_i M hM
    split at h
    · rename_i s hs
      have h1 := x_blossom_loop_of_upto specHelpers (cycle5_graph code) B T 3 hBT hB1 hG 3
        _ _ _ hM
      have h2 := phase_of_upto specHelpers 3 (cycle5_graph code) M [] _ B T hBT hB1 hG s hs
      have e5 : (5 : Int).toNat = 5 := rfl
      have hx : x_blossom_maximum_matching specHelpers 3 (cycle5_graph code)
          (List.replicate 5 (-1)) (T : Int) = Outcome.returned M := by
        unfold x_blossom_maximum_matching
        rw [if_neg (by omega), if_neg (by rw [hnodes]; omega), hnodes, e5, Int.toNat_ofNat, h1]
      have hout : max_matching_csr specHelpers 3 (cycle5_graph code).rowOffsets
          (cycle5_graph code).columnIndices (T : Int) = Outcome.returned M := hx
      unfold cycle5_check
      rw [hout]
      simp only [h2]
      exact h
    · contradiction
  · contradiction

/-! ## Runs on concrete graphs (C1, C6, C7) -/

set_option maxRecDepth 1000000 in
/-- With the helpers as the specification describes them, on `graph8` with one worker the
call returns the matching `0-2, 1-4, 3-7` of cardinality 3, which leaves 5 and 6 exposed
although `6, 2, 0, 3, 7, 1, 4, 5` is an augmenting path and `0-3, 1-7, 2-6, 4-5` is a
matching of cardinality 4: in the last phase the cycle through the contracted triangle
`5, 1, 4` has a repeated interior vertex and is skipped by `valid_flag`.  The result rests
on that rule of `find_blossom_vector_debug` (section 4.5, check (b)), whose body is not
among the sources: it is a fact about `specHelpers`, not about every implementation of the
helpers. -/
theorem graph8_spec_helpers_return_cardinality_three :
    max_matching_csr specHelpers 4 graph8.rowOffsets graph8.columnIndices 1
        = Outcome.returned [2, 4, 0, 7, 1, -1, -1, 3] ∧
      is_matching graph8 [2, 4, 0, 7, 1, -1, -1, 3] = true ∧
      is_augmenting_path graph8 [2, 4, 0, 7, 1, -1, -1, 3] [6, 2, 0, 3, 7, 1, 4, 5] = true ∧
      is_matching graph8 [3, 7, 6, 0, 5, 4, 2, 1] = true ∧
      cardinality [2, 4, 0, 7, 1, -1, -1, 3] = 3 ∧ cardinality [3, 7, 6, 0, 5, 4, 2, 1] = 4 := by
  decide

set_option maxRecDepth 1000000 in
set_option maxHeartbeats 4000000 in
theorem cycle5_few_threads :
    (List.range 4).all (fun T => cycle5_check 1 (T + 1) && cycle5_check 17 (T + 1)) = true := by
  decide

set_option maxRecDepth 1000000 in
set_option maxHeartbeats 4000000 in
theorem cycle5_many_threads : (cycle5_check_upto 1 5 && cycle5_check_upto 17 5) = true := by
  decide

set_option maxRecDepth 1000000 in
set_option maxHeartbeats 4000000 in
theorem cycle5_layouts_0 : (List.range' 0 8).all (fun code => cycle5_check code 1) = true := by
  decide

set_option maxRecDepth 1000000 in
set_option maxHeartbeats 4000000 in
theorem cycle5_layouts_8 : (List.range' 8 8).all (fun code => cycle5_check code 1) = true := by
  decide

set_option maxRecDepth 1000000 in
set_option maxHeartbeats 4000000 in
theorem cycle5_layouts_16 : (List.range' 16 8).all (fun code => cycle5_check code 1) = true := by
  decide

set_option maxRecDepth 1000000 in
set_option maxHeartbeats 4000000 in
theorem cycle5_layouts_24 : (List.range' 24 8).all (fun code => cycle5_check code 1) = true := by
  decide

set_option maxRecDepth 1000000 in
/-- C6: on the 5-cycle with the edges (0,1), (1,2), (2,3), (3,4), (4,0), in the CSR layout
built from that edge list (`code` 1) and in the layout with sorted neighbours (`code` 17),
for every thread count `T + 1 ≥ 1`, and in each of the 32 layouts with one thread:
`max_matching_csr` returns a matching of cardinality exactly 2 with exactly one entry `-1`,
and the search phase started on it ends with an empty `path_collection` after contracting
the odd cycle rooted at the exposed vertex (every vertex is labelled even and has the
exposed vertex as blossom base).  With one thread on the first layout the matching is
`0-1, 2-3`. -/
theorem C6_five_cycle_cardinality_two (T : Nat) :
    cycle5_check 1 (T + 1) = true ∧ cycle5_check 17 (T + 1) = true ∧
      (List.range 32).all (fun code => cycle5_check code 1) = true ∧
      max_matching_csr specHelpers 3 [0, 2, 4, 6, 8, 10] [1, 4, 0, 2, 1, 3, 2, 4, 3, 0] 1
        = Outcome.returned [1, 0, 3, 2, -1] := by
  have hT : cycle5_check 1 (T + 1) = true ∧ cycle5_check 17 (T + 1) = true := by
    by_cases h : T < 4
    · have h1 := List.all_eq_true.mp cycle5_few_threads T (List.mem_range.mpr h)
      exact Bool.and_eq_true_iff.mp h1
    · have h2 := Bool.and_eq_true_iff.mp cycle5_many_threads
      exact ⟨cycle5_check_of_upto 1 5 (T + 1) (by omega) (by omega) h2.1,
        cycle5_check_of_upto 17 5 (T + 1) (by omega) (by omega) h2.2⟩
  have hall : (List.range 32).all (fun code => cycle5_check code 1) = true := by
    have e : List.range 32
        = List.range' 0 8 ++ (List.range' 8 8 ++ (List.range' 16 8 ++ List.range' 24 8)) := by
      decide
    rw [e, List.all_append, List.all_append, List.all_append, cycle5_layouts_0,
      cycle5_layouts_8, cycle5_layouts_16, cycle5_layouts_24]
    rfl
  exact ⟨hT.1, hT.2, hall, by decide⟩

/-- C7, failing input: called with an empty vector `M` on the graph with the single edge
`0-1`, the function returns with `M` still empty instead of two entries, whatever the path
helpers do. -/
theorem C7_empty_vector_is_not_resized (H : PathHelpers) :
    x_blossom_maximum_matching H 1 { rowOffsets := [0, 1, 2], columnIndices := [1, 0] } [] 1
      = Outcome.returned [] := by
  rfl

/-! ## More facts on checked accesses -/

theorem wr_of_rd {α : Type} {l : List α} {i : Int} {a : α} (h : rd l i = some a) (x : α) :
    ∃ l1, wr l i x = some l1 := by
  unfold rd at h
  split at h
  · contradiction
  · rename_i h0
    have h1 : i.toNat < l.length := by
      rcases Nat.lt_or_ge i.toNat l.length with h1 | h1
      · exact h1
      · rw [List.getElem?_eq_none h1] at h; contradiction
    exact ⟨_, wr_of_bounds l i x (by omega) h1⟩

theorem cas_eq_won {cells cells1 : List Int} {i expected desired : Int}
    (hr : rd cells i = some expected) (hw : wr cells i desired = some cells1) :
    compare_exchange_strong cells i expected desired = some (true, cells1) := by
  unfold compare_exchange_strong
  rw [hr]
  simp only [if_true, hw]

theorem cas_eq_lost {cells : List Int} {i expected desired cur : Int}
    (hr : rd cells i = some cur) (hne : cur ≠ expected) :
    compare_exchange_strong cells i expected desired = some (false, cells) := by
  unfold compare_exchange_strong
  rw [hr]
  simp only [if_neg hne]

/-- A cell that can be read can still be read after a write to the vector. -/
theorem rd_after_wr {α : Type} {l l1 : List α} {i j : Int} {x a : α} (h : wr l i x = some l1)
    (hj : rd l j = some a) : ∃ b, rd l1 j = some b := by
  by_cases hij : j = i
  · subst hij; exact ⟨x, rd_wr_same h⟩
  · exact ⟨a, by rw [rd_wr_other h hij]; exact hj⟩

theorem rd_nonneg {α : Type} {l : List α} {i : Int} {a : α} (h : rd l i = some a) : 0 ≤ i := by
  unfold rd at h
  split at h
  · contradiction
  · omega

theorem rd_lt {α : Type} {l : List α} {i : Int} {a : α} (h : rd l i = some a) :
    i.toNat < l.length := by
  unfold rd at h
  split at h
  · contradiction
  · rcases Nat.lt_or_ge i.toNat l.length with h1 | h1
    · exact h1
    · rw [List.getElem?_eq_none h1] at h; contradiction

theorem rd_zero_of_rd {α : Type} {l : List α} {i : Int} {a : α} (h : rd l i = some a) :
    ∃ b, rd l 0 = some b := by
  have h1 := rd_lt h
  have h2 : (0 : Int).toNat < l.length := by simp; omega
  exact ⟨_, rd_of_bounds l 0 (le_refl 0) h2⟩

/-! ## The inner sequences of `path_collection` (C11) -/

theorem AugmentFrame.frame_refl (s : PhaseState) : AugmentFrame s s := ⟨rfl, rfl, rfl, rfl⟩

theorem AugmentFrame.frame_trans {s s1 s2 : PhaseState} (h1 : AugmentFrame s s1)
    (h2 : AugmentFrame s1 s2) : AugmentFrame s s2 :=
  ⟨h2.1.trans h1.1, h2.2.1.trans h1.2.1, h2.2.2.1.trans h1.2.2.1, h2.2.2.2.trans h1.2.2.2⟩

theorem ScanPath.scan_of_frame {H : PathHelpers} {columnIndices : List Int} {s s1 : PhaseState}
    {v : Int} {js : List Int} {p : List Int} (hf : AugmentFrame s s1)
    (h : ScanPath H columnIndices s1 v js p) : ScanPath H columnIndices s v js p := by
  unfold ScanPath at h ⊢
  rw [hf.1, hf.2.1, hf.2.2.1] at h
  exact h

theorem ScanPath.scan_cons {H : PathHelpers} {columnIndices : List Int} {s : PhaseState}
    {v : Int} {j : Int} {js : List Int} {p : List Int}
    (h : ScanPath H columnIndices s v js p) : ScanPath H columnIndices s v (j :: js) p := by
  obtain ⟨j1, w, tv, tw, ew, pv, pw, hj, rest⟩ := h
  exact ⟨j1, w, tv, tw, ew, pv, pw, List.mem_cons_of_mem _ hj, rest⟩

theorem augment_scan_paths (H : PathHelpers) (columnIndices : List Int) (v : Int) :
    ∀ (js : List Int) (s : PhaseState) (l : List Int) (s1 : PhaseState) (l1 : List Int),
      augment_scan H columnIndices v js (s, l) = some (s1, l1) →
      AugmentFrame s s1 ∧ ∃ paths : List (List Int), l1 = l ++ paths.flatten ∧
        s1.emitted.length = s.emitted.length + paths.length ∧
        ∀ p ∈ paths, ScanPath H columnIndices s v js p
  | [], s, l, s1, l1, h => by
    simp only [augment_scan, Option.some.injEq, Prod.mk.injEq] at h
    rw [← h.1, ← h.2]
    exact ⟨AugmentFrame.frame_refl s, [], by simp, by simp, by simp⟩
  | j :: js, s, l, s1, l1, h => by
    simp only [augment_scan] at h
    split at h
    · contradiction
    · rename_i w hw
      split at h
      · rename_i tree_v tree_w even_w hv hbw hew
        split at h
        · rename_i hcond
          split at h
          · contradiction
          · simp only [Option.some.injEq, Prod.mk.injEq] at h
            rw [← h.1, ← h.2]
            exact ⟨AugmentFrame.frame_refl s, [], by simp, by simp, by simp⟩
          · rename_i st1 hc1
            split at h
            · contradiction
            · rename_i st2 hc2
              split at h
              · rename_i path_v path_w hpv hpw
                obtain ⟨hf, paths, h1, h2, h3⟩ :=
                  augment_scan_paths H columnIndices v js _ _ _ _ h
                have hf0 : AugmentFrame s
                    { s with select_tree := st2, emitted := s.emitted ++ [(tree_v, tree_w)] } :=
                  ⟨rfl, rfl, rfl, rfl⟩
                refine ⟨hf0.frame_trans hf, (path_v.reverse ++ path_w) :: paths, ?_, ?_, ?_⟩
                · rw [h1]; simp
                · rw [h2]; simp; omega
                · intro p hp
                  rcases List.mem_cons.mp hp with rfl | hp
                  · exact ⟨j, w, tree_v, tree_w, even_w, path_v, path_w,
                      List.mem_cons_self _ _, hw, hv, hbw, hew, hcond, hpv, hpw, rfl⟩
                  · exact (ScanPath.scan_of_frame hf0 (h3 p hp)).scan_cons
              · contradiction
            · rename_i st2 hc2
              split at h
              · contradiction
              · rename_i hc3
                obtain ⟨hf, paths, h1, h2, h3⟩ :=
                  augment_scan_paths H columnIndices v js _ _ _ _ h
                have hf0 : AugmentFrame s { s with select_tree := ‹List Int› } :=
                  ⟨rfl, rfl, rfl, rfl⟩
                exact ⟨hf0.frame_trans hf, paths, h1, h2,
                  fun p hp => (ScanPath.scan_of_frame hf0 (h3 p hp)).scan_cons⟩
        · obtain ⟨hf, paths, h1, h2, h3⟩ := augment_scan_paths H columnIndices v js _ _ _ _ h
          exact ⟨hf, paths, h1, h2, fun p hp => (h3 p hp).scan_cons⟩
      · contradiction

theorem EmittedPath.emitted_of_frame {H : PathHelpers} {rowOffsets columnIndices : List Int}
    {s s1 : PhaseState} {vs : List Int} {p : List Int} (hf : AugmentFrame s s1)
    (h : EmittedPath H rowOffsets columnIndices s1 vs p) :
    EmittedPath H rowOffsets columnIndices s vs p := by
  unfold EmittedPath at h ⊢
  rw [hf.1, hf.2.1, hf.2.2.1] at h
  exact h

theorem EmittedPath.emitted_cons {H : PathHelpers} {rowOffsets columnIndices : List Int}
    {s : PhaseState} {v : Int} {vs : List Int} {p : List Int}
    (h : EmittedPath H rowOffsets columnIndices s vs p) :
    EmittedPath H rowOffsets columnIndices s (v :: vs) p := by
  obtain ⟨v1, w, tv, tw, ew, pv, pw, hv, rest⟩ := h
  exact ⟨v1, w, tv, tw, ew, pv, pw, List.mem_cons_of_mem _ hv, rest⟩

theorem EmittedPath.of_scan {H : PathHelpers} {rowOffsets columnIndices : List Int}
    {s : PhaseState} {v a b : Int} {vs : List Int} {p : List Int}
    (ha : rd rowOffsets v = some a) (hb : rd rowOffsets (v + 1) = some b)
    (h : ScanPath H columnIndices s v (indices a b) p) :
    EmittedPath H rowOffsets columnIndices s (v :: vs) p := by
  obtain ⟨j, w, tv, tw, ew, pv, pw, hj, hw, rest⟩ := h
  refine ⟨v, w, tv, tw, ew, pv, pw, List.mem_cons_self _ _, ?_, rest⟩
  unfold is_edge
  simp only [ha, hb, List.any_eq_true, beq_iff_eq]
  exact ⟨j, hj, hw⟩

theorem augment_vertices_paths (H : PathHelpers) (rowOffsets columnIndices : List Int) :
    ∀ (vs : List Int) (r r1 : PhaseState × List Int),
      augment_vertices H rowOffsets columnIndices vs r = some r1 →
      AugmentFrame r.1 r1.1 ∧ ∃ paths : List (List Int), r1.2 = r.2 ++ paths.flatten ∧
        r1.1.emitted.length = r.1.emitted.length + paths.length ∧
        ∀ p ∈ paths, EmittedPath H rowOffsets columnIndices r.1 vs p
  | [], r, r1, h => by
    simp only [augment_vertices, Option.some.injEq] at h
    rw [← h]
    exact ⟨AugmentFrame.frame_refl _, [], by simp, by simp, by simp⟩
  | v :: vs, r, r1, h => by
    simp only [augment_vertices] at h
    split at h
    · rename_i a b ha hb
      split at h
      · contradiction
      · rename_i r2 h2
        obtain ⟨f1, paths1, e1, n1, p1⟩ :=
          augment_scan_paths H columnIndices v _ r.1 r.2 r2.1 r2.2 h2
        obtain ⟨f2, paths2, e2, n2, p2⟩ :=
          augment_vertices_paths H rowOffsets columnIndices vs r2 r1 h
        refine ⟨f1.frame_trans f2, paths1 ++ paths2, ?_, ?_, ?_⟩
        · rw [e2, e1]; simp
        · rw [n2, n1]; simp; omega
        · intro p hp
          rcases List.mem_append.mp hp with hp | hp
          · exact EmittedPath.of_scan ha hb (p1 p hp)
          · exact (EmittedPath.emitted_of_frame f1 (p2 p hp)).emitted_cons
    · contradiction

theorem is_root_path_length (G : Graph) (M : List Int) :
    ∀ (p : List Int), is_root_path G M p = true → p.length % 2 = 1
  | [], h => by simp [is_root_path] at h
  | [_], _ => rfl
  | [_, _], h => by simp [is_root_path] at h
  | a :: b :: c :: rest, h => by
    simp only [is_root_path, Bool.and_eq_true] at h
    have ih := is_root_path_length G M (c :: rest) h.2
    simp only [List.length_cons] at ih ⊢
    omega

theorem is_root_path_last (G : Graph) (M : List Int) :
    ∀ (p : List Int), is_root_path G M p = true →
      ∃ r, p.getLast? = some r ∧ rd M r = some (-1)
  | [], h => by simp [is_root_path] at h
  | [r], h => by
    simp only [is_root_path, beq_iff_eq] at h
    exact ⟨r, rfl, h⟩
  | [_, _], h => by simp [is_root_path] at h
  | a :: b :: c :: rest, h => by
    simp only [is_root_path, Bool.and_eq_true] at h
    obtain ⟨r, hr, hm⟩ := is_root_path_last G M (c :: rest) h.2
    refine ⟨r, ?_, hm⟩
    rw [← hr]
    simp [List.getLast?_cons_cons]

/-- A root path entered from a vertex `a` over an unmatched edge alternates. -/
theorem alternates_root_path (G : Graph) (M : List Int) :
    ∀ (p : List Int) (a w : Int), is_root_path G M p = true → p.head? = some w →
      free_edge G M a w = true → alternates G M (a :: p) = true
  | [], _, _, h, _, _ => by simp [is_root_path] at h
  | [r], a, w, _, hw, hf => by
    simp only [List.head?_cons, Option.some.injEq] at hw
    subst hw
    simp only [free_edge, Bool.and_eq_true] at hf
    simp [alternates, hf.1.1.1, hf.1.2]
  | [_, _], _, _, h, _, _ => by simp [is_root_path] at h
  | b :: x :: c :: rest, a, w, h, hw, hf => by
    simp only [List.head?_cons, Option.some.injEq] at hw
    subst hw
    simp only [is_root_path, Bool.and_eq_true] at h
    obtain ⟨⟨hm, hfr⟩, hrest⟩ := h
    have ih := alternates_root_path G M (c :: rest) x c hrest rfl hfr
    simp only [free_edge, Bool.and_eq_true] at hf
    simp only [matched_edge, Bool.and_eq_true] at hm
    simp only [alternates, Bool.and_eq_true]
    simp only [alternates, Bool.and_eq_true] at ih
    exact ⟨⟨⟨hf.1.1.1, hf.1.2⟩, hm.1.1.1, hm.1.2⟩, ih⟩

/-- A root path reversed and followed by a sequence that alternates after its first vertex
alternates. -/
theorem alternates_reverse_root_path (G : Graph) (M : List Int) :
    ∀ (q : List Int) (c : Int) (S : List Int), is_root_path G M q = true →
      q.head? = some c → alternates G M (c :: S) = true →
      alternates G M (q.reverse ++ S) = true
  | [], _, _, h, _, _ => by simp [is_root_path] at h
  | [r], c, S, _, hc, hS => by
    simp only [List.head?_cons, Option.some.injEq] at hc
    subst hc
    simpa using hS
  | [_, _], _, _, h, _, _ => by simp [is_root_path] at h
  | a :: y :: d :: rest, c, S, h, hc, hS => by
    simp only [List.head?_cons, Option.some.injEq] at hc
    subst hc
    simp only [is_root_path, Bool.and_eq_true] at h
    obtain ⟨⟨hm, hfr⟩, hrest⟩ := h
    simp only [free_edge, Bool.and_eq_true] at hfr
    simp only [matched_edge, Bool.and_eq_true] at hm
    have hS1 : alternates G M (d :: y :: a :: S) = true := by
      rw [alternates]
      simp only [Bool.and_eq_true]
      refine ⟨⟨⟨hfr.1.1.2, ?_⟩, hm.1.1.2, hm.2⟩, hS⟩
      exact hfr.2
    have ih := alternates_reverse_root_path G M (d :: rest) d (y :: a :: S) hrest rfl hS1
    have e : (a :: y :: d :: rest).reverse ++ S = (d :: rest).reverse ++ (y :: a :: S) := by
      simp
    rw [e]; exact ih

/-- The sequence pushed for a pair `(v, w)` is an augmenting path when the two root paths
are alternating paths to exposed roots without a common vertex and `(v, w)` is an
unmatched edge. -/
theorem augmenting_of_root_paths (G : Graph) (M : List Int) (v w : Int)
    (path_v path_w : List Int) (hv : is_root_path G M path_v = true)
    (hw : is_root_path G M path_w = true) (hhv : path_v.head? = some v)
    (hhw : path_w.head? = some w) (hvw : free_edge G M v w = true)
    (hnd : (path_v ++ path_w).Nodup) :
    is_augmenting_path G M (path_v.reverse ++ path_w) = true := by
  have halt : alternates G M (path_v.reverse ++ path_w) = true :=
    alternates_reverse_root_path G M path_v v path_w hv hhv
      (alternates_root_path G M path_w v w hw hhw hvw)
  obtain ⟨rv, hrv, hmv⟩ := is_root_path_last G M path_v hv
  obtain ⟨rw, hrw, hmw⟩ := is_root_path_last G M path_w hw
  have hlv := is_root_path_length G M path_v hv
  have hlw := is_root_path_length G M path_w hw
  have hne : path_w ≠ [] := by
    rintro rfl
    simp at hhw
  have hhead : (path_v.reverse ++ path_w).head? = some rv := by
    cases hp : path_v.reverse with
    | nil =>
      have : path_v = [] := by simpa using hp
      rw [this] at hhv
      simp at hhv
    | cons a t =>
      have h1 : path_v.reverse.head? = some rv := by rw [List.head?_reverse]; exact hrv
      rw [hp] at h1
      simpa using h1
  have hlast : (path_v.reverse ++ path_w).getLast? = some rw := by
    rw [List.getLast?_append_of_ne_nil _ hne]; exact hrw
  have hnd2 : (path_v.reverse ++ path_w).Nodup := by
    rw [List.nodup_append] at hnd ⊢
    refine ⟨List.nodup_reverse.mpr hnd.1, hnd.2.1, ?_⟩
    intro a ha hb
    exact hnd.2.2 (List.mem_reverse.mp ha) hb
  have hlen : (path_v.reverse ++ path_w).length % 2 = 0 := by
    simp only [List.length_append, List.length_reverse]
    omega
  unfold is_augmenting_path
  simp only [hhead, hlast, hmv, hmw, halt, hlen, hnd2, decide_True, beq_self_eq_true,
    Bool.and_self]

/-- What a worker pushes (C11): a worker of the Augment kernel that returns adds at most
one inner sequence to `path_collection`, and this sequence is the concatenation, in the
order found, of one sequence per pair of trees the worker claimed (`paths` has one entry
per emitted pair): the root path of a vertex `v` of the worker's share of the frontier
reversed, followed by the root path of a neighbour `w` of `v` that is labelled even and
lies in another tree.  A worker that claims several pairs pushes them as one inner
sequence; nothing is pushed when the concatenation is empty.  Each of the concatenated
sequences is an augmenting path whenever the two root paths are alternating paths to
exposed roots without a common vertex and `(v, w)` is an unmatched edge. -/
theorem worker_pushes_concatenation_of_paths (H : PathHelpers)
    (rowOffsets columnIndices nodes_vector : List Int) (index num_threads : Nat)
    (s s1 : PhaseState)
    (h : parAugmentingPath H rowOffsets columnIndices nodes_vector index num_threads s = some s1) :
    (∃ paths : List (List Int),
      s1.path_collection
        = s.path_collection ++ (if paths.flatten ≠ [] then [paths.flatten] else []) ∧
      s1.emitted.length = s.emitted.length + paths.length ∧
      ∀ p ∈ paths, EmittedPath H rowOffsets columnIndices s
        (strided nodes_vector index num_threads) p) ∧
    ∀ (v w : Int) (path_v path_w : List Int),
      is_root_path { rowOffsets := rowOffsets, columnIndices := columnIndices } s.M path_v = true →
      is_root_path { rowOffsets := rowOffsets, columnIndices := columnIndices } s.M path_w = true →
      path_v.head? = some v → path_w.head? = some w →
      free_edge { rowOffsets := rowOffsets, columnIndices := columnIndices } s.M v w = true →
      (path_v ++ path_w).Nodup →
      is_augmenting_path { rowOffsets := rowOffsets, columnIndices := columnIndices } s.M
        (path_v.reverse ++ path_w) = true := by
  refine ⟨?_, fun v w path_v path_w hv hw hhv hhw hvw hnd =>
    augmenting_of_root_paths _ _ v w path_v path_w hv hw hhv hhw hvw hnd⟩
  simp only [parAugmentingPath] at h
  split at h
  swap
  · contradiction
  split at h
  · contradiction
  · rename_i s2 local_path h2
    obtain ⟨f, paths, e, n, p⟩ := augment_vertices_paths H rowOffsets columnIndices _ _ _ h2
    simp only [List.nil_append] at e
    subst e
    refine ⟨paths, ?_, ?_, p⟩
    · split at h
      · rename_i hne
        simp only [Option.some.injEq] at h
        rw [← h, if_pos hne]
        show s2.path_collection ++ _ = _
        rw [f.2.2.2]
      · rename_i hne
        simp only [Option.some.injEq] at h
        rw [← h, if_neg hne, f.2.2.2]
        simp
    · split at h
      all_goals (simp only [Option.some.injEq] at h; rw [← h]; exact n)

set_option maxRecDepth 1000000 in
/-- An inner sequence that is not a path (C11): on the graph with the two edges `0-1` and
`2-3`, started from the empty matching with one worker, the phase returns
`path_collection = [[0, 1, 2, 3]]`.  The
single inner sequence holds the two augmenting paths `0, 1` and `2, 3` back to back; it is
not a path of the graph, since 1 and 2 are not adjacent. -/
theorem one_worker_pushes_two_paths_as_one_sequence :
    (parFindAugmentingPathNoRecursionUpdatePathTable specHelpers 3 two_edges [-1, -1, -1, -1] []
        [[], [], [], []] 1).map (fun s => s.path_collection) = some [[0, 1, 2, 3]] ∧
      is_edge two_edges 1 2 = false ∧
      is_augmenting_path two_edges [-1, -1, -1, -1] [0, 1, 2, 3] = false ∧
      is_augmenting_path two_edges [-1, -1, -1, -1] [0, 1] = true ∧
      is_augmenting_path two_edges [-1, -1, -1, -1] [2, 3] = true := by
  decide

set_option maxRecDepth 1000000 in
/-- The worker of the run above emits the pairs `(0, 1)` and `(2, 3)` and
pushes the one sequence `0, 1, 2, 3`; the sequence `0, 1` of the first pair is an
augmenting path. -/
theorem two_edges_worker_pushes_concatenation :
    parAugmentingPath specHelpers two_edges.rowOffsets two_edges.columnIndices [0, 1, 2, 3] 0 1
        two_edges_state
      = some { two_edges_state with
          select_tree := [1, 1, 1, 1], path_collection := [[0, 1, 2, 3]],
          emitted := [(0, 1), (2, 3)] } ∧
    ∃ paths : List (List Int),
      ([[0, 1, 2, 3]] : List (List Int))
        = [] ++ (if paths.flatten ≠ [] then [paths.flatten] else []) ∧
      2 = 0 + paths.length ∧
      (∀ p ∈ paths, EmittedPath specHelpers two_edges.rowOffsets two_edges.columnIndices
        two_edges_state (strided [0, 1, 2, 3] 0 1) p) ∧
      is_augmenting_path two_edges two_edges_state.M ([0].reverse ++ [1]) = true :=
  let ⟨⟨paths, h1, h2, h3⟩, h4⟩ :=
    worker_pushes_concatenation_of_paths specHelpers two_edges.rowOffsets
      two_edges.columnIndices [0, 1, 2, 3] 0 1 two_edges_state
      { two_edges_state with
        select_tree := [1, 1, 1, 1], path_collection := [[0, 1, 2, 3]],
        emitted := [(0, 1), (2, 3)] }
      (by decide)
  ⟨by decide, paths, h1, h2, h3,
    h4 0 1 [0] [1] (by decide) (by decide) rfl rfl (by decide) (by decide)⟩

/-! ## Steps of the Augment and Expand kernels (C12, C13) -/

/-- C12: a candidate pair of the Augment kernel (`w` even, `v` and `w` in different trees)
whose claim on the smaller tree id succeeds (the cell reads 0) and whose claim on the
larger tree id fails (the cell does not read 0).  The first exchange sets the cell of the
smaller tree to 1, the second exchange changes nothing, and the third exchange, with
`expected_to = 1`, takes place and stores 0: afterwards the cell of the smaller tree
reads 0, every other cell of `select_tree` reads what it read before, and the scan goes
on with the remaining neighbours `js` of `v` with the same `local_path` and the same
emitted pairs, so no path is emitted for this candidate. -/
theorem C12_failed_second_claim_is_rolled_back (H : PathHelpers) (columnIndices : List Int)
    (v j : Int) (js : List Int) (s : PhaseState) (local_path : List Int)
    (w tree_v tree_w even_w c : Int)
    (hj : rd columnIndices j = some w) (hv : rd s.belongs v = some tree_v)
    (hw : rd s.belongs w = some tree_w) (he : rd s.is_even w = some even_w)
    (hcand : even_w ≠ 0 ∧ tree_v ≠ tree_w ∧ tree_v ≠ -1 ∧ tree_w ≠ -1)
    (hmin : rd s.select_tree (min tree_v tree_w) = some 0)
    (hmax : rd s.select_tree (max tree_v tree_w) = some c) (hc : c ≠ 0) :
    ∃ st1 st3,
      compare_exchange_strong s.select_tree (min tree_v tree_w) 0 1 = some (true, st1) ∧
      rd st1 (min tree_v tree_w) = some 1 ∧
      compare_exchange_strong st1 (max tree_v tree_w) 0 1 = some (false, st1) ∧
      compare_exchange_strong st1 (min tree_v tree_w) 1 0 = some (true, st3) ∧
      rd st3 (min tree_v tree_w) = some 0 ∧
      (∀ t, t ≠ min tree_v tree_w → rd st3 t = rd s.select_tree t) ∧
      augment_scan H columnIndices v (j :: js) (s, local_path)
        = augment_scan H columnIndices v js ({ s with select_tree := st3 }, local_path) := by
  have hmn : (if tree_v < tree_w then tree_v else tree_w) = min tree_v tree_w := by
    split
    · exact (min_eq_left (by omega)).symm
    · exact (min_eq_right (by omega)).symm
  have hmx : (if tree_v < tree_w then tree_w else tree_v) = max tree_v tree_w := by
    split
    · exact (max_eq_right (by omega)).symm
    · exact (max_eq_left (by omega)).symm
  have hne : max tree_v tree_w ≠ min tree_v tree_w := by
    have := hcand.2.1
    rcases lt_or_gt_of_ne this with h | h
    · rw [max_eq_right (by omega), min_eq_left (by omega)]; omega
    · rw [max_eq_left (by omega), min_eq_right (by omega)]; omega
  obtain ⟨st1, w1⟩ := wr_of_rd hmin 1
  have r1 : rd st1 (min tree_v tree_w) = some 1 := rd_wr_same w1
  obtain ⟨st3, w3⟩ := wr_of_rd r1 0
  have c1 := cas_eq_won hmin w1
  have c2 : compare_exchange_strong st1 (max tree_v tree_w) 0 1 = some (false, st1) :=
    cas_eq_lost (by rw [rd_wr_other w1 hne]; exact hmax) hc
  have c3 := cas_eq_won r1 w3
  refine ⟨st1, st3, c1, r1, c2, c3, rd_wr_same w3, fun t ht => ?_, ?_⟩
  · rw [rd_wr_other w3 ht, rd_wr_other w1 ht]
  · rw [augment_scan]
    simp only [hj, hv, hw, he]
    rw [if_pos hcand]
    simp only [hmn, hmx, c1, c2, c3]

/-- Witness for C12: in `claimed_state` the trees 1 and 2 are claimed; the scan of vertex 0
meets its neighbour 2, claims tree 0, fails on tree 2 and rolls tree 0 back. -/
theorem C12_failed_second_claim_is_rolled_back_witness :
    ∃ st1 st3,
      compare_exchange_strong claimed_state.select_tree (min (0 : Int) 2) 0 1
        = some (true, st1) ∧
      rd st1 (min (0 : Int) 2) = some 1 ∧
      compare_exchange_strong st1 (max (0 : Int) 2) 0 1 = some (false, st1) ∧
      compare_exchange_strong st1 (min (0 : Int) 2) 1 0 = some (true, st3) ∧
      rd st3 (min (0 : Int) 2) = some 0 ∧
      (∀ t, t ≠ min (0 : Int) 2 → rd st3 t = rd claimed_state.select_tree t) ∧
      augment_scan specHelpers [2, 2, 0, 1] 0 (0 :: []) (claimed_state, [])
        = augment_scan specHelpers [2, 2, 0, 1] 0 [] ({ claimed_state with select_tree := st3 }, []) :=
  C12_failed_second_claim_is_rolled_back specHelpers [2, 2, 0, 1] 0 0 [] claimed_state [] 2 0 2 1 1
    (by decide) (by decide) (by decide) (by decide) (by decide) (by decide) (by decide)
    (by decide)

/-- C13: one step of the Expand kernel for a frontier vertex `v` and a neighbour `w` with
`belongs[w] = -1` whose mate `x = M[w]` is another vertex, when the claim on
`select_match[min(w, x)]` is won (the cell reads 0).  The step continues the scan with a
state `s1` and with `x` appended to the worker's part of the next frontier, where
`path_table[x]` is the old entry followed by `w, v` (so `[w, v]` when it was empty),
`is_even[w] = 0`, `is_even[x] = 1`, `belongs[w] = belongs[x] = belongs[v]`, the claimed
cell reads 1, and the labels and tree ids of every vertex other than `w` and `x`, the
`path_table` entries of every vertex other than `x`, the other cells of `select_match` and
all other vectors are unchanged. -/
theorem C13_expand_step (columnIndices : List Int) (v j : Int) (js : List Int)
    (s : PhaseState) (local_vector : List Int) (w x tree_v even_w even_x belongs_x : Int)
    (chain : List Int)
    (hj : rd columnIndices j = some w) (hM : rd s.M w = some x)
    (hbw : rd s.belongs w = some (-1)) (hwx : w ≠ x)
    (hclaim : rd s.select_match (min w x) = some 0)
    (hchain : rd s.path_table_vector x = some chain)
    (hew : rd s.is_even w = some even_w) (hex : rd s.is_even x = some even_x)
    (hbx : rd s.belongs x = some belongs_x) (hbv : rd s.belongs v = some tree_v) :
    ∃ s1,
      expand_scan columnIndices v (j :: js) (s, local_vector)
        = expand_scan columnIndices v js (s1, local_vector ++ [x]) ∧
      rd s1.path_table_vector x = some (chain ++ [w, v]) ∧
      rd s1.is_even w = some 0 ∧ rd s1.is_even x = some 1 ∧
      rd s1.belongs w = some tree_v ∧ rd s1.belongs x = some tree_v ∧
      rd s1.belongs v = some tree_v ∧
      rd s1.select_match (min w x) = some 1 ∧
      (∀ u, u ≠ w → u ≠ x →
        rd s1.is_even u = rd s.is_even u ∧ rd s1.belongs u = rd s.belongs u) ∧
      (∀ u, u ≠ x → rd s1.path_table_vector u = rd s.path_table_vector u) ∧
      (∀ t, t ≠ min w x → rd s1.select_match t = rd s.select_match t) ∧
      s1.M = s.M ∧ s1.select_tree = s.select_tree ∧ s1.select_blossom = s.select_blossom ∧
      s1.blossom_to_base = s.blossom_to_base ∧ s1.path_collection = s.path_collection ∧
      s1.vector_1 = s.vector_1 ∧ s1.vector_2 = s.vector_2 := by
  obtain ⟨sm, wsm⟩ := wr_of_rd hclaim 1
  obtain ⟨pt1, wpt⟩ := wr_of_rd hchain (chain ++ [w, v])
  obtain ⟨e1, we1⟩ := wr_of_rd hew 0
  obtain ⟨ex1, hex1⟩ := rd_after_wr we1 hex
  obtain ⟨e2, we2⟩ := wr_of_rd hex1 1
  obtain ⟨b1, wb1⟩ := wr_of_rd hbw tree_v
  obtain ⟨bx1, hbx1⟩ := rd_after_wr wb1 hbx
  obtain ⟨b2, wb2⟩ := wr_of_rd hbx1 tree_v
  have hv1 : rd b1 v = some tree_v := by
    by_cases hvw : v = w
    · subst hvw; exact rd_wr_same wb1
    · rw [rd_wr_other wb1 hvw]; exact hbv
  have hv2 : rd b2 v = some tree_v := by
    by_cases hvx : v = x
    · subst hvx; exact rd_wr_same wb2
    · rw [rd_wr_other wb2 hvx]; exact hv1
  refine ⟨{ s with select_match := sm, path_table_vector := pt1, is_even := e2, belongs := b2 },
    ?_, rd_wr_same wpt, ?_, rd_wr_same we2, ?_, rd_wr_same wb2, hv2, rd_wr_same wsm,
    fun u huw hux => ⟨?_, ?_⟩, fun u hux => rd_wr_other wpt hux,
    fun t ht => rd_wr_other wsm ht, rfl, rfl, rfl, rfl, rfl, rfl, rfl⟩
  · rw [expand_scan]
    simp only [hj, hM, hbw, if_true, cas_eq_won hclaim wsm, hchain, wpt, we1, we2, hbv, wb1, hv1,
      wb2, Option.some_bind]
  · show rd e2 w = some 0
    rw [rd_wr_other we2 hwx]; exact rd_wr_same we1
  · show rd b2 w = some tree_v
    rw [rd_wr_other wb2 hwx]; exact rd_wr_same wb1
  · show rd e2 u = rd s.is_even u
    rw [rd_wr_other we2 hux, rd_wr_other we1 huw]
  · show rd b2 u = rd s.belongs u
    rw [rd_wr_other wb2 hux, rd_wr_other wb1 huw]

/-- Witness for C13: in the phase on the triangle started from the matching `0-1`, the root
2 meets its neighbour `w = 0` with mate `x = 1`: `path_table[1]` becomes `[0, 2]`, 0 is
odd, 1 is even and emitted, both join the tree of 2. -/
theorem C13_expand_step_witness :
    ∃ s1,
      expand_scan triangle.columnIndices 2 (4 :: [5]) (triangle_start, [])
        = expand_scan triangle.columnIndices 2 [5] (s1, [] ++ [1]) ∧
      rd s1.path_table_vector 1 = some ([] ++ [0, 2]) ∧
      rd s1.is_even 0 = some 0 ∧ rd s1.is_even 1 = some 1 ∧
      rd s1.belongs 0 = some 2 ∧ rd s1.belongs 1 = some 2 ∧ rd s1.belongs 2 = some 2 :=
  let ⟨s1, h1, h2, h3, h4, h5, h6, h7, _⟩ :=
    C13_expand_step triangle.columnIndices 2 4 [5] triangle_start [] 0 1 2 0 0 (-1) []
      (by decide) (by decide) (by decide) (by decide) (by decide) (by decide) (by decide)
      (by decide) (by decide) (by decide)
  ⟨s1, h1, h2, h3, h4, h5, h6, h7⟩

/-! ## Visits of the Blossom kernel (C15, C16) -/

/-- A visit of a vertex that is not even, has an empty predecessor entry and whose
`select_blossom` cell is taken: the claim is lost, nothing is written for the vertex and
nothing is emitted. -/
theorem blossom_visit_claim_lost (blossom : List Int) (k : Nat) (chain : List Int)
    (r : PhaseState × List Int) (current base_of_current cell : Int)
    (hcur : rd blossom (k : Int) = some current)
    (hbase : rd r.1.blossom_to_base current = some base_of_current)
    (heven : rd r.1.is_even current = some 0)
    (hempty : rd r.1.path_table_vector current = some [])
    (hclaim : rd r.1.select_blossom current = some cell) (hcell : cell ≠ 0) :
    ∃ s1, blossom_visit blossom k chain r = some (s1, r.2) ∧
      s1.is_even = r.1.is_even ∧ s1.path_table_vector = r.1.path_table_vector ∧
      s1.select_blossom = r.1.select_blossom := by
  obtain ⟨b0, hb0⟩ := rd_zero_of_rd hcur
  obtain ⟨b2b1, wb⟩ := wr_of_rd hbase b0
  by_cases hm : base_of_current = -1
  · refine ⟨{ r.1 with blossom_to_base := b2b1 }, ?_, rfl, rfl, rfl⟩
    unfold blossom_visit
    simp only [hcur, hbase, hm, if_true, hb0, Option.some_bind, wb, heven, hempty, and_self,
      cas_eq_lost hclaim hcell]
  · refine ⟨r.1, ?_, rfl, rfl, rfl⟩
    unfold blossom_visit
    simp only [hcur, hbase, hm, if_false, heven, hempty, and_self, if_true,
      cas_eq_lost hclaim hcell]

/-- C15 (as the code behaves): a visit of `current = blossom[k]` in a pass of the Blossom
kernel, with `current` not even, `path_table[current]` empty and `select_blossom[current]`
at 0, when the chain pushed on `path_table[current]` has two equal entries.  The claim is
won, the write is rejected: `path_table[current]` is empty again, `is_even[current]` is
still 0 and `current` is not emitted (the worker's `local_vector` is unchanged); but the
claim is not rolled back: `select_blossom[current]` reads 1 afterwards, and the labels,
the other `path_table` entries and the other claim cells are unchanged.  A later visit of
`current`, in any cycle sequence and with any chain, loses the claim: it writes no label,
no predecessor entry and no claim cell, and emits nothing. -/
theorem C15_rejected_write_keeps_the_claim (blossom : List Int) (k : Nat) (chain : List Int)
    (r : PhaseState × List Int) (current base_of_current : Int)
    (hcur : rd blossom (k : Int) = some current)
    (hbase : rd r.1.blossom_to_base current = some base_of_current)
    (heven : rd r.1.is_even current = some 0)
    (hempty : rd r.1.path_table_vector current = some [])
    (hclaim : rd r.1.select_blossom current = some 0)
    (hdup : has_duplicate chain = true) :
    ∃ s1, blossom_visit blossom k chain r = some (s1, r.2) ∧
      rd s1.path_table_vector current = some [] ∧
      rd s1.is_even current = some 0 ∧
      rd s1.select_blossom current = some 1 ∧
      s1.path_table_vector = r.1.path_table_vector ∧ s1.is_even = r.1.is_even ∧
      (∀ u, u ≠ current → rd s1.select_blossom u = rd r.1.select_blossom u) ∧
      ∀ (blossom1 : List Int) (k1 : Nat) (chain1 local_vector : List Int),
        rd blossom1 (k1 : Int) = some current →
        ∃ s2, blossom_visit blossom1 k1 chain1 (s1, local_vector) = some (s2, local_vector) ∧
          s2.is_even = s1.is_even ∧ s2.path_table_vector = s1.path_table_vector ∧
          s2.select_blossom = s1.select_blossom := by
  obtain ⟨b0, hb0⟩ := rd_zero_of_rd hcur
  obtain ⟨b2b1, wb⟩ := wr_of_rd hbase b0
  obtain ⟨sb, wsb⟩ := wr_of_rd hclaim 1
  obtain ⟨pt1, wpt⟩ := wr_of_rd hempty []
  have hpt : pt1 = r.1.path_table_vector := by
    have h0 := rd_nonneg hempty
    have h1 := rd_lt hempty
    rw [wr_of_bounds _ _ _ h0 h1] at wpt
    rw [rd_of_bounds _ _ h0 h1] at hempty
    simp only [Option.some.injEq] at wpt hempty
    rw [← wpt]
    apply List.ext_getElem
    · simp
    · intro i h2 h3
      by_cases hi : current.toNat = i
      · subst hi; simpa using hempty.symm
      · simp [List.getElem_set_ne hi]
  subst hpt
  by_cases hm : base_of_current = -1
  · refine ⟨{ r.1 with blossom_to_base := b2b1, select_blossom := sb }, ?_, hempty, heven,
      rd_wr_same wsb, rfl, rfl, fun u hu => rd_wr_other wsb hu,
      fun blossom1 k1 chain1 local_vector h1 =>
        blossom_visit_claim_lost blossom1 k1 chain1 (_, local_vector) current b0 1 h1
          (rd_wr_same wb) heven hempty (rd_wr_same wsb) (by decide)⟩
    unfold blossom_visit
    simp only [hcur, hbase, hm, if_true, hb0, Option.some_bind, wb, heven, hempty, and_self,
      cas_eq_won hclaim wsb, List.nil_append, hdup, wpt]
  · refine ⟨{ r.1 with select_blossom := sb }, ?_, hempty, heven,
      rd_wr_same wsb, rfl, rfl, fun u hu => rd_wr_other wsb hu,
      fun blossom1 k1 chain1 local_vector h1 =>
        blossom_visit_claim_lost blossom1 k1 chain1 (_, local_vector) current base_of_current 1
          h1 hbase heven hempty (rd_wr_same wsb) (by decide)⟩
    unfold blossom_visit
    simp only [hcur, hbase, hm, if_false, heven, hempty, and_self, if_true,
      cas_eq_won hclaim wsb, List.nil_append, hdup, wpt]

/-- C15, counterexample: the first pass visits position 2 of the cycle sequence
`5, 3, 4, 1, 2, 1, 5`, whose remainder `1, 2, 1, 5` has the entry 1 twice.  The write to
`path_table[4]` is rejected (the entry is empty, 4 is still odd and is not emitted), but
`select_blossom[4]` reads 1 afterwards, not 0. -/
theorem C15_claim_is_not_rolled_back :
    (blossom_first_pass [5, 3, 4, 1, 2, 1, 5] [2] (odd_state, [])).map
        (fun r => (rd r.1.select_blossom 4, rd r.1.path_table_vector 4, rd r.1.is_even 4, r.2))
      = some (some 1, some [], some 0, []) ∧
    has_duplicate (([5, 3, 4, 1, 2, 1, 5] : List Int).drop (2 + 1)) = true := by
  decide

/-- Witness for C15: the visit of the counterexample. -/
theorem C15_rejected_write_keeps_the_claim_witness :
    ∃ s1, blossom_visit [5, 3, 4, 1, 2, 1, 5] 2 [1, 2, 1, 5] (odd_state, []) = some (s1, []) ∧
      rd s1.path_table_vector 4 = some [] ∧ rd s1.is_even 4 = some 0 ∧
      rd s1.select_blossom 4 = some 1 :=
  let ⟨s1, h1, h2, h3, h4, _⟩ :=
    C15_rejected_write_keeps_the_claim [5, 3, 4, 1, 2, 1, 5] 2 [1, 2, 1, 5] (odd_state, []) 4 (-1)
      (by decide) (by decide) (by decide) (by decide) (by decide) (by decide)
  ⟨s1, h1, h2, h3, h4⟩

/-- A visit whose claim is won and whose chain has no two equal entries: the chain is
written, `current` becomes even and is emitted. -/
theorem blossom_visit_accepts (blossom : List Int) (k : Nat) (chain : List Int)
    (r : PhaseState × List Int) (current base_of_current : Int)
    (hcur : rd blossom (k : Int) = some current)
    (hbase : rd r.1.blossom_to_base current = some base_of_current)
    (heven : rd r.1.is_even current = some 0)
    (hempty : rd r.1.path_table_vector current = some [])
    (hclaim : rd r.1.select_blossom current = some 0)
    (hdup : has_duplicate chain = false) :
    ∃ s1, blossom_visit blossom k chain r = some (s1, r.2 ++ [current]) ∧
      rd s1.path_table_vector current = some chain ∧
      rd s1.is_even current = some 1 ∧
      rd s1.select_blossom current = some 1 ∧
      (∀ u, u ≠ current → rd s1.path_table_vector u = rd r.1.path_table_vector u ∧
        rd s1.is_even u = rd r.1.is_even u ∧ rd s1.select_blossom u = rd r.1.select_blossom u) := by
  obtain ⟨b0, hb0⟩ := rd_zero_of_rd hcur
  obtain ⟨b2b1, wb⟩ := wr_of_rd hbase b0
  obtain ⟨sb, wsb⟩ := wr_of_rd hclaim 1
  obtain ⟨pt1, wpt⟩ := wr_of_rd hempty chain
  obtain ⟨e1, we⟩ := wr_of_rd heven 1
  by_cases hm : base_of_current = -1
  · refine ⟨{ r.1 with
        blossom_to_base := b2b1, select_blossom := sb, path_table_vector := pt1, is_even := e1 },
      ?_, rd_wr_same wpt, rd_wr_same we,
      rd_wr_same wsb, fun u hu => ⟨rd_wr_other wpt hu, rd_wr_other we hu, rd_wr_other wsb hu⟩⟩
    unfold blossom_visit
    simp only [hcur, hbase, hm, if_true, hb0, Option.some_bind, wb, heven, hempty, and_self,
      cas_eq_won hclaim wsb, List.nil_append, hdup, wpt, we]
    rfl
  · refine ⟨{ r.1 with select_blossom := sb, path_table_vector := pt1, is_even := e1 }, ?_,
      rd_wr_same wpt, rd_wr_same we,
      rd_wr_same wsb, fun u hu => ⟨rd_wr_other wpt hu, rd_wr_other we hu, rd_wr_other wsb hu⟩⟩
    unfold blossom_visit
    simp only [hcur, hbase, hm, if_false, heven, hempty, and_self, if_true,
      cas_eq_won hclaim wsb, List.nil_append, hdup, wpt, we]
    rfl

/-- C16 (as the code behaves): for a cycle sequence `B` and a position `k` with
`current = B[k]` not even, `path_table[current]` empty and `select_blossom[current]` at 0
(the claim is won), the chain written to `path_table[current]` depends on the pass, not on
the lengths of the arcs.  The first pass (positions `size - 3, size - 5, ...`) writes
`B[k+1], ..., B[size-1]`, the rest of the sequence up to its closing entry, of
`size - 1 - k` entries; the second pass (positions `2, 4, ...`) writes
`B[k-1], ..., B[0]`, the sequence back to `B[0]`, of `k` entries.  In both passes `current`
becomes even and is emitted, and the pass goes on with the next position. -/
theorem C16_chain_written_by_each_pass (B : List Int) (k : Nat) (ks : List Nat)
    (r : PhaseState × List Int) (current base_of_current : Int)
    (hcur : rd B (k : Int) = some current)
    (hbase : rd r.1.blossom_to_base current = some base_of_current)
    (heven : rd r.1.is_even current = some 0)
    (hempty : rd r.1.path_table_vector current = some [])
    (hclaim : rd r.1.select_blossom current = some 0) :
    (has_duplicate (B.drop (k + 1)) = false →
      ∃ s1, blossom_first_pass B (k :: ks) r = blossom_first_pass B ks (s1, r.2 ++ [current]) ∧
        rd s1.path_table_vector current = some (B.drop (k + 1)) ∧
        (B.drop (k + 1)).length = B.length - 1 - k ∧ rd s1.is_even current = some 1) ∧
    (has_duplicate (B.take k).reverse = false →
      ∃ s1, blossom_second_pass B (k :: ks) r = blossom_second_pass B ks (s1, r.2 ++ [current]) ∧
        rd s1.path_table_vector current = some (B.take k).reverse ∧
        (B.take k).reverse.length = k ∧ rd s1.is_even current = some 1) := by
  have hk : k < B.length := by
    have := rd_lt hcur
    simpa using this
  constructor
  · intro hdup
    obtain ⟨s1, h1, h2, h3, -⟩ :=
      blossom_visit_accepts B k _ r current base_of_current hcur hbase heven hempty hclaim hdup
    refine ⟨s1, ?_, h2, ?_, h3⟩
    · rw [blossom_first_pass, h1]
    · simp only [List.length_drop]; omega
  · intro hdup
    obtain ⟨s1, h1, h2, h3, -⟩ :=
      blossom_visit_accepts B k _ r current base_of_current hcur hbase heven hempty hclaim hdup
    refine ⟨s1, ?_, h2, ?_, h3⟩
    · rw [blossom_second_pass, h1]
    · simp only [List.length_reverse, List.length_take]; omega

set_option maxRecDepth 1000000 in
/-- C16, counterexample: in the phase on the triangle started from the matching `0-1`, the
pair `(1, 2)` closes the cycle sequence `2, 0, 1, 2` with base 2.  The odd vertex 0 at
position 1 is one step from the base (`shorter_arc` is `[2]`), and the chain written to
`path_table[0]` is `[1, 2]`, the other arc. -/
theorem C16_triangle_chain_is_the_longer_arc :
    (parFindAugmentingPathNoRecursionUpdatePathTable specHelpers 3 triangle [1, 0, -1] []
        [[], [], []] 1).map (fun s => s.path_table_vector) = some [[1, 2], [0, 2], []] ∧
      find_blossom_vector_debug [1, 0, 2] [2] triangle_state.path_table_vector
        = some ([2, 0, 1, 2], true) ∧
      (blossom_contract specHelpers 1 2 (triangle_state, [])).map
          (fun r => (rd r.1.path_table_vector 0, r.2)) = some (some [1, 2], [0]) ∧
      shorter_arc [2, 0, 1, 2] 1 = [2] := by
  decide

/-- Witness for C16: the first pass at position 1 of the cycle sequence `2, 0, 1, 2`. -/
theorem C16_chain_written_by_each_pass_witness :
    ∃ s1, blossom_first_pass [2, 0, 1, 2] (1 :: []) (triangle_state, [])
        = blossom_first_pass [2, 0, 1, 2] [] (s1, [] ++ [0]) ∧
      rd s1.path_table_vector 0 = some (([2, 0, 1, 2] : List Int).drop (1 + 1)) ∧
      (([2, 0, 1, 2] : List Int).drop (1 + 1)).length = ([2, 0, 1, 2] : List Int).length - 1 - 1 ∧
      rd s1.is_even 0 = some 1 :=
  (C16_chain_written_by_each_pass [2, 0, 1, 2] 1 [] (triangle_state, []) 0 (-1)
    (by decide) (by decide) (by decide) (by decide) (by decide)).1 (by decide)

/-! ## The bases recorded by a contraction (C17) -/

theorem blossom_visit_base_cases (B : List Int) (k : Nat) (chain : List Int)
    (r r1 : PhaseState × List Int) (h : blossom_visit B k chain r = some r1) :
    ∃ current base_of_current, rd B (k : Int) = some current ∧
      rd r.1.blossom_to_base current = some base_of_current ∧
      ((base_of_current = -1 ∧
          ∃ b0, rd B 0 = some b0 ∧ wr r.1.blossom_to_base current b0 = some r1.1.blossom_to_base) ∨
        (base_of_current ≠ -1 ∧ r1.1.blossom_to_base = r.1.blossom_to_base)) := by
  unfold blossom_visit at h
  split at h
  · contradiction
  · rename_i current hcur
    split at h
    · contradiction
    · rename_i base_of_current hbase
      split at h
      · contradiction
      · rename_i b2b hb
        refine ⟨current, base_of_current, hcur, hbase, ?_⟩
        have hfin : r1.1.blossom_to_base = b2b := by
          dsimp only at h
          repeat' (split at h)
          all_goals first
            | contradiction
            | (simp only [Option.some.injEq] at h; rw [← h])
        rw [hfin]
        by_cases hm : base_of_current = -1
        · left
          rw [if_pos hm] at hb
          cases h0 : rd B 0 with
          | none => rw [h0] at hb; simp at hb
          | some b0 =>
            rw [h0] at hb
            exact ⟨hm, b0, rfl, by simpa using hb⟩
        · right
          rw [if_neg hm] at hb
          simp only [Option.some.injEq] at hb
          exact ⟨hm, hb.symm⟩

theorem BaseStep.base_refl (b0 : Int) (t : List Int) : BaseStep b0 t t :=
  ⟨fun _ _ h _ => h, fun _ h => Or.inl h⟩

theorem BaseStep.base_trans {b0 : Int} {t t1 t2 : List Int} (hb : b0 ≠ -1) (h1 : BaseStep b0 t t1)
    (h2 : BaseStep b0 t1 t2) : BaseStep b0 t t2 := by
  refine ⟨fun u c hu hc => h2.1 u c (h1.1 u c hu hc) hc, fun u hu => ?_⟩
  rcases h1.2 u hu with h | h
  · exact h2.2 u h
  · exact Or.inr (h2.1 u b0 h hb)

theorem blossom_visit_base (B : List Int) (k : Nat) (chain : List Int)
    (r r1 : PhaseState × List Int) (b0 : Int) (hb0 : rd B 0 = some b0)
    (h : blossom_visit B k chain r = some r1) :
    BaseStep b0 r.1.blossom_to_base r1.1.blossom_to_base ∧
      ∀ current, rd B (k : Int) = some current → b0 ≠ -1 →
        ∃ c, rd r1.1.blossom_to_base current = some c ∧ c ≠ -1 := by
  obtain ⟨current, base, hcur, hbase, hcase⟩ := blossom_visit_base_cases B k chain r r1 h
  rcases hcase with ⟨hm, b, hb, hw⟩ | ⟨hm, he⟩
  · rw [hb0] at hb
    simp only [Option.some.injEq] at hb
    subst hb
    subst hm
    refine ⟨⟨fun u c hu hc => ?_, fun u hu => ?_⟩, fun cur hc hne => ?_⟩
    · have hne : u ≠ current := by
        rintro rfl
        rw [hbase] at hu
        exact hc (Option.some.inj hu).symm
      rw [rd_wr_other hw hne]; exact hu
    · by_cases hne : u = current
      · subst hne; exact Or.inr (rd_wr_same hw)
      · left; rw [rd_wr_other hw hne]; exact hu
    · rw [hcur] at hc
      simp only [Option.some.injEq] at hc
      subst hc
      exact ⟨b0, rd_wr_same hw, hne⟩
  · rw [he]
    refine ⟨BaseStep.base_refl _ _, fun cur hc _ => ?_⟩
    rw [hcur] at hc
    simp only [Option.some.injEq] at hc
    subst hc
    exact ⟨base, hbase, hm⟩

/-- A pass changes `blossom_to_base` by steps of `BaseStep`, and leaves the entry of every
visited vertex set. -/
theorem blossom_first_pass_base (B : List Int) (b0 : Int) (hb0 : rd B 0 = some b0)
    (hne : b0 ≠ -1) :
    ∀ (ks : List Nat) (r r1 : PhaseState × List Int),
      blossom_first_pass B ks r = some r1 →
      BaseStep b0 r.1.blossom_to_base r1.1.blossom_to_base ∧
        ∀ k ∈ ks, ∀ current, rd B (k : Int) = some current →
          ∃ c, rd r1.1.blossom_to_base current = some c ∧ c ≠ -1
  | [], r, r1, h => by
    simp only [blossom_first_pass, Option.some.injEq] at h
    rw [← h]
    exact ⟨BaseStep.base_refl _ _, fun k hk => by simp at hk⟩
  | k :: ks, r, r1, h => by
    simp only [blossom_first_pass] at h
    split at h
    · contradiction
    · rename_i r2 h2
      obtain ⟨s1, v1⟩ := blossom_visit_base B k _ r r2 b0 hb0 h2
      obtain ⟨s2, v2⟩ := blossom_first_pass_base B b0 hb0 hne ks r2 r1 h
      refine ⟨s1.base_trans hne s2, fun k1 hk1 current hc => ?_⟩
      rcases List.mem_cons.mp hk1 with rfl | hk1
      · obtain ⟨c, hc1, hc2⟩ := v1 current hc hne
        exact ⟨c, s2.1 current c hc1 hc2, hc2⟩
      · exact v2 k1 hk1 current hc

theorem blossom_second_pass_base (B : List Int) (b0 : Int) (hb0 : rd B 0 = some b0)
    (hne : b0 ≠ -1) :
    ∀ (ks : List Nat) (r r1 : PhaseState × List Int),
      blossom_second_pass B ks r = some r1 →
      BaseStep b0 r.1.blossom_to_base r1.1.blossom_to_base ∧
        ∀ k ∈ ks, ∀ current, rd B (k : Int) = some current →
          ∃ c, rd r1.1.blossom_to_base current = some c ∧ c ≠ -1
  | [], r, r1, h => by
    simp only [blossom_second_pass, Option.some.injEq] at h
    rw [← h]
    exact ⟨BaseStep.base_refl _ _, fun k hk => by simp at hk⟩
  | k :: ks, r, r1, h => by
    simp only [blossom_second_pass] at h
    split at h
    · contradiction
    · rename_i r2 h2
      obtain ⟨s1, v1⟩ := blossom_visit_base B k _ r r2 b0 hb0 h2
      obtain ⟨s2, v2⟩ := blossom_second_pass_base B b0 hb0 hne ks r2 r1 h
      refine ⟨s1.base_trans hne s2, fun k1 hk1 current hc => ?_⟩
      rcases List.mem_cons.mp hk1 with rfl | hk1
      · obtain ⟨c, hc1, hc2⟩ := v1 current hc hne
        exact ⟨c, s2.1 current c hc1 hc2, hc2⟩
      · exact v2 k1 hk1 current hc

/-- For a cycle sequence of even length the two passes visit every position from 1 to
`size - 2`: the odd ones in the first pass, the even ones in the second. -/
theorem pass_indices_cover (size k : Nat) (heven : size % 2 = 0) (h1 : 1 ≤ k)
    (h2 : k + 2 ≤ size) : k ∈ first_pass_indices size ∨ k ∈ second_pass_indices size := by
  unfold first_pass_indices second_pass_indices
  simp only [List.mem_reverse, List.mem_filter, List.mem_range, decide_eq_true_eq]
  by_cases hk : k % 2 = 0
  · right; omega
  · left; omega

theorem wr_nonneg {α : Type} {l l1 : List α} {i : Int} {x : α} (h : wr l i x = some l1) :
    0 ≤ i := by
  unfold wr at h
  split at h
  · contradiction
  · omega

/-- C17 (as the code behaves): a contraction by the Blossom kernel of the cycle sequence
`B` returned by the helpers with both flags set.  Afterwards `blossom_to_base[base] = base`
for `base = B[0]`; every other vertex whose entry was set before (not `-1`) keeps that
entry, also when it lies on `B`; and every vertex at a visited position of `B` (position
`size - 3, size - 5, ...` or `2, 4, ...`) whose entry was `-1` has the entry `base`.  When
the length of `B` is even, the visited positions are all the interior positions
`1, ..., size - 2`. -/
theorem C17_blossom_to_base_after_contraction (H : PathHelpers) (v w : Int)
    (r r1 : PhaseState × List Int) (path_v path_w B : List Int)
    (hpv : H.find_path_vector_blossom r.1.path_table_vector v = some path_v)
    (hpw : H.find_path_vector_blossom_w r.1.path_table_vector w r.1.belongs
      = some (path_w, true))
    (hB : H.find_blossom_vector_debug path_v path_w r.1.path_table_vector = some (B, true))
    (h : blossom_contract H v w r = some r1) :
    ∃ base, rd B 0 = some base ∧
      rd r1.1.blossom_to_base base = some base ∧
      (∀ u c, u ≠ base → rd r.1.blossom_to_base u = some c → c ≠ -1 →
        rd r1.1.blossom_to_base u = some c) ∧
      (∀ k u, k ∈ first_pass_indices B.length ∨ k ∈ second_pass_indices B.length →
        rd B (k : Int) = some u → rd r.1.blossom_to_base u = some (-1) →
        rd r1.1.blossom_to_base u = some base) ∧
      (B.length % 2 = 0 → ∀ k u, 1 ≤ k → k + 2 ≤ B.length →
        rd B (k : Int) = some u → rd r.1.blossom_to_base u = some (-1) →
        rd r1.1.blossom_to_base u = some base) := by
  simp only [blossom_contract, hpv, hpw, hB] at h
  split at h
  · contradiction
  · rename_i b2b hb
    cases h0 : rd B 0 with
    | none => rw [h0] at hb; simp at hb
    | some base =>
      rw [h0] at hb
      simp only [Option.some_bind] at hb
      have hne : base ≠ -1 := by
        have := wr_nonneg hb
        omega
      split at h
      · contradiction
      · rename_i r2 h2
        obtain ⟨s1, v1⟩ := blossom_first_pass_base B base h0 hne _ _ _ h2
        obtain ⟨s2, v2⟩ := blossom_second_pass_base B base h0 hne _ _ _ h
        have s12 := s1.base_trans hne s2
        have hbase : rd b2b base = some base := rd_wr_same hb
        have hvis : ∀ k u, k ∈ first_pass_indices B.length ∨ k ∈ second_pass_indices B.length →
            rd B (k : Int) = some u → rd r.1.blossom_to_base u = some (-1) →
            rd r1.1.blossom_to_base u = some base := by
          intro k u hk hu hm
          by_cases hub : u = base
          · subst hub; exact s12.1 u u hbase hne
          · have hm1 : rd b2b u = some (-1) := by rw [rd_wr_other hb hub]; exact hm
            have hset : ∃ c, rd r1.1.blossom_to_base u = some c ∧ c ≠ -1 := by
              rcases hk with hk | hk
              · obtain ⟨c, hc1, hc2⟩ := v1 k hk u hu
                exact ⟨c, s2.1 u c hc1 hc2, hc2⟩
              · exact v2 k hk u hu
            obtain ⟨c, hc1, hc2⟩ := hset
            rcases s12.2 u hm1 with h3 | h3
            · rw [hc1] at h3
              exact absurd (Option.some.inj h3) hc2
            · exact h3
        refine ⟨base, rfl, s12.1 base base hbase hne, fun u c hub hu hc => ?_, hvis,
          fun heven k u hk1 hk2 => hvis k u (pass_indices_cover B.length k heven hk1 hk2)⟩
        exact s12.1 u c (by rw [rd_wr_other hb hub]; exact hu) hc

/-- The state `nested_state` after the contraction of the cycle closed by the pair
`(4, 6)`. -/
theorem nested_contraction :
    blossom_contract specHelpers 4 6 (nested_state, [3])
      = some ({ nested_state with
          is_even := [1, 1, 1, 1, 1, 1, 1],
          path_table_vector := [[], [2, 3, 4, 6, 5, 0], [1, 0], [4, 2], [3, 2],
            [6, 4, 3, 2, 1, 0], [5, 0]],
          select_blossom := [0, 1, 0, 1, 0, 1, 0],
          blossom_to_base := [0, 0, 2, 2, 2, 0, 0] }, [3, 1, 5]) := by
  decide

set_option maxRecDepth 1000000 in
/-- C17, counterexample: in the phase on `nested_graph` started from the matching
`1-2, 3-4, 5-6` the triangle `2, 3, 4` is contracted first, with base 2.  The pair `(4, 6)`
then closes the cycle sequence `0, 1, 2, 3, 4, 6, 5, 0` with base 0, and both checks pass;
after its contraction the interior vertices 2, 3 and 4 still have the base 2, not 0. -/
theorem C17_nested_cycle_keeps_inner_base :
    find_path_vector_blossom nested_state.path_table_vector 4 = some [4, 3, 2, 1, 0] ∧
      find_path_vector_blossom_w nested_state.path_table_vector 6 nested_state.belongs
        = some ([6, 5, 0], true) ∧
      find_blossom_vector_debug [4, 3, 2, 1, 0] [6, 5, 0] nested_state.path_table_vector
        = some ([0, 1, 2, 3, 4, 6, 5, 0], true) ∧
      (blossom_contract specHelpers 4 6 (nested_state, [3])).map
          (fun r => r.1.blossom_to_base) = some [0, 0, 2, 2, 2, 0, 0] ∧
      (parFindAugmentingPathNoRecursionUpdatePathTable specHelpers 4 nested_graph
          [-1, 2, 1, 4, 3, 6, 5] [] [[], [], [], [], [], [], []] 1).map
          (fun s => s.blossom_to_base) = some [0, 0, 2, 2, 2, 0, 0] := by
  decide

/-- Witness for C17: the contraction of the counterexample: the base 0 and the vertices 1,
6 and 5 get the base 0, the vertices 2, 3 and 4 keep the base 2. -/
theorem C17_blossom_to_base_after_contraction_witness :
    ∃ base, rd ([0, 1, 2, 3, 4, 6, 5, 0] : List Int) 0 = some base ∧
      rd ([0, 0, 2, 2, 2, 0, 0] : List Int) base = some base ∧
      (∀ u c, u ≠ base → rd nested_state.blossom_to_base u = some c → c ≠ -1 →
        rd ([0, 0, 2, 2, 2, 0, 0] : List Int) u = some c) ∧
      (∀ k u, k ∈ first_pass_indices 8 ∨ k ∈ second_pass_indices 8 →
        rd ([0, 1, 2, 3, 4, 6, 5, 0] : List Int) (k : Int) = some u →
        rd nested_state.blossom_to_base u = some (-1) →
        rd ([0, 0, 2, 2, 2, 0, 0] : List Int) u = some base) :=
  let ⟨base, h1, h2, h3, h4, _⟩ :=
    C17_blossom_to_base_after_contraction specHelpers 4 6 (nested_state, [3]) _
      [4, 3, 2, 1, 0] [6, 5, 0] [0, 1, 2, 3, 4, 6, 5, 0] (by decide) (by decide) (by decide)
      nested_contraction
  ⟨base, h1, h2, h3, h4⟩

/-! ## The matching is read only (C20) -/

/-- C20: the matching is mutated only by the updater.  A worker of the Augment, Expand or
Blossom kernel that returns, and a whole search phase that returns, leave the vector `M`
as it was, for every input state, every frontier, every thread count and every
implementation of the path helpers.  The vectors `rowOffsets` and `columnIndices` are
passed to the kernels as constant references: they are arguments of the embedded
functions, not part of the state a kernel returns. -/
theorem C20_kernels_leave_matching_unchanged (H : PathHelpers) (G : Graph)
    (nodes_vector : List Int) (index T : Nat) (s : PhaseState) :
    (∀ s1, parAugmentingPath H G.rowOffsets G.columnIndices nodes_vector index T s = some s1 →
        s1.M = s.M) ∧
      (∀ s1, parExpand G.rowOffsets G.columnIndices nodes_vector index T s = some s1 →
        s1.M = s.M) ∧
      (∀ s1, parBlossom H G.rowOffsets G.columnIndices nodes_vector index T s = some s1 →
        s1.M = s.M) ∧
      (∀ fuel pc pt s1,
        parFindAugmentingPathNoRecursionUpdatePathTable H fuel G s.M pc pt T = some s1 →
        s1.M = s.M) :=
  ⟨fun s1 h => (parAugmentingPath_preserved H _ _ _ _ _ s s1 h).1,
   fun s1 h => (parExpand_preserved _ _ _ _ _ s s1 h).1,
   fun s1 h => (parBlossom_preserved H _ _ _ _ _ s s1 h).1,
   fun fuel pc pt s1 h => (phase_preserved H fuel G s.M pc pt T s1 h).1⟩

/-- Witness for C20: the Expand worker on the triangle started from the matching `0-1`
changes labels, tree ids and the predecessor table, and leaves `M` as it is. -/
theorem C20_kernels_leave_matching_unchanged_witness :
    parExpand triangle.rowOffsets triangle.columnIndices [2] 0 1 triangle_start
        = some triangle_state ∧
      triangle_state.belongs ≠ triangle_start.belongs ∧ triangle_state.M = triangle_start.M :=
  ⟨by decide, by decide,
    (C20_kernels_leave_matching_unchanged specHelpers triangle [2] 0 1 triangle_start).2.1
      triangle_state (by decide)⟩

/-! ## The phase initialization -/

theorem mem_parExposedNode_iff (M : List Int) (T : Nat) (u : Int) :
    u ∈ parExposedNode M T ↔ rd M u = some (-1) := by
  simp only [parExposedNode, List.mem_map, List.mem_filter, List.mem_range, decide_eq_true_eq]
  constructor
  · rintro ⟨i, ⟨hi, hm⟩, rfl⟩
    unfold rd
    simpa using hm
  · intro h
    have h0 := rd_nonneg h
    have h1 := rd_lt h
    refine ⟨u.toNat, ⟨h1, ?_⟩, by omega⟩
    unfold rd at h
    rw [if_neg (by omega)] at h
    exact h

theorem parInitializeExposed_spec :
    ∀ (exposed is_even belongs is_even1 belongs1 : List Int),
      parInitializeExposed exposed (is_even, belongs) = some (is_even1, belongs1) →
      ∀ u, (u ∈ exposed → rd is_even1 u = some 1 ∧ rd belongs1 u = some u) ∧
        (u ∉ exposed → rd is_even1 u = rd is_even u ∧ rd belongs1 u = rd belongs u)
  | [], is_even, belongs, is_even1, belongs1, h, u => by
    simp only [parInitializeExposed, Option.some.injEq, Prod.mk.injEq] at h
    rw [← h.1, ← h.2]
    simp
  | v :: exposed, is_even, belongs, is_even1, belongs1, h, u => by
    simp only [parInitializeExposed] at h
    split at h
    · rename_i e1 b1 he hb
      have ih := parInitializeExposed_spec exposed e1 b1 is_even1 belongs1 h u
      constructor
      · intro hu
        by_cases hin : u ∈ exposed
        · exact ih.1 hin
        · have huv : u = v := by
            rcases List.mem_cons.mp hu with h1 | h1
            · exact h1
            · exact absurd h1 hin
          subst huv
          rw [(ih.2 hin).1, (ih.2 hin).2]
          exact ⟨rd_wr_same he, rd_wr_same hb⟩
      · intro hu
        have huv : u ≠ v := fun h1 => hu (h1 ▸ List.mem_cons_self _ _)
        have hin : u ∉ exposed := fun h1 => hu (List.mem_cons_of_mem _ h1)
        rw [(ih.2 hin).1, (ih.2 hin).2]
        exact ⟨rd_wr_other he huv, rd_wr_other hb huv⟩
    · contradiction

/-- What the phase initialization establishes. -/
theorem phase_init_spec (G : Graph) (M : List Int) (pc pt : List (List Int)) (T : Nat)
    (exposed : List Int) (s : PhaseState) (h : phase_init G M pc pt T = some (exposed, s)) :
    s.M = M ∧ exposed = parExposedNode M T ∧
      (∀ u, u ∈ exposed → rd s.is_even u = some 1 ∧ rd s.belongs u = some u) ∧
      (∀ u, u ∉ exposed → (∀ e, rd s.is_even u = some e → e = 0) ∧
        ∀ b, rd s.belongs u = some b → b = -1) ∧
      ∀ x chain, rd s.path_table_vector x = some chain → chain = [] := by
  simp only [phase_init] at h
  split at h
  · contradiction
  · rename_i e1 b1 hinit
    simp only [Option.some.injEq, Prod.mk.injEq] at h
    obtain ⟨h1, h2⟩ := h
    subst h2
    have hs := parInitializeExposed_spec _ _ _ _ _ hinit
    refine ⟨rfl, h1.symm, fun u hu => (hs u).1 (h1 ▸ hu), fun u hu => ?_, fun x chain hx => ?_⟩
    · have h3 := (hs u).2 (h1 ▸ hu)
      constructor
      · intro e he
        have h4 : rd (List.replicate G.nodes.toNat (0 : Int)) u = some e := by
          rw [← h3.1]; exact he
        have := rd_mem h4
        exact (List.mem_replicate.mp this).2
      · intro b hb
        have h4 : rd (List.replicate G.nodes.toNat (-1 : Int)) u = some b := by
          rw [← h3.2]; exact hb
        have := rd_mem h4
        exact (List.mem_replicate.mp this).2
    · have := rd_mem hx
      simp only [List.mem_map] at this
      obtain ⟨_, _, h5⟩ := this
      exact h5.symm

/-! ## Invariants of the Expand kernel -/

theorem rd_of_wr {α : Type} {l l1 : List α} {i : Int} {x : α} (h : wr l i x = some l1) :
    ∃ a, rd l i = some a := by
  unfold wr at h
  split at h
  · contradiction
  · split at h
    · rename_i h0 h1
      exact ⟨_, rd_of_bounds l i (by omega) h1⟩
    · contradiction

/-- One position of the scan of the Expand kernel: a claim is won and `x` is emitted, or
the state is unchanged. -/
theorem expand_scan_cons (columnIndices : List Int) (v j : Int) (js : List Int)
    (s : PhaseState) (l : List Int) (r : PhaseState × List Int)
    (h : expand_scan columnIndices v (j :: js) (s, l) = some r) :
    (∃ w x s1, rd columnIndices j = some w ∧ ExpandEmit s v w x s1 ∧
        expand_scan columnIndices v js (s1, l ++ [x]) = some r) ∨
      expand_scan columnIndices v js (s, l) = some r := by
  simp only [expand_scan] at h
  split at h
  · contradiction
  · rename_i w hw
    split at h
    · rename_i x bw hM hbw
      split at h
      · rename_i hm
        subst hm
        split at h
        · contradiction
        · right; exact h
        · rename_i sm hsm
          split at h
          · contradiction
          · rename_i chain hchain
            split at h
            · contradiction
            · rename_i pt1 hpt
              split at h
              · contradiction
              · rename_i even2 heven
                split at h
                · contradiction
                · rename_i belongs1 hb1
                  split at h
                  · contradiction
                  · rename_i belongs2 hb2
                    left
                    refine ⟨w, x, _, hw, ?_, h⟩
                    cases he1 : wr s.is_even w 0 with
                    | none => rw [he1] at heven; simp at heven
                    | some e1 =>
                      rw [he1] at heven
                      simp only [Option.some_bind] at heven
                      cases hv : rd s.belongs v with
                      | none => rw [hv] at hb1; simp at hb1
                      | some tree_v =>
                        rw [hv] at hb1
                        simp only [Option.some_bind] at hb1
                        have hv1 : rd belongs1 v = some tree_v := by
                          by_cases hvw : v = w
                          · subst hvw; exact rd_wr_same hb1
                          · rw [rd_wr_other hb1 hvw]; exact hv
                        rw [hv1] at hb2
                        simp only [Option.some_bind] at hb2
                        obtain ⟨ex1, hex1⟩ := rd_of_wr heven
                        have hex : ∃ e, rd s.is_even x = some e := by
                          by_cases hxw : x = w
                          · subst hxw; exact rd_of_wr he1
                          · exact ⟨ex1, by rw [← rd_wr_other he1 hxw]; exact hex1⟩
                        refine ⟨hM, hbw, rfl, ⟨chain, hchain, rd_wr_same hpt⟩,
                          fun u hu => rd_wr_other hpt hu, hex, rd_wr_same heven, fun hwx => ?_,
                          fun u huw hux => ?_, ⟨tree_v, hv, ?_, rd_wr_same hb2⟩,
                          fun u huw hux => ?_⟩
                        · show rd even2 w = some 0
                          rw [rd_wr_other heven hwx]; exact rd_wr_same he1
                        · show rd even2 u = rd s.is_even u
                          rw [rd_wr_other heven hux, rd_wr_other he1 huw]
                        · show rd belongs2 w = some tree_v
                          by_cases hwx : w = x
                          · rw [hwx]; exact rd_wr_same hb2
                          · rw [rd_wr_other hb2 hwx]; exact rd_wr_same hb1
                        · show rd belongs2 u = rd s.belongs u
                          rw [rd_wr_other hb2 hux, rd_wr_other hb1 huw]
      · right; exact h
    · contradiction

theorem not_in_tree_of_unset {s : PhaseState} {u : Int} (h : rd s.belongs u = some (-1)) :
    ¬ in_tree s u := by
  rintro ⟨b, hb, hne⟩
  rw [h] at hb
  exact hne (Option.some.inj hb).symm

theorem ExpandEmit.emit_roots {M : List Int} (hM : symmetric M) {s s1 : PhaseState} {v w x : Int}
    (hsM : s.M = M) (h : ExpandEmit s v w x s1) (hr : RootsKept s) : RootsKept s1 := by
  obtain ⟨hMw, hbw, hM1, -, -, ⟨e, hex⟩, -, -, -, -, hbo⟩ := h
  intro u hu
  rw [hM1] at hu
  have hx0 : x ≠ -1 := by
    have := rd_nonneg hex
    omega
  have hw0 : w ≠ -1 := by
    have := rd_nonneg hMw
    omega
  have hxw : rd s.M x = some w := by
    rw [hsM] at hMw ⊢
    exact hM w x hMw hx0
  have huw : u ≠ w := by
    rintro rfl
    rw [hMw] at hu
    exact hx0 (Option.some.inj hu)
  have hux : u ≠ x := by
    rintro rfl
    rw [hxw] at hu
    exact hw0 (Option.some.inj hu)
  rw [hbo u huw hux]
  exact hr u hu

theorem expand_scan_roots {M : List Int} (hM : symmetric M) (columnIndices : List Int)
    (v : Int) :
    ∀ (js : List Int) (s : PhaseState) (l : List Int) (r : PhaseState × List Int),
      s.M = M → RootsKept s → expand_scan columnIndices v js (s, l) = some r →
      RootsKept r.1
  | [], s, l, r, _, hr, h => by
    simp only [expand_scan, Option.some.injEq] at h
    rw [← h]; exact hr
  | j :: js, s, l, r, hsM, hr, h => by
    rcases expand_scan_cons columnIndices v j js s l r h with ⟨w, x, s1, -, he, h1⟩ | h1
    · exact expand_scan_roots hM columnIndices v js s1 _ r (he.2.2.1.trans hsM)
        (he.emit_roots hM hsM hr) h1
    · exact expand_scan_roots hM columnIndices v js s l r hsM hr h1

/-- What a claim won by the Expand kernel does to the invariant and to the labels. -/
theorem ExpandEmit.emit_inv {M : List Int} (hM : symmetric M) {s s1 : PhaseState} {v w x : Int}
    (hs : TreeInv M s) (hv : in_tree s v) (h : ExpandEmit s v w x s1) :
    TreeInv M s1 ∧ (∀ u, in_tree s u → in_tree s1 u) ∧
      (∀ u, even_labelled s u → even_labelled s1 u) ∧
      ¬ even_labelled s x ∧ even_labelled s1 x := by
  obtain ⟨hMw, hbw, hM1, ⟨chain, hc, hc1⟩, hpo, ⟨e, hex⟩, hex1, hew1, heo,
    ⟨tree_v, htv, hbw1, hbx1⟩, hbo⟩ := h
  have hsM := hs.matching
  have hx0 : x ≠ -1 := by
    have := rd_nonneg hex
    omega
  have hw0 : w ≠ -1 := by
    have := rd_nonneg hMw
    omega
  have hxw : rd M x = some w := by
    rw [hsM] at hMw
    exact hM w x hMw hx0
  have hnw : ¬ in_tree s w := not_in_tree_of_unset hbw
  have hnx : ¬ in_tree s x := fun hx => hnw (hs.mates x w hxw hw0 hx)
  have htv0 : tree_v ≠ -1 := by
    obtain ⟨b, hb, hne⟩ := hv
    rw [htv] at hb
    rw [Option.some.inj hb]; exact hne
  have hw1 : in_tree s1 w := ⟨tree_v, hbw1, htv0⟩
  have hx1 : in_tree s1 x := ⟨tree_v, hbx1, htv0⟩
  have hmono : ∀ u, in_tree s u → in_tree s1 u := by
    intro u hu
    by_cases huw : u = w
    · subst huw; exact hw1
    · by_cases hux : u = x
      · subst hux; exact hx1
      · obtain ⟨b, hb, hne⟩ := hu
        exact ⟨b, by rw [hbo u huw hux]; exact hb, hne⟩
  have hback : ∀ u, u ≠ w → u ≠ x → in_tree s1 u → in_tree s u := by
    intro u huw hux ⟨b, hb, hne⟩
    exact ⟨b, by rw [← hbo u huw hux]; exact hb, hne⟩
  have hnex : ¬ even_labelled s x := fun h1 => hnx (hs.even_in_tree x h1)
  have hnew : ¬ even_labelled s w := fun h1 => hnw (hs.even_in_tree w h1)
  have hex1e : even_labelled s1 x := ⟨1, hex1, by decide⟩
  refine ⟨⟨hM1.trans hsM, fun u hu => ?_, fun y c hy u hu => ?_, fun a b hab hb ha => ?_⟩,
    hmono, fun u hu => ?_, hnex, hex1e⟩
  · by_cases hux : u = x
    · subst hux; exact hx1
    · by_cases huw : u = w
      · subst huw; exact hw1
      · obtain ⟨e1, he1, hne⟩ := hu
        exact hmono u (hs.even_in_tree u ⟨e1, by rw [← heo u huw hux]; exact he1, hne⟩)
  · by_cases hyx : y = x
    · subst hyx
      rw [hc1] at hy
      simp only [Option.some.injEq] at hy
      subst hy
      simp only [List.mem_append, List.mem_cons, List.not_mem_nil, or_false] at hu
      rcases hu with hu | rfl | rfl
      · exact hmono u (hs.table_in_tree y chain hc u hu)
      · exact hw1
      · exact hmono u hv
    · rw [hpo y hyx] at hy
      exact hmono u (hs.table_in_tree y c hy u hu)
  · by_cases haw : a = w
    · subst haw
      rw [hsM] at hMw
      rw [hMw] at hab
      rw [← Option.some.inj hab]; exact hx1
    · by_cases hax : a = x
      · subst hax
        rw [hxw] at hab
        rw [← Option.some.inj hab]; exact hw1
      · exact hmono b (hs.mates a b hab hb (hback a haw hax ha))
  · by_cases hux : u = x
    · subst hux; exact hex1e
    · by_cases huw : u = w
      · subst huw; exact absurd hu hnew
      · obtain ⟨e1, he1, hne⟩ := hu
        exact ⟨e1, by rw [heo u huw hux]; exact he1, hne⟩

/-- A scan of the Expand kernel for a vertex with a tree id keeps the invariant, takes no
label or tree id away, and emits, each once, vertices that were not even before the scan
and are even after it. -/
theorem expand_scan_inv {M : List Int} (hM : symmetric M) (columnIndices : List Int)
    (v : Int) :
    ∀ (js : List Int) (s : PhaseState) (l : List Int) (r : PhaseState × List Int),
      TreeInv M s → in_tree s v → expand_scan columnIndices v js (s, l) = some r →
      TreeInv M r.1 ∧ (∀ u, in_tree s u → in_tree r.1 u) ∧
        (∀ u, even_labelled s u → even_labelled r.1 u) ∧
        ∃ emitted, r.2 = l ++ emitted ∧ emitted.Nodup ∧
          ∀ u ∈ emitted, ¬ even_labelled s u ∧ even_labelled r.1 u
  | [], s, l, r, hs, _, h => by
    simp only [expand_scan, Option.some.injEq] at h
    rw [← h]
    exact ⟨hs, fun _ hu => hu, fun _ hu => hu, [], by simp, List.nodup_nil, by simp⟩
  | j :: js, s, l, r, hs, hv, h => by
    rcases expand_scan_cons columnIndices v j js s l r h with ⟨w, x, s1, -, he, h1⟩ | h1
    · obtain ⟨i1, t1, e1, nx, ex⟩ := he.emit_inv hM hs hv
      obtain ⟨i2, t2, e2, em, hem, hnd, hall⟩ :=
        expand_scan_inv hM columnIndices v js s1 _ r i1 (t1 v hv) h1
      refine ⟨i2, fun u hu => t2 u (t1 u hu), fun u hu => e2 u (e1 u hu), x :: em, ?_, ?_, ?_⟩
      · rw [hem]; simp
      · exact List.nodup_cons.mpr ⟨fun hx => (hall x hx).1 ex, hnd⟩
      · intro u hu
        rcases List.mem_cons.mp hu with rfl | hu
        · exact ⟨nx, e2 u ex⟩
        · exact ⟨fun h2 => (hall u hu).1 (e1 u h2), (hall u hu).2⟩
    · exact expand_scan_inv hM columnIndices v js s l r hs hv h1

/-! ## Invariants of the Blossom kernel -/

theorem TreeInv.of_same {M : List Int} {s s1 : PhaseState} (h : SameLabels s s1)
    (hs : TreeInv M s) : TreeInv M s1 := by
  obtain ⟨h1, h2, h3, h4⟩ := h
  obtain ⟨a, b, c, d⟩ := hs
  refine ⟨h1.trans a, ?_, ?_, ?_⟩
  · intro u hu
    unfold even_labelled at hu
    unfold in_tree
    rw [h3] at hu; rw [h2]
    exact b u hu
  · intro x chain hx u hu
    unfold in_tree
    rw [h4] at hx; rw [h2]
    exact c x chain hx u hu
  · intro x y hxy hy hx
    unfold in_tree at hx ⊢
    rw [h2] at hx ⊢
    exact d x y hxy hy hx

/-- A visit of the Blossom kernel: nothing is emitted and no label changes, or `current`
is emitted, was not even, is even afterwards and has the chain as predecessor entry. -/
theorem blossom_visit_cases (B : List Int) (k : Nat) (chain : List Int)
    (r r1 : PhaseState × List Int) (h : blossom_visit B k chain r = some r1) :
    r1.1.belongs = r.1.belongs ∧ r1.1.M = r.1.M ∧
      ((r1.2 = r.2 ∧ r1.1.is_even = r.1.is_even ∧
          ∀ x c, rd r1.1.path_table_vector x = some c →
            c = [] ∨ rd r.1.path_table_vector x = some c) ∨
        ∃ current, rd B (k : Int) = some current ∧ r1.2 = r.2 ++ [current] ∧
          rd r.1.is_even current = some 0 ∧ rd r1.1.is_even current = some 1 ∧
          (∀ u, u ≠ current → rd r1.1.is_even u = rd r.1.is_even u) ∧
          rd r1.1.path_table_vector current = some chain ∧
          ∀ u, u ≠ current → rd r1.1.path_table_vector u = rd r.1.path_table_vector u) := by
  unfold blossom_visit at h
  split at h
  · contradiction
  · rename_i current hcur
    split at h
    · contradiction
    · split at h
      · contradiction
      · rename_i b2b hb
        dsimp only at h
        split at h
        · rename_i even_current old_chain hec hoc
          split at h
          · rename_i hcond
            obtain ⟨hc1, hc2⟩ := hcond
            subst hc1; subst hc2
            split at h
            · contradiction
            · simp only [Option.some.injEq] at h
              rw [← h]
              exact ⟨rfl, rfl, Or.inl ⟨rfl, rfl, fun x c hx => Or.inr hx⟩⟩
            · rename_i sb hsb
              split at h
              · split at h
                · contradiction
                · rename_i pt1 hpt
                  simp only [Option.some.injEq] at h
                  rw [← h]
                  refine ⟨rfl, rfl, Or.inl ⟨rfl, rfl, fun x c hx => ?_⟩⟩
                  by_cases hxc : x = current
                  · subst hxc
                    left
                    have h2 : rd pt1 x = some [] := rd_wr_same hpt
                    have h3 : rd pt1 x = some c := hx
                    rw [h2] at h3
                    exact (Option.some.inj h3).symm
                  · right
                    have h3 : rd pt1 x = some c := hx
                    rw [rd_wr_other hpt hxc] at h3
                    exact h3
              · split at h
                · rename_i pt1 even1 hpt hev
                  simp only [Option.some.injEq] at h
                  rw [← h]
                  simp only [List.nil_append] at hpt
                  exact ⟨rfl, rfl, Or.inr ⟨current, hcur, rfl, hec, rd_wr_same hev,
                    fun u hu => rd_wr_other hev hu, rd_wr_same hpt,
                    fun u hu => rd_wr_other hpt hu⟩⟩
                · contradiction
          · simp only [Option.some.injEq] at h
            rw [← h]
            exact ⟨rfl, rfl, Or.inl ⟨rfl, rfl, fun x c hx => Or.inr hx⟩⟩
        · contradiction

/-- A visit keeps the invariant when the vertices of the cycle sequence and of the chain
have tree ids. -/
theorem blossom_visit_inv {M : List Int} (B : List Int) (k : Nat) (chain : List Int)
    (r r1 : PhaseState × List Int) (hs : TreeInv M r.1)
    (hB : ∀ u ∈ B, in_tree r.1 u) (hchain : ∀ u ∈ chain, u ∈ B)
    (h : blossom_visit B k chain r = some r1) :
    TreeInv M r1.1 ∧ r1.1.belongs = r.1.belongs ∧
      (∀ u, even_labelled r.1 u → even_labelled r1.1 u) ∧
      ∃ emitted, r1.2 = r.2 ++ emitted ∧ emitted.Nodup ∧
        ∀ u ∈ emitted, ¬ even_labelled r.1 u ∧ even_labelled r1.1 u := by
  obtain ⟨hb, hm, hcase⟩ := blossom_visit_cases B k chain r r1 h
  have htree : ∀ u, in_tree r.1 u → in_tree r1.1 u := by
    intro u hu
    unfold in_tree at hu ⊢
    rw [hb]; exact hu
  rcases hcase with ⟨h2, he, hpt⟩ | ⟨current, hcur, h2, he0, he1, heo, hpc, hpo⟩
  · refine ⟨⟨hm.trans hs.matching, fun u hu => ?_, fun x c hx u hu => ?_,
      fun a b hab hb1 ha => ?_⟩, hb, fun u hu => ?_, [], by simp [h2], List.nodup_nil, by simp⟩
    · apply htree
      apply hs.even_in_tree
      unfold even_labelled at hu ⊢
      rw [← he]; exact hu
    · rcases hpt x c hx with rfl | h3
      · simp at hu
      · exact htree u (hs.table_in_tree x c h3 u hu)
    · apply htree
      apply hs.mates a b hab hb1
      unfold in_tree at ha ⊢
      rw [← hb]; exact ha
    · unfold even_labelled at hu ⊢
      rw [he]; exact hu
  · have hmono : ∀ u, even_labelled r.1 u → even_labelled r1.1 u := by
      intro u hu
      by_cases huc : u = current
      · subst huc; exact ⟨1, he1, by decide⟩
      · obtain ⟨e, h3, h4⟩ := hu
        exact ⟨e, by rw [heo u huc]; exact h3, h4⟩
    have hcB : current ∈ B := rd_mem hcur
    refine ⟨⟨hm.trans hs.matching, fun u hu => ?_, fun x c hx u hu => ?_,
      fun a b hab hb1 ha => ?_⟩, hb, hmono, [current], h2, List.nodup_singleton _, ?_⟩
    · by_cases huc : u = current
      · subst huc; exact htree u (hB u hcB)
      · obtain ⟨e, h3, h4⟩ := hu
        exact htree u (hs.even_in_tree u ⟨e, by rw [← heo u huc]; exact h3, h4⟩)
    · by_cases hxc : x = current
      · subst hxc
        rw [hpc] at hx
        rw [← Option.some.inj hx] at hu
        exact htree u (hB u (hchain u hu))
      · rw [hpo x hxc] at hx
        exact htree u (hs.table_in_tree x c hx u hu)
    · apply htree
      apply hs.mates a b hab hb1
      unfold in_tree at ha ⊢
      rw [← hb]; exact ha
    · intro u hu
      rw [List.mem_singleton] at hu
      subst hu
      refine ⟨?_, ⟨1, he1, by decide⟩⟩
      rintro ⟨e, h3, h4⟩
      rw [he0] at h3
      exact h4 (Option.some.inj h3).symm

theorem Progress.progress_refl {M : List Int} {r : PhaseState × List Int} (hs : TreeInv M r.1) :
    Progress M r r :=
  ⟨hs, rfl, fun _ h => h, [], by simp, List.nodup_nil, by simp⟩

theorem Progress.progress_trans {M : List Int} {r r1 r2 : PhaseState × List Int}
    (h1 : Progress M r r1) (h2 : Progress M r1 r2) : Progress M r r2 := by
  obtain ⟨-, b1, m1, em1, e1, n1, a1⟩ := h1
  obtain ⟨i2, b2, m2, em2, e2, n2, a2⟩ := h2
  refine ⟨i2, b2.trans b1, fun u hu => m2 u (m1 u hu), em1 ++ em2, ?_, ?_, ?_⟩
  · rw [e2, e1, List.append_assoc]
  · rw [List.nodup_append]
    exact ⟨n1, n2, fun u hu1 hu2 => (a2 u hu2).1 (a1 u hu1).2⟩
  · intro u hu
    rcases List.mem_append.mp hu with hu | hu
    · exact ⟨(a1 u hu).1, m2 u (a1 u hu).2⟩
    · exact ⟨fun h3 => (a2 u hu).1 (m1 u h3), (a2 u hu).2⟩

theorem in_tree_of_belongs {s s1 : PhaseState} (h : s1.belongs = s.belongs) {u : Int}
    (hu : in_tree s u) : in_tree s1 u := by
  unfold in_tree at hu ⊢
  rw [h]; exact hu

theorem blossom_first_pass_inv {M : List Int} (B : List Int) :
    ∀ (ks : List Nat) (r r1 : PhaseState × List Int), TreeInv M r.1 →
      (∀ u ∈ B, in_tree r.1 u) → blossom_first_pass B ks r = some r1 → Progress M r r1
  | [], r, r1, hs, _, h => by
    simp only [blossom_first_pass, Option.some.injEq] at h
    rw [← h]; exact Progress.progress_refl hs
  | k :: ks, r, r1, hs, hB, h => by
    simp only [blossom_first_pass] at h
    split at h
    · contradiction
    · rename_i r2 h2
      have p1 : Progress M r r2 :=
        blossom_visit_inv B k _ r r2 hs hB (fun u hu => List.mem_of_mem_drop hu) h2
      exact p1.progress_trans (blossom_first_pass_inv B ks r2 r1 p1.1
        (fun u hu => in_tree_of_belongs p1.2.1 (hB u hu)) h)

theorem blossom_second_pass_inv {M : List Int} (B : List Int) :
    ∀ (ks : List Nat) (r r1 : PhaseState × List Int), TreeInv M r.1 →
      (∀ u ∈ B, in_tree r.1 u) → blossom_second_pass B ks r = some r1 → Progress M r r1
  | [], r, r1, hs, _, h => by
    simp only [blossom_second_pass, Option.some.injEq] at h
    rw [← h]; exact Progress.progress_refl hs
  | k :: ks, r, r1, hs, hB, h => by
    simp only [blossom_second_pass] at h
    split at h
    · contradiction
    · rename_i r2 h2
      have p1 : Progress M r r2 :=
        blossom_visit_inv B k _ r r2 hs hB
          (fun u hu => List.mem_of_mem_take (List.mem_reverse.mp hu)) h2
      exact p1.progress_trans (blossom_second_pass_inv B ks r2 r1 p1.1
        (fun u hu => in_tree_of_belongs p1.2.1 (hB u hu)) h)

theorem blossom_contract_inv {M : List Int} (H : PathHelpers) (hH : CycleOnWalks H)
    (v w : Int) (r r1 : PhaseState × List Int) (hs : TreeInv M r.1)
    (hv : in_tree r.1 v) (hw : in_tree r.1 w) (h : blossom_contract H v w r = some r1) :
    Progress M r r1 := by
  simp only [blossom_contract] at h
  split at h
  · contradiction
  · rename_i path_v hpv
    split at h
    · contradiction
    · simp only [Option.some.injEq] at h
      rw [← h]; exact Progress.progress_refl hs
    · rename_i path_w hpw
      split at h
      · contradiction
      · simp only [Option.some.injEq] at h
        rw [← h]; exact Progress.progress_refl hs
      · rename_i B hB
        split at h
        · contradiction
        · rename_i b2b hb
          have hin : ∀ u ∈ B, in_tree r.1 u := by
            intro u hu
            rcases hH _ _ v w path_v path_w B hpv hpw hB u hu with rfl | rfl | ⟨x, c, hx, hc⟩
            · exact hv
            · exact hw
            · exact hs.table_in_tree x c hx u hc
          have hsame : SameLabels r.1 ({ r.1 with blossom_to_base := b2b } : PhaseState) :=
            ⟨rfl, rfl, rfl, rfl⟩
          have hs0 : TreeInv M ({ r.1 with blossom_to_base := b2b } : PhaseState) :=
            TreeInv.of_same hsame hs
          split at h
          · contradiction
          · rename_i r2 h2
            have p1 : Progress M (({ r.1 with blossom_to_base := b2b } : PhaseState), r.2) r2 :=
              blossom_first_pass_inv B _ _ r2 hs0 hin h2
            have p2 : Progress M r2 r1 :=
              blossom_second_pass_inv B _ r2 r1 p1.1
                (fun u hu => in_tree_of_belongs p1.2.1 (hin u hu)) h
            have p3 := p1.progress_trans p2
            exact ⟨p3.1, p3.2.1, p3.2.2.1, p3.2.2.2⟩

theorem blossom_guard_true {s : PhaseState} {v w : Int}
    (h : blossom_guard s v w = some true) : in_tree s v ∧ in_tree s w := by
  unfold blossom_guard at h
  split at h
  · contradiction
  · split at h
    · simp at h
    · split at h
      · rename_i belongs_w belongs_v hbw hbv
        split at h
        · simp at h
        · rename_i heq
          split at h
          · contradiction
          · split at h
            · simp at h
            · split at h
              · simp at h
              · rename_i hne
                have hvw : belongs_w = belongs_v := by
                  by_contra h0; exact heq h0
                exact ⟨⟨belongs_v, hbv, hvw ▸ hne⟩, ⟨belongs_w, hbw, hne⟩⟩
      · contradiction

theorem blossom_scan_inv {M : List Int} (H : PathHelpers) (hH : CycleOnWalks H)
    (columnIndices : List Int) (v : Int) :
    ∀ (js : List Int) (r r1 : PhaseState × List Int), TreeInv M r.1 →
      blossom_scan H columnIndices v js r = some r1 → Progress M r r1
  | [], r, r1, hs, h => by
    simp only [blossom_scan, Option.some.injEq] at h
    rw [← h]; exact Progress.progress_refl hs
  | j :: js, r, r1, hs, h => by
    simp only [blossom_scan] at h
    split at h
    · contradiction
    · rename_i w hw
      split at h
      · contradiction
      · exact blossom_scan_inv H hH columnIndices v js r r1 hs h
      · rename_i hg
        split at h
        · contradiction
        · rename_i r2 h2
          have hvw := blossom_guard_true hg
          have p1 := blossom_contract_inv H hH v w r r2 hs hvw.1 hvw.2 h2
          exact p1.progress_trans (blossom_scan_inv H hH columnIndices v js r2 r1 p1.1 h)

theorem blossom_first_pass_belongs (B : List Int) :
    ∀ (ks : List Nat) (r r1 : PhaseState × List Int),
      blossom_first_pass B ks r = some r1 → r1.1.belongs = r.1.belongs
  | [], r, r1, h => by
    simp only [blossom_first_pass, Option.some.injEq] at h
    rw [← h]
  | k :: ks, r, r1, h => by
    simp only [blossom_first_pass] at h
    split at h
    · contradiction
    · rename_i r2 h2
      exact (blossom_first_pass_belongs B ks r2 r1 h).trans
        (blossom_visit_cases B k _ r r2 h2).1

theorem blossom_second_pass_belongs (B : List Int) :
    ∀ (ks : List Nat) (r r1 : PhaseState × List Int),
      blossom_second_pass B ks r = some r1 → r1.1.belongs = r.1.belongs
  | [], r, r1, h => by
    simp only [blossom_second_pass, Option.some.injEq] at h
    rw [← h]
  | k :: ks, r, r1, h => by
    simp only [blossom_second_pass] at h
    split at h
    · contradiction
    · rename_i r2 h2
      exact (blossom_second_pass_belongs B ks r2 r1 h).trans
        (blossom_visit_cases B k _ r r2 h2).1

theorem blossom_contract_belongs (H : PathHelpers) (v w : Int)
    (r r1 : PhaseState × List Int) (h : blossom_contract H v w r = some r1) :
    r1.1.belongs = r.1.belongs := by
  simp only [blossom_contract] at h
  repeat' (split at h)
  all_goals first
    | contradiction
    | (simp only [Option.some.injEq] at h; rw [← h])
    | (have h1 := blossom_first_pass_belongs _ _ _ _ ‹_›
       have h2 := blossom_second_pass_belongs _ _ _ _ h
       exact h2.trans h1)

theorem blossom_scan_belongs (H : PathHelpers) (columnIndices : List Int) (v : Int) :
    ∀ (js : List Int) (r r1 : PhaseState × List Int),
      blossom_scan H columnIndices v js r = some r1 → r1.1.belongs = r.1.belongs
  | [], r, r1, h => by
    simp only [blossom_scan, Option.some.injEq] at h
    rw [← h]
  | j :: js, r, r1, h => by
    simp only [blossom_scan] at h
    repeat' (split at h)
    all_goals first
      | contradiction
      | exact blossom_scan_belongs H columnIndices v js _ _ h
      | exact (blossom_scan_belongs H columnIndices v js _ _ h).trans
          (blossom_contract_belongs H v _ _ _ ‹_›)

/-! ## Exposed vertices stay roots (C14) -/

theorem RootsKept.of_eq {s s1 : PhaseState} (hm : s1.M = s.M) (hb : s1.belongs = s.belongs)
    (h : RootsKept s) : RootsKept s1 := by
  intro u hu
  rw [hm] at hu
  rw [hb]
  exact h u hu

theorem PhaseStep.step_roots {H : PathHelpers} {G : Graph} {M : List Int} (hM : symmetric M)
    {s s1 : PhaseState} {front front1 : List Int}
    (h : PhaseStep H G (s, front) (s1, front1)) (hsM : s.M = M) (hr : RootsKept s) :
    s1.M = M ∧ RootsKept s1 := by
  cases h with
  | augment hv h1 =>
    have p := augment_scan_preserved H _ _ _ _ _ _ _ h1
    have f := (augment_scan_paths H _ _ _ _ _ _ _ h1).1
    exact ⟨p.1.trans hsM, hr.of_eq p.1 f.2.1⟩
  | expand hv h1 =>
    have p := expand_scan_preserved _ _ _ _ _ _ _ h1
    exact ⟨p.1.trans hsM, expand_scan_roots hM _ _ _ _ _ _ hsM hr h1⟩
  | blossom hv h1 =>
    have p := blossom_scan_preserved H _ _ _ _ _ h1
    exact ⟨p.1.trans hsM, hr.of_eq p.1 (blossom_scan_belongs H _ _ _ _ _ h1)⟩
  | collect pc v1 v2 => exact ⟨hsM, hr.of_eq rfl rfl⟩

theorem Reachable.reachable_roots {H : PathHelpers} {G : Graph} {M : List Int} (hM : symmetric M)
    {s : PhaseState} {front : List Int} (h : Reachable H G M s front) :
    s.M = M ∧ RootsKept s := by
  induction h with
  | init h0 =>
    obtain ⟨h1, h2, h3, -⟩ := phase_init_spec _ _ _ _ _ _ _ h0
    refine ⟨h1, fun u hu => ?_⟩
    rw [h1] at hu
    exact (h3 u (h2 ▸ (mem_parExposedNode_iff M _ u).mpr hu)).2
  | step _ hstep ih => exact hstep.step_roots hM ih.1 ih.2

/-- C14: in every state reachable within a phase started from a symmetric matching, the
Expand kernel does nothing for an exposed neighbour `w` of a frontier vertex `v`: the
exposed vertex is still the root of its own tree (`belongs[w] = w`, which is not `-1`), so
the scan takes no claim and goes on with the next neighbour in the same state, with the
same local vector.  A claim is taken only for a neighbour `w` with a mate: the indices
`x = M[w]` and `min(w, x)` used for `path_table` and `select_match` are never `-1`. -/
theorem C14_expand_skips_exposed_neighbours (H : PathHelpers) (G : Graph) (M : List Int)
    (hM : symmetric M) (s : PhaseState) (front : List Int) (hs : Reachable H G M s front)
    (v j : Int) (js : List Int) (local_vector : List Int) (w : Int)
    (hj : rd G.columnIndices j = some w) :
    (rd s.M w = some (-1) →
      rd s.belongs w = some w ∧ w ≠ -1 ∧
      expand_scan G.columnIndices v (j :: js) (s, local_vector)
        = expand_scan G.columnIndices v js (s, local_vector)) ∧
    ∀ x, rd s.M w = some x → rd s.belongs w = some (-1) → x ≠ -1 ∧ 0 ≤ min w x := by
  obtain ⟨hsM, hr⟩ := hs.reachable_roots hM
  constructor
  · intro hw
    have hb := hr w hw
    have hw0 : w ≠ -1 := by
      have := rd_nonneg hw
      omega
    refine ⟨hb, hw0, ?_⟩
    rw [expand_scan]
    simp only [hj, hw, hb]
    rw [if_neg hw0]
  · intro x hx hb
    have hx1 : x ≠ -1 := by
      rintro rfl
      have := hr w hx
      rw [hb] at this
      have h0 := rd_nonneg hx
      have := Option.some.inj this
      omega
    have hsym := hM w x (hsM ▸ hx) hx1
    have h1 := rd_nonneg hx
    have h2 := rd_nonneg hsym
    exact ⟨hx1, le_min h1 h2⟩

/-! ## No vertex is emitted twice (C18) -/

theorem parExposedNode_nodup (M : List Int) (T : Nat) : (parExposedNode M T).Nodup := by
  unfold parExposedNode
  apply List.Nodup.map
  · intro a b hab
    exact Int.ofNat.inj hab
  · exact (List.nodup_range _).filter _

/-- What a step does to the labels when the invariant holds and every vertex of `front` is
even. -/
theorem PhaseStep.progress {H : PathHelpers} {G : Graph} {M : List Int} (hH : CycleOnWalks H)
    (hM : symmetric M) {s s1 : PhaseState} {front front1 : List Int}
    (h : PhaseStep H G (s, front) (s1, front1)) (hs : TreeInv M s)
    (hf : ∀ u ∈ front, even_labelled s u) :
    TreeInv M s1 ∧ (∀ u, even_labelled s u → even_labelled s1 u) ∧
      ∃ emitted, front1 = front ++ emitted ∧ emitted.Nodup ∧
        ∀ u ∈ emitted, ¬ even_labelled s u ∧ even_labelled s1 u := by
  cases h with
  | augment hv h1 =>
    have p := augment_scan_preserved H _ _ _ _ _ _ _ h1
    have f := (augment_scan_paths H _ _ _ _ _ _ _ h1).1
    have hsame : SameLabels s s1 := ⟨p.1, f.2.1, f.2.2.1, f.1⟩
    refine ⟨TreeInv.of_same hsame hs, fun u hu => ?_, [], by simp, List.nodup_nil, by simp⟩
    unfold even_labelled at hu ⊢
    rw [f.2.2.1]; exact hu
  | expand hv h1 =>
    obtain ⟨i1, -, m1, em, hem, hnd, hall⟩ :=
      expand_scan_inv hM _ _ _ _ _ _ hs (hs.even_in_tree _ (hf _ hv)) h1
    have := List.append_cancel_left hem
    subst this
    exact ⟨i1, m1, _, rfl, hnd, hall⟩
  | blossom hv h1 =>
    obtain ⟨i1, -, m1, em, hem, hnd, hall⟩ := blossom_scan_inv H hH _ _ _ (s, _) _ hs h1
    have := List.append_cancel_left hem
    subst this
    exact ⟨i1, m1, _, rfl, hnd, hall⟩
  | collect pc v1 v2 =>
    have hsame : SameLabels s { s with path_collection := pc, vector_1 := v1, vector_2 := v2 } :=
      ⟨rfl, rfl, rfl, rfl⟩
    exact ⟨TreeInv.of_same hsame hs, fun u hu => hu, [], by simp, List.nodup_nil, by simp⟩

theorem phase_init_inv {G : Graph} {M : List Int} {pc pt : List (List Int)} {T : Nat}
    {exposed : List Int} {s : PhaseState} (h : phase_init G M pc pt T = some (exposed, s)) :
    TreeInv M s ∧ (∀ u ∈ exposed, even_labelled s u) ∧ exposed.Nodup ∧
      ∀ u, rd M u = some (-1) → u ∈ exposed := by
  obtain ⟨h1, h2, h3, h4, h5⟩ := phase_init_spec _ _ _ _ _ _ _ h
  have hexp : ∀ u, in_tree s u → u ∈ exposed := by
    intro u ⟨b, hb, hne⟩
    by_contra hu
    exact hne ((h4 u hu).2 b hb)
  refine ⟨⟨h1, fun u hu => ?_, fun x c hx u hu => ?_, fun a b hab hb ha => ?_⟩,
    fun u hu => ⟨1, (h3 u hu).1, by decide⟩, h2 ▸ parExposedNode_nodup M T,
    fun u hu => h2 ▸ (mem_parExposedNode_iff M T u).mpr hu⟩
  · obtain ⟨e, he, hne⟩ := hu
    have hin : u ∈ exposed := by
      by_contra hu
      exact hne ((h4 u hu).1 e he)
    have h6 := (h3 u hin).2
    have := rd_nonneg h6
    exact ⟨u, h6, by omega⟩
  · rw [h5 x c hx] at hu
    simp at hu
  · have hin := hexp a ha
    rw [h2] at hin
    have := (mem_parExposedNode_iff M T a).mp hin
    rw [hab] at this
    exact absurd (Option.some.inj this) hb

theorem Reachable.reachable_inv {H : PathHelpers} {G : Graph} {M : List Int} (hH : CycleOnWalks H)
    (hM : symmetric M) {s : PhaseState} {front : List Int} (h : Reachable H G M s front) :
    TreeInv M s ∧ (∀ u ∈ front, even_labelled s u) ∧ front.Nodup ∧
      ∀ u, rd M u = some (-1) → u ∈ front := by
  induction h with
  | init h0 => exact phase_init_inv h0
  | step _ hstep ih =>
    obtain ⟨i0, f0, n0, x0⟩ := ih
    obtain ⟨i1, m1, em, hem, hnd, hall⟩ := hstep.progress hH hM i0 f0
    subst hem
    refine ⟨i1, fun u hu => ?_, ?_, fun u hu => List.mem_append_left _ (x0 u hu)⟩
    · rcases List.mem_append.mp hu with hu | hu
      · exact m1 u (f0 u hu)
      · exact (hall u hu).2
    · rw [List.nodup_append]
      exact ⟨n0, hnd, fun u hu1 hu2 => (hall u hu2).1 (f0 u hu1)⟩

/-- C18: in every state reachable within a phase started from a symmetric matching, with
`front` the list of the vertices that have entered a frontier so far (the exposed roots and
the vertices emitted by Expand and by Blossom, in order): `front` has no vertex twice,
holds every exposed vertex, and all its vertices are labelled even; and every step from the
state takes no even label away, and emits only vertices that were not labelled even before
the step and are labelled even after it, so that the new `front` has no vertex twice
either.  The helpers are a parameter: the cycle sequences they return with both flags set
consist of `v`, `w` and vertices named in the predecessor table. -/
theorem C18_no_vertex_enters_the_frontier_twice (H : PathHelpers) (hH : CycleOnWalks H)
    (G : Graph) (M : List Int) (hM : symmetric M) (s : PhaseState) (front : List Int)
    (hs : Reachable H G M s front) :
    front.Nodup ∧ (∀ u ∈ front, even_labelled s u) ∧ (∀ u, rd M u = some (-1) → u ∈ front) ∧
      ∀ s1 front1, PhaseStep H G (s, front) (s1, front1) →
        (∀ u, even_labelled s u → even_labelled s1 u) ∧
        ∃ emitted, front1 = front ++ emitted ∧ front1.Nodup ∧
          ∀ u ∈ emitted, u ∉ front ∧ ¬ even_labelled s u ∧ even_labelled s1 u := by
  obtain ⟨i0, f0, n0, x0⟩ := hs.reachable_inv hH hM
  refine ⟨n0, f0, x0, fun s1 front1 hstep => ?_⟩
  obtain ⟨-, m1, em, hem, hnd, hall⟩ := hstep.progress hH hM i0 f0
  refine ⟨m1, em, hem, ?_, fun u hu => ⟨fun hin => (hall u hu).1 (f0 u hin), hall u hu⟩⟩
  rw [hem, List.nodup_append]
  exact ⟨n0, hnd, fun u hu1 hu2 => (hall u hu2).1 (f0 u hu1)⟩

/-! ## The runs of a phase pass through reachable states -/

theorem VectorsKept.vectors_refl (s : PhaseState) : VectorsKept s s := ⟨rfl, rfl⟩

theorem VectorsKept.vectors_trans {s s1 s2 : PhaseState} (h1 : VectorsKept s s1)
    (h2 : VectorsKept s1 s2) : VectorsKept s s2 := ⟨h2.1.trans h1.1, h2.2.trans h1.2⟩

theorem augment_scan_vectors (H : PathHelpers) (columnIndices : List Int) (v : Int) :
    ∀ (js : List Int) (s : PhaseState) (l : List Int) (s1 : PhaseState) (l1 : List Int),
      augment_scan H columnIndices v js (s, l) = some (s1, l1) → VectorsKept s s1
  | [], s, l, s1, l1, h => by
    simp only [augment_scan, Option.some.injEq, Prod.mk.injEq] at h
    rw [← h.1]; exact VectorsKept.vectors_refl s
  | j :: js, s, l, s1, l1, h => by
    simp only [augment_scan] at h
    repeat' (split at h)
    all_goals first
      | contradiction
      | (simp only [Option.some.injEq, Prod.mk.injEq] at h; rw [← h.1]; exact VectorsKept.vectors_refl s)
      | (have h2 := augment_scan_vectors H columnIndices v js _ _ _ _ h
         exact ⟨h2.1, h2.2⟩)

theorem expand_scan_vectors (columnIndices : List Int) (v : Int) :
    ∀ (js : List Int) (s : PhaseState) (l : List Int) (r : PhaseState × List Int),
      expand_scan columnIndices v js (s, l) = some r →
      VectorsKept s r.1 ∧ ∃ emitted, r.2 = l ++ emitted
  | [], s, l, r, h => by
    simp only [expand_scan, Option.some.injEq] at h
    rw [← h]; exact ⟨VectorsKept.vectors_refl s, [], by simp⟩
  | j :: js, s, l, r, h => by
    simp only [expand_scan] at h
    repeat' (split at h)
    all_goals first
      | contradiction
      | (obtain ⟨h3, em3, hem3⟩ := expand_scan_vectors columnIndices v js _ _ r h
         first
           | exact ⟨⟨h3.1, h3.2⟩, em3, hem3⟩
           | exact ⟨⟨h3.1, h3.2⟩, _, by rw [hem3, List.append_assoc]⟩)

theorem blossom_visit_vectors (B : List Int) (k : Nat) (chain : List Int)
    (r r1 : PhaseState × List Int) (h : blossom_visit B k chain r = some r1) :
    VectorsKept r.1 r1.1 ∧ ∃ emitted, r1.2 = r.2 ++ emitted := by
  simp only [blossom_visit] at h
  repeat' (split at h)
  all_goals first
    | contradiction
    | (simp only [Option.some.injEq] at h
       rw [← h]
       first
        | exact ⟨⟨rfl, rfl⟩, [], (List.append_nil _).symm⟩
        | exact ⟨⟨rfl, rfl⟩, [_], rfl⟩)

theorem Appends.appends_refl (r : PhaseState × List Int) : Appends r r :=
  ⟨VectorsKept.vectors_refl _, [], by simp⟩

theorem Appends.appends_trans {r r1 r2 : PhaseState × List Int} (h1 : Appends r r1)
    (h2 : Appends r1 r2) : Appends r r2 := by
  obtain ⟨v1, e1, he1⟩ := h1
  obtain ⟨v2, e2, he2⟩ := h2
  exact ⟨v1.vectors_trans v2, e1 ++ e2, by rw [he2, he1, List.append_assoc]⟩

theorem blossom_first_pass_vectors (B : List Int) :
    ∀ (ks : List Nat) (r r1 : PhaseState × List Int),
      blossom_first_pass B ks r = some r1 → Appends r r1
  | [], r, r1, h => by
    simp only [blossom_first_pass, Option.some.injEq] at h
    rw [← h]; exact Appends.appends_refl _
  | k :: ks, r, r1, h => by
    simp only [blossom_first_pass] at h
    split at h
    · contradiction
    · rename_i r2 h2
      exact Appends.appends_trans (blossom_visit_vectors B k _ r r2 h2)
        (blossom_first_pass_vectors B ks r2 r1 h)

theorem blossom_second_pass_vectors (B : List Int) :
    ∀ (ks : List Nat) (r r1 : PhaseState × List Int),
      blossom_second_pass B ks r = some r1 → Appends r r1
  | [], r, r1, h => by
    simp only [blossom_second_pass, Option.some.injEq] at h
    rw [← h]; exact Appends.appends_refl _
  | k :: ks, r, r1, h => by
    simp only [blossom_second_pass] at h
    split at h
    · contradiction
    · rename_i r2 h2
      exact Appends.appends_trans (blossom_visit_vectors B k _ r r2 h2)
        (blossom_second_pass_vectors B ks r2 r1 h)

theorem blossom_contract_vectors (H : PathHelpers) (v w : Int)
    (r r1 : PhaseState × List Int) (h : blossom_contract H v w r = some r1) :
    Appends r r1 := by
  simp only [blossom_contract] at h
  repeat' (split at h)
  all_goals first
    | contradiction
    | (simp only [Option.some.injEq] at h; rw [← h]; exact Appends.appends_refl _)
    | (have h1 := blossom_first_pass_vectors _ _ _ _ ‹_›
       have h2 := blossom_second_pass_vectors _ _ _ _ h
       have h3 := Appends.appends_trans h1 h2
       exact ⟨⟨h3.1.1, h3.1.2⟩, h3.2⟩)

theorem blossom_scan_vectors (H : PathHelpers) (columnIndices : List Int) (v : Int) :
    ∀ (js : List Int) (r r1 : PhaseState × List Int),
      blossom_scan H columnIndices v js r = some r1 → Appends r r1
  | [], r, r1, h => by
    simp only [blossom_scan, Option.some.injEq] at h
    rw [← h]; exact Appends.appends_refl _
  | j :: js, r, r1, h => by
    simp only [blossom_scan] at h
    repeat' (split at h)
    all_goals first
      | contradiction
      | exact blossom_scan_vectors H columnIndices v js _ _ h
      | exact Appends.appends_trans (blossom_contract_vectors H v _ _ _ ‹_›)
          (blossom_scan_vectors H columnIndices v js _ _ h)

theorem augment_vertices_cov (H : PathHelpers) (G : Graph) (M : List Int) (front : List Int) :
    ∀ (vs : List Int) (r r1 : PhaseState × List Int),
      augment_vertices H G.rowOffsets G.columnIndices vs r = some r1 →
      Reachable H G M r.1 front → (∀ v ∈ vs, v ∈ front) →
      Reachable H G M r1.1 front ∧ VectorsKept r.1 r1.1
  | [], r, r1, h, hr, _ => by
    simp only [augment_vertices, Option.some.injEq] at h
    rw [← h]; exact ⟨hr, VectorsKept.vectors_refl _⟩
  | v :: vs, r, r1, h, hr, hv => by
    simp only [augment_vertices] at h
    split at h
    · split at h
      · contradiction
      · rename_i r2 h2
        have hstep : PhaseStep H G (r.1, front) (r2.1, front) :=
          PhaseStep.augment (hv v (List.mem_cons_self _ _)) h2
        have k1 := augment_scan_vectors H _ _ _ r.1 r.2 r2.1 r2.2 h2
        obtain ⟨r3, k3⟩ := augment_vertices_cov H G M front vs r2 r1 h (hr.step hstep)
          (fun u hu => hv u (List.mem_cons_of_mem _ hu))
        exact ⟨r3, k1.vectors_trans k3⟩
    · contradiction

theorem parAugmentingPath_cov (H : PathHelpers) (G : Graph) (M : List Int)
    (nodes_vector : List Int) (index T : Nat) (front : List Int)
    (hn : ∀ v ∈ nodes_vector, v ∈ front) (s s1 : PhaseState) (hs : Covered H G M s front)
    (h : parAugmentingPath H G.rowOffsets G.columnIndices nodes_vector index T s = some s1) :
    Covered H G M s1 front := by
  simp only [parAugmentingPath] at h
  split at h
  swap
  · contradiction
  split at h
  · contradiction
  · rename_i s2 local_path h2
    obtain ⟨r2, k2⟩ := augment_vertices_cov H G M front _ (s, []) (s2, local_path) h2 hs.1
      (fun v hv => hn v (mem_strided hv))
    have c2 : Covered H G M s2 front :=
      ⟨r2, fun u hu => hs.2.1 u (k2.1 ▸ hu), fun u hu => hs.2.2 u (k2.2 ▸ hu)⟩
    split at h
    · simp only [Option.some.injEq] at h
      rw [← h]
      exact ⟨r2.step (PhaseStep.collect _ s2.vector_1 s2.vector_2), c2.2.1, c2.2.2⟩
    · simp only [Option.some.injEq] at h
      rw [← h]; exact c2

theorem expand_vertices_cov (H : PathHelpers) (G : Graph) (M : List Int) :
    ∀ (vs : List Int) (r r1 : PhaseState × List Int) (front : List Int),
      expand_vertices G.rowOffsets G.columnIndices vs r = some r1 →
      Reachable H G M r.1 front → (∀ v ∈ vs, v ∈ front) →
      ∃ emitted, r1.2 = r.2 ++ emitted ∧ Reachable H G M r1.1 (front ++ emitted) ∧
        VectorsKept r.1 r1.1
  | [], r, r1, front, h, hr, _ => by
    simp only [expand_vertices, Option.some.injEq] at h
    rw [← h]
    exact ⟨[], by simp, by simpa using hr, VectorsKept.vectors_refl _⟩
  | v :: vs, r, r1, front, h, hr, hv => by
    simp only [expand_vertices] at h
    split at h
    · rename_i a b ha hb
      split at h
      · contradiction
      · rename_i r2 h2
        obtain ⟨k1, em1, he1⟩ := expand_scan_vectors _ _ _ r.1 r.2 r2 h2
        have h2a : expand_scan G.columnIndices v (indices a b) (r.1, r.2) = some (r2.1, r.2 ++ em1) := by
          rw [← he1]; exact h2
        have hstep : PhaseStep H G (r.1, front) (r2.1, front ++ em1) :=
          PhaseStep.expand (hv v (List.mem_cons_self _ _)) h2a
        obtain ⟨em2, he2, r3, k3⟩ := expand_vertices_cov H G M vs r2 r1 (front ++ em1) h
          (hr.step hstep)
          (fun u hu => List.mem_append_left _ (hv u (List.mem_cons_of_mem _ hu)))
        refine ⟨em1 ++ em2, ?_, ?_, k1.vectors_trans k3⟩
        · rw [he2, he1, List.append_assoc]
        · rw [← List.append_assoc]; exact r3
    · contradiction

theorem parExpand_cov (H : PathHelpers) (G : Graph) (M : List Int)
    (nodes_vector : List Int) (index T : Nat) (front : List Int)
    (hn : ∀ v ∈ nodes_vector, v ∈ front) (s s1 : PhaseState) (hs : Covered H G M s front)
    (h : parExpand G.rowOffsets G.columnIndices nodes_vector index T s = some s1) :
    ∃ front1, (∀ u ∈ front, u ∈ front1) ∧ Covered H G M s1 front1 := by
  simp only [parExpand] at h
  split at h
  swap
  · contradiction
  split at h
  · contradiction
  · rename_i s2 local_vector h2
    obtain ⟨em, he, r2, k2⟩ := expand_vertices_cov H G M _ (s, []) (s2, local_vector) front h2
      hs.1 (fun v hv => hn v (mem_strided hv))
    simp only [List.nil_append] at he
    subst he
    simp only [Option.some.injEq] at h
    rw [← h]
    refine ⟨front ++ local_vector, fun u hu => List.mem_append_left _ hu,
      r2.step (PhaseStep.collect s2.path_collection _ s2.vector_2), fun u hu => ?_,
      fun u hu => ?_⟩
    · rcases List.mem_append.mp hu with hu | hu
      · exact List.mem_append_left _ (hs.2.1 u (k2.1 ▸ hu))
      · exact List.mem_append_right _ hu
    · exact List.mem_append_left _ (hs.2.2 u (k2.2 ▸ hu))

theorem blossom_vertices_cov (H : PathHelpers) (G : Graph) (M : List Int) :
    ∀ (vs : List Int) (r r1 : PhaseState × List Int) (front : List Int),
      blossom_vertices H G.rowOffsets G.columnIndices vs r = some r1 →
      Reachable H G M r.1 front → (∀ v ∈ vs, v ∈ front) →
      ∃ emitted, r1.2 = r.2 ++ emitted ∧ Reachable H G M r1.1 (front ++ emitted) ∧
        VectorsKept r.1 r1.1
  | [], r, r1, front, h, hr, _ => by
    simp only [blossom_vertices, Option.some.injEq] at h
    rw [← h]
    exact ⟨[], by simp, by simpa using hr, VectorsKept.vectors_refl _⟩
  | v :: vs, r, r1, front, h, hr, hv => by
    simp only [blossom_vertices] at h
    split at h
    · rename_i a b ha hb
      split at h
      · contradiction
      · rename_i r2 h2
        obtain ⟨k1, em1, he1⟩ := blossom_scan_vectors H _ _ _ r r2 h2
        have h2a : blossom_scan H G.columnIndices v (indices a b) (r.1, r.2) = some (r2.1, r.2 ++ em1) := by
          rw [← he1]; exact h2
        have hstep : PhaseStep H G (r.1, front) (r2.1, front ++ em1) :=
          PhaseStep.blossom (hv v (List.mem_cons_self _ _)) h2a
        obtain ⟨em2, he2, r3, k3⟩ := blossom_vertices_cov H G M vs r2 r1 (front ++ em1) h
          (hr.step hstep)
          (fun u hu => List.mem_append_left _ (hv u (List.mem_cons_of_mem _ hu)))
        refine ⟨em1 ++ em2, ?_, ?_, k1.vectors_trans k3⟩
        · rw [he2, he1, List.append_assoc]
        · rw [← List.append_assoc]; exact r3
    · contradiction

theorem parBlossom_cov (H : PathHelpers) (G : Graph) (M : List Int)
    (nodes_vector : List Int) (index T : Nat) (front : List Int)
    (hn : ∀ v ∈ nodes_vector, v ∈ front) (s s1 : PhaseState) (hs : Covered H G M s front)
    (h : parBlossom H G.rowOffsets G.columnIndices nodes_vector index T s = some s1) :
    ∃ front1, (∀ u ∈ front, u ∈ front1) ∧ Covered H G M s1 front1 := by
  simp only [parBlossom] at h
  split at h
  swap
  · contradiction
  split at h
  · contradiction
  · rename_i s2 local_vector h2
    obtain ⟨em, he, r2, k2⟩ := blossom_vertices_cov H G M _ (s, []) (s2, local_vector) front h2
      hs.1 (fun v hv => hn v (mem_strided hv))
    simp only [List.nil_append] at he
    subst he
    simp only [Option.some.injEq] at h
    rw [← h]
    refine ⟨front ++ local_vector, fun u hu => List.mem_append_left _ hu,
      r2.step (PhaseStep.collect s2.path_collection s2.vector_1 _), fun u hu => ?_,
      fun u hu => ?_⟩
    · exact List.mem_append_left _ (hs.2.1 u (k2.1 ▸ hu))
    · rcases List.mem_append.mp hu with hu | hu
      · exact List.mem_append_left _ (hs.2.2 u (k2.2 ▸ hu))
      · exact List.mem_append_right _ hu

/-- The loop of a phase only passes through reachable states. -/
theorem phase_loop_cov (H : PathHelpers) (G : Graph) (M : List Int) (T : Nat) :
    ∀ (fuel : Nat) (nodes_vector : List Int) (s s1 : PhaseState) (front : List Int),
      Covered H G M s front → (∀ v ∈ nodes_vector, v ∈ front) →
      phase_loop H G T fuel nodes_vector s = some s1 → ∃ front1, Reachable H G M s1 front1
  | 0, _, _, _, _, _, _, h => by simp [phase_loop] at h
  | fuel + 1, nodes_vector, s, s1, front, hs, hn, h => by
    simp only [phase_loop] at h
    split at h
    · contradiction
    · rename_i sa ha
      have ca : Covered H G M sa front :=
        run_workers_induct (fun t => Covered H G M t front) _
          (fun index t t1 ht hw => parAugmentingPath_cov H G M nodes_vector index T front hn t t1
            ht hw) _ _ _ hs ha
      split at h
      · simp only [Option.some.injEq] at h
        rw [← h]; exact ⟨front, ca.1⟩
      · split at h
        · contradiction
        · rename_i sb hb
          have ca1 : CoveredFrom H G M front { sa with vector_1 := [] } :=
            ⟨front, fun u hu => hu,
              ca.1.step (PhaseStep.collect sa.path_collection [] sa.vector_2),
              fun u hu => by simp at hu, ca.2.2⟩
          have cb : CoveredFrom H G M front sb :=
            run_workers_induct (CoveredFrom H G M front) _
              (fun index t t1 ht hw => by
                obtain ⟨f1, hf1, c1⟩ := ht
                obtain ⟨f2, hf2, c2⟩ := parExpand_cov H G M nodes_vector index T f1
                  (fun v hv => hf1 v (hn v hv)) t t1 c1 hw
                exact ⟨f2, fun u hu => hf2 u (hf1 u hu), c2⟩) _ _ _ ca1 hb
          obtain ⟨fb, hfb, cb1⟩ := cb
          split at h
          · contradiction
          · rename_i sc hc
            have hnb : ∀ v ∈ copy_vector_to_vector sb.vector_1 sb.vector_2, v ∈ fb := by
              intro v hv
              rcases List.mem_append.mp hv with hv | hv
              · exact cb1.2.1 v hv
              · exact cb1.2.2 v hv
            have cb2 : CoveredFrom H G M fb { sb with vector_2 := [] } :=
              ⟨fb, fun u hu => hu,
                cb1.1.step (PhaseStep.collect sb.path_collection sb.vector_1 []),
                cb1.2.1, fun u hu => by simp at hu⟩
            have cc : CoveredFrom H G M fb sc :=
              run_workers_induct (CoveredFrom H G M fb) _
                (fun index t t1 ht hw => by
                  obtain ⟨f1, hf1, c1⟩ := ht
                  obtain ⟨f2, hf2, c2⟩ := parBlossom_cov H G M _ index T f1
                    (fun v hv => hf1 v (hnb v hv)) t t1 c1 hw
                  exact ⟨f2, fun u hu => hf2 u (hf1 u hu), c2⟩) _ _ _ cb2 hc
            obtain ⟨fc, hfc, cc1⟩ := cc
            split at h
            · simp only [Option.some.injEq] at h
              rw [← h]; exact ⟨fc, cc1.1⟩
            · refine phase_loop_cov H G M T fuel _ sc s1 fc cc1 ?_ h
              intro v hv
              rcases List.mem_append.mp hv with hv | hv
              · exact cc1.2.1 v hv
              · exact cc1.2.2 v hv

/-- The state a phase returns is reachable. -/
theorem phase_reachable (H : PathHelpers) (fuel : Nat) (G : Graph) (M : List Int)
    (pc pt : List (List Int)) (T : Nat) (s : PhaseState)
    (h : parFindAugmentingPathNoRecursionUpdatePathTable H fuel G M pc pt T = some s) :
    ∃ front, Reachable H G M s front := by
  simp only [parFindAugmentingPathNoRecursionUpdatePathTable] at h
  split at h
  · contradiction
  · rename_i exposed s0 h0
    have hv : s0.vector_1 = [] ∧ s0.vector_2 = [] := by
      simp only [phase_init] at h0
      split at h0
      · contradiction
      · simp only [Option.some.injEq, Prod.mk.injEq] at h0
        rw [← h0.2]
        exact ⟨rfl, rfl⟩
    exact phase_loop_cov H G M T fuel exposed s0 s exposed
      ⟨Reachable.init h0, fun u hu => by rw [hv.1] at hu; simp at hu,
        fun u hu => by rw [hv.2] at hu; simp at hu⟩
      (fun v hv => hv) h

/-! ## The helpers of the specification and a reachable state -/

theorem symmetric_of_mate_ok (M : List Int) (h : ∀ i, i < M.length → mate_ok M i) :
    symmetric M := by
  intro w x hw hx
  have h0 := rd_nonneg hw
  have h1 := rd_lt hw
  have h2 := h w.toNat h1
  have h3 : M.getD w.toNat (-1) = x := by
    unfold rd at hw
    rw [if_neg (by omega)] at hw
    simp [List.getD_eq_getElem?_getD, hw]
  unfold mate_ok at h2
  rw [h3] at h2
  rcases h2 with h2 | h2
  · exact absurd h2 hx
  · rw [h2]
    congr 1
    omega

theorem walk_path_table_mem (pt : List (List Int)) :
    ∀ (fuel : Nat) (current : Int) (path p : List Int),
      walk_path_table pt fuel current path = some p →
      ∀ u ∈ p, u ∈ path ∨ ∃ x chain, rd pt x = some chain ∧ u ∈ chain
  | 0, _, _, _, h, _, _ => by simp [walk_path_table] at h
  | fuel + 1, current, path, p, h, u, hu => by
    simp only [walk_path_table] at h
    split at h
    · contradiction
    · simp only [Option.some.injEq] at h
      rw [← h] at hu
      exact Or.inl hu
    · rename_i q chain hq
      rcases walk_path_table_mem pt fuel _ _ p h u hu with h1 | h1
      · rcases List.mem_append.mp h1 with h2 | h2
        · exact Or.inl h2
        · exact Or.inr ⟨current, q :: chain, hq, h2⟩
      · exact Or.inr h1

/-- The helpers as the specification describes them build every cycle sequence from the
walks of `v` and `w`. -/
theorem specHelpers_cycle_on_walks : CycleOnWalks specHelpers := by
  intro pt belongs v w path_v path_w B hpv hpw hB u hu
  have hv : ∀ a ∈ path_v, a = v ∨ ∃ x chain, rd pt x = some chain ∧ a ∈ chain := by
    intro a ha
    have h1 : walk_path_table pt (pt.length + 1) v [v] = some path_v := hpv
    rcases walk_path_table_mem pt _ _ _ _ h1 a ha with h2 | h2
    · exact Or.inl (List.mem_singleton.mp h2)
    · exact Or.inr h2
  have hw : ∀ a ∈ path_w, a = w ∨ ∃ x chain, rd pt x = some chain ∧ a ∈ chain := by
    intro a ha
    have h1 : find_path_vector_blossom_w pt w belongs = some (path_w, true) := hpw
    unfold find_path_vector_blossom_w at h1
    split at h1
    · contradiction
    · rename_i p hp
      split at h1
      · simp only [Option.some.injEq, Prod.mk.injEq] at h1
        rw [← h1.1] at ha
        rcases walk_path_table_mem pt _ _ _ _ hp a ha with h2 | h2
        · exact Or.inl (List.mem_singleton.mp h2)
        · exact Or.inr h2
      · contradiction
  have hB1 : find_blossom_vector_debug path_v path_w pt = some (B, true) := hB
  unfold find_blossom_vector_debug at hB1
  dsimp only at hB1
  split at hB1
  · simp at hB1
  · rename_i lca hl
    simp only [Option.some.injEq, Prod.mk.injEq] at hB1
    rw [← hB1.1] at hu
    have hlca : lca ∈ path_v := List.getElem?_mem hl
    simp only [List.mem_cons, List.mem_append, List.mem_reverse, List.not_mem_nil,
      or_false] at hu
    rcases hu with rfl | (h1 | h1) | rfl
    · rcases hv _ hlca with h2 | h2
      · exact Or.inl h2
      · exact Or.inr (Or.inr h2)
    · rcases hv u (List.mem_of_mem_take h1) with h2 | h2
      · exact Or.inl h2
      · exact Or.inr (Or.inr h2)
    · rcases hw u (List.mem_of_mem_take h1) with h2 | h2
      · exact Or.inr (Or.inl h2)
      · exact Or.inr (Or.inr h2)
    · rcases hv _ hlca with h2 | h2
      · exact Or.inl h2
      · exact Or.inr (Or.inr h2)

/-- The phase initialization on the triangle with the matching `0-1`. -/
theorem triangle_init :
    phase_init triangle [1, 0, -1] [] [[], [], []] 1 = some ([2], triangle_start) := by
  decide

/-- The state `triangle_state` is reachable: the root 2 is scanned by the Expand kernel. -/
theorem triangle_state_reachable (H : PathHelpers) :
    Reachable H triangle [1, 0, -1] triangle_state ([2] ++ [1]) := by
  have h1 : expand_scan triangle.columnIndices 2 [4, 5] (triangle_start, [])
      = some ({ triangle_state with vector_1 := [] }, [] ++ [1]) := by decide
  have h2 := (Reachable.init triangle_init : Reachable H triangle [1, 0, -1] _ _).step
    (PhaseStep.expand (List.mem_singleton.mpr rfl) h1)
  exact h2.step (PhaseStep.collect [] [1] [])

/-- Witness for C14: in the reachable state `triangle_state` the frontier vertex 1 meets
its exposed neighbour 2, the root; the scan goes on in the same state. -/
theorem C14_expand_skips_exposed_neighbours_witness :
    rd triangle_state.belongs 2 = some 2 ∧ (2 : Int) ≠ -1 ∧
      expand_scan triangle.columnIndices 1 (3 :: []) (triangle_state, [])
        = expand_scan triangle.columnIndices 1 [] (triangle_state, []) :=
  (C14_expand_skips_exposed_neighbours specHelpers triangle [1, 0, -1]
    (symmetric_of_mate_ok _ (by decide)) triangle_state _ (triangle_state_reachable specHelpers)
    1 3 [] [] 2 (by decide)).1 (by decide)

/-- Witness for C18: the reachable state `triangle_state` with the helpers of the
specification: the root 2 and the vertex 1 emitted by Expand have entered the frontier. -/
theorem C18_no_vertex_enters_the_frontier_twice_witness :
    ([2] ++ [1] : List Int).Nodup ∧
      (∀ u ∈ ([2] ++ [1] : List Int), even_labelled triangle_state u) ∧
      (∀ u, rd ([1, 0, -1] : List Int) u = some (-1) → u ∈ ([2] ++ [1] : List Int)) ∧
      ∀ s1 front1, PhaseStep specHelpers triangle (triangle_state, [2] ++ [1]) (s1, front1) →
        (∀ u, even_labelled triangle_state u → even_labelled s1 u) ∧
        ∃ emitted, front1 = ([2] ++ [1] : List Int) ++ emitted ∧ front1.Nodup ∧
          ∀ u ∈ emitted, u ∉ ([2] ++ [1] : List Int) ∧ ¬ even_labelled triangle_state u ∧
            even_labelled s1 u :=
  C18_no_vertex_enters_the_frontier_twice specHelpers specHelpers_cycle_on_walks triangle
    [1, 0, -1] (symmetric_of_mate_ok _ (by decide)) triangle_state _
    (triangle_state_reachable specHelpers)

/-! ## The entries of the predecessor table keep an even length (C21) -/

theorem EvenTable.of_forall_mem {pt : List (List Int)}
    (h : ∀ chain ∈ pt, chain.length % 2 = 0) : EvenTable pt :=
  fun _ chain hc => h chain (rd_mem hc)

theorem EvenTable.of_wr {pt pt1 : List (List Int)} {i : Int} {chain : List Int}
    (he : EvenTable pt) (h : wr pt i chain = some pt1) (hc : chain.length % 2 = 0) :
    EvenTable pt1 := by
  intro u c hu
  by_cases hui : u = i
  · subst hui
    rw [rd_wr_same h] at hu
    simp only [Option.some.injEq] at hu
    rw [← hu]; exact hc
  · rw [rd_wr_other h hui] at hu
    exact he u c hu

theorem EvenTable.of_wr_append {pt pt1 : List (List Int)} {x w v : Int} {chain : List Int}
    (he : EvenTable pt) (hx : rd pt x = some chain)
    (h : wr pt x (chain ++ [w, v]) = some pt1) : EvenTable pt1 := by
  refine EvenTable.of_wr he h ?_
  have := he _ _ hx
  simp only [List.length_append, List.length_cons, List.length_nil]
  omega

theorem EvenTable.of_wr_chain {pt pt1 : List (List Int)} {i e : Int} {old chain : List Int}
    (he : EvenTable pt) (h : wr pt i (old ++ chain) = some pt1) (ho : e = 0 ∧ old = [])
    (hc : chain.length % 2 = 0) : EvenTable pt1 := by
  refine EvenTable.of_wr he h ?_
  rw [ho.2]; simpa using hc

theorem expand_scan_even (columnIndices : List Int) (v : Int) :
    ∀ (js : List Int) (r r1 : PhaseState × List Int),
      expand_scan columnIndices v js r = some r1 →
      EvenTable r.1.path_table_vector → EvenTable r1.1.path_table_vector
  | [], r, r1, h, he => by
    simp only [expand_scan, Option.some.injEq] at h
    rw [← h]; exact he
  | j :: js, (s, l), r1, h, he => by
    simp only [expand_scan] at h
    repeat' (split at h)
    all_goals first
      | contradiction
      | exact expand_scan_even columnIndices v js _ r1 h he
      | exact expand_scan_even columnIndices v js _ r1 h
          (EvenTable.of_wr_append he ‹rd s.path_table_vector _ = some _›
            ‹wr s.path_table_vector _ _ = some _›)

theorem expand_vertices_even (rowOffsets columnIndices : List Int) :
    ∀ (vs : List Int) (r r1 : PhaseState × List Int),
      expand_vertices rowOffsets columnIndices vs r = some r1 →
      EvenTable r.1.path_table_vector → EvenTable r1.1.path_table_vector
  | [], r, r1, h, he => by
    simp only [expand_vertices, Option.some.injEq] at h
    rw [← h]; exact he
  | v :: vs, r, r1, h, he => by
    simp only [expand_vertices] at h
    repeat' (split at h)
    all_goals first
      | contradiction
      | exact expand_vertices_even rowOffsets columnIndices vs _ r1 h
          (expand_scan_even columnIndices v _ r _ ‹_› he)

theorem parExpand_even (rowOffsets columnIndices nodes_vector : List Int)
    (index num_threads : Nat) (s s1 : PhaseState)
    (h : parExpand rowOffsets columnIndices nodes_vector index num_threads s = some s1)
    (he : EvenTable s.path_table_vector) : EvenTable s1.path_table_vector := by
  simp only [parExpand] at h
  split at h
  swap
  · contradiction
  split at h
  · contradiction
  · rename_i s2 l h2
    simp only [Option.some.injEq] at h
    rw [← h]
    exact expand_vertices_even rowOffsets columnIndices _ _ _ h2 he

theorem blossom_visit_even (B : List Int) (k : Nat) (chain : List Int)
    (r r1 : PhaseState × List Int) (h : blossom_visit B k chain r = some r1)
    (hc : chain.length % 2 = 0) (he : EvenTable r.1.path_table_vector) :
    EvenTable r1.1.path_table_vector := by
  simp only [blossom_visit] at h
  repeat' (split at h)
  all_goals first
    | contradiction
    | (simp only [Option.some.injEq] at h
       rw [← h]
       first
        | exact he
        | exact EvenTable.of_wr he ‹wr _ _ [] = some _› rfl
        | exact EvenTable.of_wr_chain he ‹wr r.1.path_table_vector _ _ = some _›
            ‹_ ∧ _ = []› hc)

theorem first_pass_chain_length (B : List Int) (k : Nat) (hk : k ∈ first_pass_indices B.length) :
    (B.drop (k + 1)).length = B.length - 1 - k ∧ (B.length - 1 - k) % 2 = 0 := by
  unfold first_pass_indices at hk
  simp only [List.mem_reverse, List.mem_filter, List.mem_range, decide_eq_true_eq] at hk
  simp only [List.length_drop]
  omega

theorem second_pass_chain_length (B : List Int) (k : Nat)
    (hk : k ∈ second_pass_indices B.length) :
    (B.take k).reverse.length = k ∧ k % 2 = 0 := by
  unfold second_pass_indices at hk
  simp only [List.mem_filter, List.mem_range, decide_eq_true_eq] at hk
  simp only [List.length_reverse, List.length_take]
  omega

theorem blossom_first_pass_even (B : List Int) :
    ∀ (ks : List Nat) (r r1 : PhaseState × List Int),
      (∀ k ∈ ks, k ∈ first_pass_indices B.length) →
      blossom_first_pass B ks r = some r1 →
      EvenTable r.1.path_table_vector → EvenTable r1.1.path_table_vector
  | [], r, r1, _, h, he => by
    simp only [blossom_first_pass, Option.some.injEq] at h
    rw [← h]; exact he
  | k :: ks, r, r1, hks, h, he => by
    simp only [blossom_first_pass] at h
    split at h
    · contradiction
    · rename_i r2 h2
      have hk := first_pass_chain_length B k (hks k (List.mem_cons_self _ _))
      exact blossom_first_pass_even B ks r2 r1
        (fun a ha => hks a (List.mem_cons_of_mem _ ha)) h
        (blossom_visit_even B k _ r r2 h2 (by rw [hk.1]; exact hk.2) he)

theorem blossom_second_pass_even (B : List Int) :
    ∀ (ks : List Nat) (r r1 : PhaseState × List Int),
      (∀ k ∈ ks, k ∈ second_pass_indices B.length) →
      blossom_second_pass B ks r = some r1 →
      EvenTable r.1.path_table_vector → EvenTable r1.1.path_table_vector
  | [], r, r1, _, h, he => by
    simp only [blossom_second_pass, Option.some.injEq] at h
    rw [← h]; exact he
  | k :: ks, r, r1, hks, h, he => by
    simp only [blossom_second_pass] at h
    split at h
    · contradiction
    · rename_i r2 h2
      have hk := second_pass_chain_length B k (hks k (List.mem_cons_self _ _))
      exact blossom_second_pass_even B ks r2 r1
        (fun a ha => hks a (List.mem_cons_of_mem _ ha)) h
        (blossom_visit_even B k _ r r2 h2 (by rw [hk.1]; exact hk.2) he)

theorem blossom_contract_even (H : PathHelpers) (v w : Int)
    (r r1 : PhaseState × List Int) (h : blossom_contract H v w r = some r1)
    (he : EvenTable r.1.path_table_vector) : EvenTable r1.1.path_table_vector := by
  simp only [blossom_contract] at h
  repeat' (split at h)
  all_goals first
    | contradiction
    | (simp only [Option.some.injEq] at h; rw [← h]; exact he)
    | (have h1 := blossom_first_pass_even _ _ _ _ (fun _ hk => hk)
         ‹blossom_first_pass _ _ _ = some _›
       exact blossom_second_pass_even _ _ _ _ (fun _ hk => hk) h (h1 he))

theorem blossom_scan_even (H : PathHelpers) (columnIndices : List Int) (v : Int) :
    ∀ (js : List Int) (r r1 : PhaseState × List Int),
      blossom_scan H columnIndices v js r = some r1 →
      EvenTable r.1.path_table_vector → EvenTable r1.1.path_table_vector
  | [], r, r1, h, he => by
    simp only [blossom_scan, Option.some.injEq] at h
    rw [← h]; exact he
  | j :: js, r, r1, h, he => by
    simp only [blossom_scan] at h
    repeat' (split at h)
    all_goals first
      | contradiction
      | exact blossom_scan_even H columnIndices v js _ _ h he
      | exact blossom_scan_even H columnIndices v js _ _ h
          (blossom_contract_even H v _ _ _ ‹_› he)

theorem blossom_vertices_even (H : PathHelpers) (rowOffsets columnIndices : List Int) :
    ∀ (vs : List Int) (r r1 : PhaseState × List Int),
      blossom_vertices H rowOffsets columnIndices vs r = some r1 →
      EvenTable r.1.path_table_vector → EvenTable r1.1.path_table_vector
  | [], r, r1, h, he => by
    simp only [blossom_vertices, Option.some.injEq] at h
    rw [← h]; exact he
  | v :: vs, r, r1, h, he => by
    simp only [blossom_vertices] at h
    repeat' (split at h)
    all_goals first
      | contradiction
      | exact blossom_vertices_even H rowOffsets columnIndices vs _ r1 h
          (blossom_scan_even H columnIndices v _ r _ ‹_› he)

theorem parBlossom_even (H : PathHelpers) (rowOffsets columnIndices nodes_vector : List Int)
    (index num_threads : Nat) (s s1 : PhaseState)
    (h : parBlossom H rowOffsets columnIndices nodes_vector index num_threads s = some s1)
    (he : EvenTable s.path_table_vector) : EvenTable s1.path_table_vector := by
  simp only [parBlossom] at h
  split at h
  swap
  · contradiction
  split at h
  · contradiction
  · rename_i s2 l h2
    simp only [Option.some.injEq] at h
    rw [← h]
    exact blossom_vertices_even H rowOffsets columnIndices _ _ _ h2 he

theorem PhaseStep.step_even {H : PathHelpers} {G : Graph} {a b : PhaseState × List Int}
    (h : PhaseStep H G a b) (he : EvenTable a.1.path_table_vector) :
    EvenTable b.1.path_table_vector := by
  cases h with
  | augment hv hs =>
    have hf := (augment_scan_paths H G.columnIndices _ _ _ _ _ _ hs).1
    show EvenTable _
    rw [hf.1]; exact he
  | expand hv hs =>
    have h1 := expand_scan_even _ _ _ _ _ hs
    exact h1 he
  | blossom hv hs =>
    have h1 := blossom_scan_even H _ _ _ _ _ hs
    exact h1 he
  | collect pc v1 v2 => exact he

theorem Reachable.reachable_even {H : PathHelpers} {G : Graph} {M : List Int}
    {s : PhaseState} {front : List Int} (h : Reachable H G M s front) :
    EvenTable s.path_table_vector := by
  induction h with
  | init hinit =>
    intro u chain hu
    rw [(phase_init_spec _ _ _ _ _ _ _ hinit).2.2.2.2 u chain hu]
    rfl
  | step _ hstep ih => exact hstep.step_even ih

theorem flatten_length_even :
    ∀ (chains : List (List Int)), (∀ chain ∈ chains, chain.length % 2 = 0) →
      chains.flatten.length % 2 = 0
  | [], _ => rfl
  | c :: cs, h => by
    have h1 := h c (List.mem_cons_self _ _)
    have h2 := flatten_length_even cs (fun a ha => h a (List.mem_cons_of_mem _ ha))
    simp only [List.flatten_cons, List.length_append]
    omega

theorem walk_path_table_entries (pt : List (List Int)) :
    ∀ (fuel : Nat) (current : Int) (path p : List Int),
      walk_path_table pt fuel current path = some p →
      ∃ chains : List (List Int), (∀ chain ∈ chains, ∃ u, rd pt u = some chain) ∧
        p = path ++ chains.flatten
  | 0, _, _, _, h => by simp [walk_path_table] at h
  | fuel + 1, current, path, p, h => by
    simp only [walk_path_table] at h
    split at h
    · contradiction
    · simp only [Option.some.injEq] at h
      exact ⟨[], by simp, by simp [h]⟩
    · rename_i q chain hq
      obtain ⟨chains, hc, hp⟩ := walk_path_table_entries pt fuel _ _ p h
      refine ⟨(q :: chain) :: chains, ?_, ?_⟩
      · intro c hcm
        rcases List.mem_cons.mp hcm with h1 | h1
        · exact ⟨current, h1 ▸ hq⟩
        · exact hc c h1
      · rw [hp]; simp

/-- The walk modelled from the specification returns `v` followed by the entries it
followed. -/
theorem specHelpers_walk_of_entries : WalkOfEntries specHelpers := by
  intro pt v path h
  obtain ⟨chains, hc, hp⟩ := walk_path_table_entries pt _ v [v] path h
  exact ⟨chains, hc, by rw [hp]; rfl⟩

theorem root_path_odd {H : PathHelpers} (hH : WalkOfEntries H) {pt : List (List Int)}
    (he : EvenTable pt) {v : Int} {path : List Int}
    (h : H.find_path_vector pt v = some path) : path.length % 2 = 1 := by
  obtain ⟨chains, hc, hp⟩ := hH pt v path h
  have h1 := flatten_length_even chains (fun c hcm => by
    obtain ⟨u, hu⟩ := hc c hcm
    exact he u c hu)
  rw [hp, List.length_cons]
  omega

theorem emitted_path_even {H : PathHelpers} (hH : WalkOfEntries H)
    {rowOffsets columnIndices : List Int} {s : PhaseState} {vs p : List Int}
    (he : EvenTable s.path_table_vector)
    (h : EmittedPath H rowOffsets columnIndices s vs p) : p.length % 2 = 0 := by
  obtain ⟨v, w, tv, tw, ew, pv, pw, _, _, _, _, _, _, hpv, hpw, hp⟩ := h
  have h1 := root_path_odd hH he hpv
  have h2 := root_path_odd hH he hpw
  rw [hp, List.length_append, List.length_reverse]
  omega

theorem parAugmentingPath_even {H : PathHelpers} (hH : WalkOfEntries H)
    (rowOffsets columnIndices nodes_vector : List Int) (index num_threads : Nat)
    (s s1 : PhaseState) (he : EvenTable s.path_table_vector)
    (h : parAugmentingPath H rowOffsets columnIndices nodes_vector index num_threads s = some s1) :
    s1.path_table_vector = s.path_table_vector ∧
    ∃ paths : List (List Int),
      s1.path_collection
        = s.path_collection ++ (if paths.flatten ≠ [] then [paths.flatten] else []) ∧
      (∀ p ∈ paths, p.length % 2 = 0) ∧ paths.flatten.length % 2 = 0 := by
  simp only [parAugmentingPath] at h
  split at h
  swap
  · contradiction
  split at h
  · contradiction
  · rename_i s2 local_path h2
    obtain ⟨f, paths, e, _, p⟩ := augment_vertices_paths H rowOffsets columnIndices _ _ _ h2
    simp only [List.nil_append] at e
    subst e
    have hp : ∀ q ∈ paths, q.length % 2 = 0 := fun q hq => emitted_path_even hH he (p q hq)
    refine ⟨?_, paths, ?_, hp, flatten_length_even paths hp⟩
    · split at h
      all_goals (simp only [Option.some.injEq] at h; rw [← h]; exact f.1)
    · split at h
      · rename_i hne
        simp only [Option.some.injEq] at h
        rw [← h, if_pos hne]
        show s2.path_collection ++ _ = _
        rw [f.2.2.2]
      · rename_i hne
        simp only [Option.some.injEq] at h
        rw [← h, if_neg hne, f.2.2.2]
        simp

theorem blossom_visit_entries (B : List Int) (k : Nat) (chain : List Int)
    (r r1 : PhaseState × List Int) (h : blossom_visit B k chain r = some r1) :
    ∀ (x : Int) (c : List Int), rd r1.1.path_table_vector x = some c →
      c = [] ∨ rd r.1.path_table_vector x = some c ∨ (rd B (k : Int) = some x ∧ c = chain) := by
  intro x c hx
  rcases (blossom_visit_cases B k chain r r1 h).2.2 with h1 | ⟨current, hcur, _, _, _, _, h2, h3⟩
  · rcases h1.2.2 x c hx with h4 | h4
    · exact Or.inl h4
    · exact Or.inr (Or.inl h4)
  · by_cases hxc : x = current
    · subst hxc
      rw [h2] at hx
      exact Or.inr (Or.inr ⟨hcur, (Option.some.inj hx).symm⟩)
    · rw [h3 x hxc] at hx
      exact Or.inr (Or.inl hx)

/-- C21: the entries of the predecessor table keep an even length.  For every
implementation of the path helpers and every state: one position of an Expand scan either
changes no entry or appends exactly two vertices, `w` and `v`, to one entry; a visit of the
first pass of the Blossom kernel (`k = size - 3, size - 5, ...`) leaves every entry as it
was, empty, or equal to the chain of `size - 1 - k` vertices, a visit of the second pass
(`k = 2, 4, ...`) likewise with the chain of `k` vertices.  So a scan of the Expand
kernel, a visit of either pass, a contraction with whatever cycle sequence the helpers
returned, a scan of the Blossom kernel and a whole worker of either kernel, when they
return, leave every entry of even length if every entry had even length before, and every
state reachable within a phase has only entries of even length.  Hence, when
`find_path_vector` returns `v` followed by entries of the table, every root path it
returns has an odd number of vertices, every sequence the Augment kernel emits for a
claimed pair has an even number, and so has every inner sequence it adds to
`path_collection`; in a reachable state every root path returned has an odd number of
vertices. -/
theorem C21_path_table_entries_keep_even_length (H : PathHelpers) :
    (∀ (columnIndices : List Int) (v j : Int) (js : List Int) (s : PhaseState)
      (l : List Int) (r1 : PhaseState × List Int),
      expand_scan columnIndices v (j :: js) (s, l) = some r1 →
      expand_scan columnIndices v js (s, l) = some r1 ∨
      ∃ w x s1, expand_scan columnIndices v js (s1, l ++ [x]) = some r1 ∧
        (∃ chain, rd s.path_table_vector x = some chain ∧
          rd s1.path_table_vector x = some (chain ++ [w, v]) ∧
          (chain ++ [w, v]).length = chain.length + 2) ∧
        ∀ u, u ≠ x → rd s1.path_table_vector u = rd s.path_table_vector u) ∧
    (∀ (columnIndices : List Int) (v : Int) (js : List Int) (r r1 : PhaseState × List Int),
      expand_scan columnIndices v js r = some r1 →
      EvenTable r.1.path_table_vector → EvenTable r1.1.path_table_vector) ∧
    (∀ (B : List Int) (k : Nat) (r r1 : PhaseState × List Int),
      k ∈ first_pass_indices B.length →
      blossom_visit B k (B.drop (k + 1)) r = some r1 →
      (B.drop (k + 1)).length = B.length - 1 - k ∧
        (∀ (x : Int) (c : List Int), rd r1.1.path_table_vector x = some c →
          c = [] ∨ rd r.1.path_table_vector x = some c ∨
            (rd B (k : Int) = some x ∧ c = B.drop (k + 1))) ∧
        (EvenTable r.1.path_table_vector → EvenTable r1.1.path_table_vector)) ∧
    (∀ (B : List Int) (k : Nat) (r r1 : PhaseState × List Int),
      k ∈ second_pass_indices B.length →
      blossom_visit B k (B.take k).reverse r = some r1 →
      (B.take k).reverse.length = k ∧
        (∀ (x : Int) (c : List Int), rd r1.1.path_table_vector x = some c →
          c = [] ∨ rd r.1.path_table_vector x = some c ∨
            (rd B (k : Int) = some x ∧ c = (B.take k).reverse)) ∧
        (EvenTable r.1.path_table_vector → EvenTable r1.1.path_table_vector)) ∧
    (∀ (v w : Int) (r r1 : PhaseState × List Int),
      blossom_contract H v w r = some r1 →
      EvenTable r.1.path_table_vector → EvenTable r1.1.path_table_vector) ∧
    (∀ (columnIndices : List Int) (v : Int) (js : List Int) (r r1 : PhaseState × List Int),
      blossom_scan H columnIndices v js r = some r1 →
      EvenTable r.1.path_table_vector → EvenTable r1.1.path_table_vector) ∧
    (∀ (rowOffsets columnIndices nodes_vector : List Int) (index num_threads : Nat)
      (s s1 : PhaseState),
      (parExpand rowOffsets columnIndices nodes_vector index num_threads s = some s1 →
        EvenTable s.path_table_vector → EvenTable s1.path_table_vector) ∧
      (parBlossom H rowOffsets columnIndices nodes_vector index num_threads s = some s1 →
        EvenTable s.path_table_vector → EvenTable s1.path_table_vector)) ∧
    (∀ (G : Graph) (M : List Int) (s : PhaseState) (front : List Int),
      Reachable H G M s front → EvenTable s.path_table_vector) ∧
    (WalkOfEntries H →
      (∀ (path_table_vector : List (List Int)) (v : Int) (path : List Int),
        EvenTable path_table_vector → H.find_path_vector path_table_vector v = some path →
        path.length % 2 = 1) ∧
      (∀ (rowOffsets columnIndices nodes_vector : List Int) (index num_threads : Nat)
        (s s1 : PhaseState),
        EvenTable s.path_table_vector →
        parAugmentingPath H rowOffsets columnIndices nodes_vector index num_threads s = some s1 →
        s1.path_table_vector = s.path_table_vector ∧
        ∃ paths : List (List Int),
          s1.path_collection
            = s.path_collection ++ (if paths.flatten ≠ [] then [paths.flatten] else []) ∧
          (∀ p ∈ paths, p.length % 2 = 0) ∧ paths.flatten.length % 2 = 0) ∧
      ∀ (G : Graph) (M : List Int) (s : PhaseState) (front : List Int),
        Reachable H G M s front →
        ∀ (v : Int) (path : List Int),
          H.find_path_vector s.path_table_vector v = some path → path.length % 2 = 1) := by
  refine ⟨?_, expand_scan_even, ?_, ?_, blossom_contract_even H, blossom_scan_even H,
    ?_, ?_, ?_⟩
  · intro columnIndices v j js s l r1 h
    rcases expand_scan_cons columnIndices v j js s l r1 h with ⟨w, x, s1, _, he, h1⟩ | h1
    · obtain ⟨chain, hc1, hc2⟩ := he.2.2.2.1
      exact Or.inr ⟨w, x, s1, h1, ⟨chain, hc1, hc2, by simp⟩, he.2.2.2.2.1⟩
    · exact Or.inl h1
  · intro B k r r1 hk h
    have hl := first_pass_chain_length B k hk
    exact ⟨hl.1, blossom_visit_entries B k _ r r1 h,
      blossom_visit_even B k _ r r1 h (by rw [hl.1]; exact hl.2)⟩
  · intro B k r r1 hk h
    have hl := second_pass_chain_length B k hk
    exact ⟨hl.1, blossom_visit_entries B k _ r r1 h,
      blossom_visit_even B k _ r r1 h (by rw [hl.1]; exact hl.2)⟩
  · intro rowOffsets columnIndices nodes_vector index num_threads s s1
    exact ⟨parExpand_even _ _ _ _ _ s s1, parBlossom_even H _ _ _ _ _ s s1⟩
  · intro G M s front hs
    exact hs.reachable_even
  · intro hH
    exact ⟨fun pt v path he h => root_path_odd hH he h,
      fun rowOffsets columnIndices nodes_vector index num_threads s s1 he h =>
        parAugmentingPath_even hH rowOffsets columnIndices nodes_vector index num_threads
          s s1 he h,
      fun G M s front hs v path h => root_path_odd hH hs.reachable_even h⟩

/-- Witness for C21, on the triangle with the matching `0-1` and the helpers of the
specification: the Expand scan of the root 2 writes `path_table[1] = [0, 2]`, the
contraction of the pair `(1, 2)` writes `path_table[0] = [1, 2]`, and the root paths
`1, 0, 2` and `0, 1, 2` have three vertices each. -/
theorem C21_path_table_entries_keep_even_length_witness :
    expand_scan triangle.columnIndices 2 [4, 5] (triangle_start, [])
        = some ({ triangle_state with vector_1 := [] }, [1]) ∧
      EvenTable triangle_state.path_table_vector ∧
      (blossom_contract specHelpers 1 2 (triangle_state, [])).map
          (fun r => r.1.path_table_vector) = some [[1, 2], [0, 2], []] ∧
      EvenTable ([[1, 2], [0, 2], []] : List (List Int)) ∧
      specHelpers.find_path_vector triangle_state.path_table_vector 1 = some [1, 0, 2] ∧
      ([1, 0, 2] : List Int).length % 2 = 1 ∧
      specHelpers.find_path_vector [[1, 2], [0, 2], []] 0 = some [0, 1, 2] ∧
      ([0, 1, 2] : List Int).length % 2 = 1 :=
  let h := C21_path_table_entries_keep_even_length specHelpers
  have h0 : EvenTable triangle_start.path_table_vector :=
    EvenTable.of_forall_mem (by decide)
  have h1 : EvenTable triangle_state.path_table_vector :=
    h.2.1 triangle.columnIndices 2 [4, 5] (triangle_start, [])
      ({ triangle_state with vector_1 := [] }, [1]) (by decide) h0
  have h2 : EvenTable ([[1, 2], [0, 2], []] : List (List Int)) :=
    h.2.2.2.2.1 1 2 (triangle_state, [])
      ({ triangle_state with
          is_even := [1, 1, 1], path_table_vector := [[1, 2], [0, 2], []],
          select_blossom := [1, 0, 0], blossom_to_base := [2, 2, 2] }, [0])
      (by decide) h1
  ⟨by decide, h1, by decide, h2, by decide,
    (h.2.2.2.2.2.2.2.2 specHelpers_walk_of_entries).2.2 triangle [1, 0, -1] triangle_state _
      (triangle_state_reachable specHelpers) 1 [1, 0, 2] (by decide),
    by decide,
    (h.2.2.2.2.2.2.2.2 specHelpers_walk_of_entries).1 [[1, 2], [0, 2], []] 0 [0, 1, 2] h2
      (by decide)⟩

end XBlossom
